import Mathlib

/-!
# Search server: inverted index, query parsing and TF-IDF ranking

A shallow embedding of `search_server.h`, `search_server.cpp` and
`concurrent_map.h`.

* `std::string` / `std::string_view` are lists of characters (`Str`), a
  character standing for one byte of the C++ string.
* `std::set<K>` and `std::map<K, V>` are lists kept in ascending key order
  (`OrdSet`, `OrdMap`); iteration over the container is iteration over the list.
* `int` is `Int`; where the source does arithmetic on it (`ComputeAverageRating`)
  the result is wrapped to 32 bits by `wrap32`.
* `double` is an arbitrary type `R` with the operations the source uses
  (`DoubleOps R`).  Nothing is assumed about these operations unless a theorem
  says so, hence every theorem holds for IEEE doubles as well as for exact
  arithmetic (`exactOps`).
* A member function that throws, or whose behaviour is undefined, yields a
  `Fault`.  A mutating member function returns the outcome together with the
  state it leaves behind.
* `std::sort` is library code.  Its contract is `SortContract`: the result is a
  rearrangement, sorted when the comparison is a strict weak ordering on the
  input.  `FindTopDocumentsBy` and `FindTopDocumentsPar` take the sorting function
  as an argument; `FindTopDocuments` is the sequential version at insertion sort,
  used where only the rearrangement matters.
-/

namespace SearchEngine

/-! ## Strings and faults -/

/-- A C++ string, as the list of its bytes. -/
abbrev Str := List Char

/-- The ways in which a call can fail to return normally. -/
inductive Fault where
  /-- `std::invalid_argument` was thrown. -/
  | invalid_argument
  /-- `std::out_of_range` was thrown by `std::map::at`. -/
  | out_of_range
  /-- Integer division by zero (undefined behaviour). -/
  | division_by_zero
  /-- An end iterator was dereferenced (undefined behaviour). -/
  | end_dereference
  /-- Remainder by zero in `ConcurrentMap::operator[]` (undefined behaviour). -/
  | modulo_by_zero
  deriving DecidableEq, Repr

/-! ## Arithmetic on `double` -/

/-- The operations on `double` that the source uses. -/
structure DoubleOps (R : Type) where
  /-- The value `0.0` of a value-initialised `double`. -/
  zero : R
  /-- The literal `1.0`. -/
  one : R
  /-- The literal `1e-6` (`kRelevanceAccuracy`). -/
  eps : R
  /-- Conversion `static_cast<double>(n)` of a `size_t`. -/
  ofNat : Nat → R
  /-- Addition `a + b`. -/
  add : R → R → R
  /-- Subtraction `a - b`. -/
  sub : R → R → R
  /-- Multiplication `a * b`. -/
  mul : R → R → R
  /-- Division `a / b`. -/
  div : R → R → R
  /-- Absolute value `abs(a)`. -/
  abs : R → R
  /-- Natural logarithm `log(a)`. -/
  log : R → R
  /-- Comparison `a < b`. -/
  lt : R → R → Bool

/-- Exact rational arithmetic, for a given logarithm `ln`. -/
def exactOps (ln : ℚ → ℚ) : DoubleOps ℚ where
  zero := 0
  one := 1
  eps := 1 / 1000000
  ofNat := fun n => (n : ℚ)
  add := fun a b => a + b
  sub := fun a b => a - b
  mul := fun a b => a * b
  div := fun a b => a / b
  abs := fun a => |a|
  log := ln
  lt := fun a b => decide (a < b)

/-- A computable stand-in for the logarithm in worked examples: the tangent of
`ln` at `1`, so that `lnTangent 1 = 0`. -/
def lnTangent (x : ℚ) : ℚ := x - 1

/-! ## Ordered containers -/

namespace OrdSet

variable {K : Type} [LinearOrder K]

/-- Insertion of `k` at its place in an ascending list. -/
def insertSorted (k : K) : List K → List K
  | [] => [k]
  | x :: rest => if k < x then k :: x :: rest else x :: insertSorted k rest

/-- The call `s.insert(k)` of `std::set`: nothing happens when `k` is already there. -/
def insert (k : K) (s : List K) : List K :=
  if k ∈ s then s else insertSorted k s

/-- The call `s.count(k)` of `std::set`. -/
def count (s : List K) (k : K) : Nat :=
  if k ∈ s then 1 else 0

end OrdSet

/-- A `std::map<K, V>`: the list of its entries in ascending key order. -/
abbrev OrdMap (K V : Type) := List (K × V)

namespace OrdMap

variable {K V : Type} [LinearOrder K]

/-- The keys of a map, in iteration order. -/
def keys (m : OrdMap K V) : List K := m.map Prod.fst

/-- The lookup `m.find(k)`: the value stored under `k`, if any. -/
def find? : OrdMap K V → K → Option V
  | [], _ => none
  | (x, v) :: rest, k => if k = x then some v else find? rest k

/-- The call `m.count(k)` of `std::map`. -/
def count (m : OrdMap K V) (k : K) : Nat :=
  if (find? m k).isSome then 1 else 0

/-- Insertion of a new entry at its place in ascending key order. -/
def insertSorted (k : K) (v : V) : OrdMap K V → OrdMap K V
  | [] => [(k, v)]
  | p :: rest => if k < p.1 then (k, v) :: p :: rest else p :: insertSorted k v rest

/-- The call `m.emplace(k, v)`: inserts unless the key is present. -/
def emplace (k : K) (v : V) (m : OrdMap K V) : OrdMap K V :=
  if (find? m k).isSome then m else insertSorted k v m

/-- The update `f(m[k])` through `operator[]`: the entry under `k` is created
with the value-initialised `d` when absent, then `f` is applied to it in place. -/
def alter (k : K) (d : V) (f : V → V) (m : OrdMap K V) : OrdMap K V :=
  if (find? m k).isSome then m.map (fun p => if p.1 = k then (p.1, f p.2) else p)
  else insertSorted k (f d) m

/-- The call `m.erase(k)`. -/
def erase (k : K) (m : OrdMap K V) : OrdMap K V :=
  m.filter (fun p => decide (p.1 ≠ k))

end OrdMap

/-! ## Documents -/

/-- The enumeration `DocumentStatus`. -/
inductive DocumentStatus where
  | ACTUAL
  | IRRELEVANT
  | BANNED
  | REMOVED
  deriving DecidableEq, Repr

/-- The struct `SearchServer::DocumentData`. -/
structure DocumentData where
  rating : Int
  status : DocumentStatus
  deriving DecidableEq, Repr

/-- The struct `Document` of `document.h`. -/
structure Document (R : Type) where
  id : Int
  relevance : R
  rating : Int
  deriving DecidableEq, Repr

/-- The struct `SearchServer::QueryWord`. -/
structure QueryWord where
  data : Str
  is_minus : Bool
  is_stop : Bool
  deriving DecidableEq, Repr

/-- The struct `SearchServer::Query`: two `std::set<string_view>`. -/
structure Query where
  plus_words : List Str
  minus_words : List Str
  deriving DecidableEq, Repr

/-- The data members of `class SearchServer`. -/
structure SearchServer (R : Type) where
  all_words_ : List Str
  stop_words_ : List Str
  word_to_document_freqs_ : OrdMap Str (OrdMap Int R)
  documents_ : OrdMap Int DocumentData
  document_ids_ : List Int

/-- The constant `MAX_RESULT_DOCUMENT_COUNT`. -/
def MAX_RESULT_DOCUMENT_COUNT : Nat := 5

/-- A document predicate `(document_id, status, rating) -> bool`. -/
abbrev DocumentPredicate := Int → DocumentStatus → Int → Bool

/-! ## Tokenizer -/

/-- The whitespace bytes: blank, and the controls from tab to carriage return. -/
def isSpace (c : Char) : Bool :=
  decide (c = ' ') || (decide (9 ≤ c.toNat) && decide (c.toNat ≤ 13))

/-- Modelled from the spec: `SplitIntoWords` is declared in `string_processing.h`
but its body is not among the sources.  The spec gives it as
`splitIntoWords(text) → ordered sequence of word-views, splitting on whitespace`,
in left-to-right order of occurrence; empty pieces are not words. -/
def SplitIntoWords (text : Str) : List Str :=
  (text.splitOnP isSpace).filter (fun w => !w.isEmpty)

/-! ## Private helpers of `SearchServer` -/

/-- Transcription of `SearchServer::IsValidWord`: no byte `c` with `c >= '\0' && c < ' '`. -/
def IsValidWord (word : Str) : Bool :=
  !(word.any (fun c => decide (0 ≤ c.toNat) && decide (c.toNat < 32)))

/-- Two's complement wrap of an integer to the 32 bits of `int`. -/
def wrap32 (x : Int) : Int := (x + 2147483648) % 4294967296 - 2147483648

/-- Transcription of `SearchServer::ComputeAverageRating`: the sum is accumulated
in an `int`, then divided by `static_cast<int>(ratings.size())` with the
truncating division of C++.  Dividing by zero is undefined behaviour. -/
def ComputeAverageRating (ratings : List Int) : Except Fault Int :=
  let rating_sum := ratings.foldl (fun acc rating => wrap32 (acc + rating)) 0
  let size := wrap32 (ratings.length : Int)
  if size = 0 then .error .division_by_zero
  else .ok (wrap32 (Int.tdiv rating_sum size))

/-- Transcription of `SearchServer::IsStopWord`. -/
def IsStopWord {R : Type} (s : SearchServer R) (word : Str) : Bool :=
  decide (OrdSet.count s.stop_words_ word > 0)

/-- The loop of `SearchServer::SplitIntoWordsNoStop` over the tokens. -/
def SplitIntoWordsNoStopLoop {R : Type} (s : SearchServer R) : List Str → Except Fault (List Str)
  | [] => .ok []
  | word :: rest =>
    if !IsValidWord word then .error .invalid_argument
    else
      match SplitIntoWordsNoStopLoop s rest with
      | .error e => .error e
      | .ok words => .ok (if !IsStopWord s word then word :: words else words)

/-- Transcription of `SearchServer::SplitIntoWordsNoStop`. -/
def SplitIntoWordsNoStop {R : Type} (s : SearchServer R) (text : Str) : Except Fault (List Str) :=
  SplitIntoWordsNoStopLoop s (SplitIntoWords text)

/-- Transcription of `SearchServer::ParseQueryWord`.  The tokens it receives from
`SplitIntoWords` are never empty, so `text[0]` is read as the head of the list. -/
def ParseQueryWord {R : Type} (s : SearchServer R) (text : Str) : Except Fault QueryWord :=
  let is_minus := decide (text.head? = some '-')
  let text := if is_minus then text.drop 1 else text
  if text.isEmpty || decide (text.head? = some '-') || decide (text.getLast? = some '-')
      || !IsValidWord text then
    .error .invalid_argument
  else .ok { data := text, is_minus := is_minus, is_stop := IsStopWord s text }

/-- The loop of `SearchServer::ParseQuery` over the tokens, updating the query. -/
def ParseQueryLoop {R : Type} (s : SearchServer R) : List Str → Query → Except Fault Query
  | [], query => .ok query
  | word :: rest, query =>
    match ParseQueryWord s word with
    | .error e => .error e
    | .ok query_word =>
      if !query_word.is_stop then
        if query_word.is_minus then
          ParseQueryLoop s rest
            { query with minus_words := OrdSet.insert query_word.data query.minus_words }
        else
          ParseQueryLoop s rest
            { query with plus_words := OrdSet.insert query_word.data query.plus_words }
      else ParseQueryLoop s rest query

/-- Transcription of `SearchServer::ParseQuery`. -/
def ParseQuery {R : Type} (s : SearchServer R) (text : Str) : Except Fault Query :=
  ParseQueryLoop s (SplitIntoWords text) { plus_words := [], minus_words := [] }

/-- Transcription of `SearchServer::GetDocumentCount`. -/
def GetDocumentCount {R : Type} (s : SearchServer R) : Nat :=
  s.documents_.length

/-- Transcription of `SearchServer::ComputeWordInverseDocumentFreq`. -/
def ComputeWordInverseDocumentFreq {R : Type} (ar : DoubleOps R) (s : SearchServer R)
    (word : Str) : Except Fault R :=
  match OrdMap.find? s.word_to_document_freqs_ word with
  | none => .error .out_of_range
  | some freqs =>
    .ok (ar.log (ar.div (ar.mul (ar.ofNat (GetDocumentCount s)) ar.one) (ar.ofNat freqs.length)))

/-! ## Construction and mutation -/

/-- The loop of the constructor: every stop word is interned in `all_words_` and
recorded in `stop_words_`. -/
def internStopWords {R : Type} : List Str → SearchServer R → SearchServer R
  | [], s => s
  | word :: rest, s =>
    internStopWords rest
      { s with all_words_ := OrdSet.insert word s.all_words_,
               stop_words_ := OrdSet.insert word s.stop_words_ }

/-- The server before any stop word or document is stored. -/
def emptyServer {R : Type} : SearchServer R :=
  { all_words_ := [], stop_words_ := [], word_to_document_freqs_ := [],
    documents_ := [], document_ids_ := [] }

/-- Transcription of the constructor `SearchServer(StringContainer stop_words)`. -/
def create {R : Type} (stop_words : List Str) : Except Fault (SearchServer R) :=
  if !stop_words.all IsValidWord then .error .invalid_argument
  else .ok (internStopWords stop_words emptyServer)

/-- Transcription of the constructors taking the stop words as one text. -/
def createFromText {R : Type} (stop_words_text : Str) : Except Fault (SearchServer R) :=
  create (SplitIntoWords stop_words_text)

/-- The loop of `SearchServer::AddDocument` over the words of the document. -/
def indexWords {R : Type} (ar : DoubleOps R) (document_id : Int) (inv_word_count : R) :
    List Str → SearchServer R → SearchServer R
  | [], s => s
  | word :: rest, s =>
    indexWords ar document_id inv_word_count rest
      { s with
        all_words_ := OrdSet.insert word s.all_words_,
        word_to_document_freqs_ :=
          OrdMap.alter word []
            (fun freqs => OrdMap.alter document_id ar.zero (fun v => ar.add v inv_word_count) freqs)
            s.word_to_document_freqs_ }

/-- Transcription of `SearchServer::AddDocument`.  The result is the outcome of the
call together with the state of the server when the call ends. -/
def AddDocument {R : Type} (ar : DoubleOps R) (s : SearchServer R) (document_id : Int)
    (document : Str) (status : DocumentStatus) (ratings : List Int) :
    Except Fault Unit × SearchServer R :=
  if document_id < 0 ∨ OrdMap.count s.documents_ document_id > 0 then
    (.error .invalid_argument, s)
  else
    match SplitIntoWordsNoStop s document with
    | .error e => (.error e, s)
    | .ok words =>
      let inv_word_count := ar.div ar.one (ar.ofNat words.length)
      let s1 := indexWords ar document_id inv_word_count words s
      match ComputeAverageRating ratings with
      | .error e => (.error e, s1)
      | .ok rating =>
        (.ok (),
          { s1 with
            documents_ := OrdMap.emplace document_id { rating := rating, status := status } s1.documents_,
            document_ids_ := s1.document_ids_ ++ [document_id] })

/-- The binary search of `std::lower_bound` on `[first, first + len)`; `fuel` bounds
the number of halvings. -/
def lowerBoundLoop (v : List Int) (val : Int) : Nat → Nat → Nat → Nat
  | 0, first, _ => first
  | fuel + 1, first, len =>
    if len = 0 then first
    else
      let half := len / 2
      let mid := first + half
      match v[mid]? with
      | none => first
      | some x =>
        if x < val then lowerBoundLoop v val fuel (mid + 1) (len - half - 1)
        else lowerBoundLoop v val fuel first half

/-- The call `lower_bound(v.begin(), v.end(), val)`, as an index into `v`. -/
def lower_bound (v : List Int) (val : Int) : Nat :=
  lowerBoundLoop v val (v.length + 1) 0 v.length

/-- Transcription of `SearchServer::RemoveDocument(int)`.  Reading `*id_to_delete`
when `lower_bound` returned `end()` is undefined behaviour. -/
def RemoveDocument {R : Type} (s : SearchServer R) (document_id : Int) :
    Except Fault Unit × SearchServer R :=
  let s1 := { s with documents_ := OrdMap.erase document_id s.documents_ }
  let id_to_delete := lower_bound s1.document_ids_ document_id
  match s1.document_ids_[id_to_delete]? with
  | none => (.error .end_dereference, s1)
  | some x =>
    let s2 := if x = document_id then
        { s1 with document_ids_ := s1.document_ids_.eraseIdx id_to_delete }
      else s1
    (.ok (),
      { s2 with
        word_to_document_freqs_ :=
          s2.word_to_document_freqs_.map (fun p =>
            (p.1, if OrdMap.count p.2 document_id ≠ 0 then OrdMap.erase document_id p.2 else p.2)) })

/-- The states a server can be in: constructed from valid stop words, then changed
by calls of `AddDocument` and `RemoveDocument` that return normally. -/
inductive Reachable {R : Type} (ar : DoubleOps R) : SearchServer R → Prop
  | create (stop_words : List Str) (s : SearchServer R) :
      create stop_words = .ok s → Reachable ar s
  | add (s s' : SearchServer R) (document_id : Int) (document : Str)
      (status : DocumentStatus) (ratings : List Int) :
      Reachable ar s → AddDocument ar s document_id document status ratings = (.ok (), s') →
      Reachable ar s'
  | remove (s s' : SearchServer R) (document_id : Int) :
      Reachable ar s → RemoveDocument s document_id = (.ok (), s') → Reachable ar s'

/-! ## Ranking, sequential -/

/-- The inner loop of `FindAllDocuments` over the `(document_id, term_freq)` pairs of
one plus-word. -/
def accumulateWord {R : Type} (ar : DoubleOps R) (s : SearchServer R)
    (document_predicate : DocumentPredicate) (inverse_document_freq : R) :
    List (Int × R) → OrdMap Int R → Except Fault (OrdMap Int R)
  | [], document_to_relevance => .ok document_to_relevance
  | (document_id, term_freq) :: rest, document_to_relevance =>
    match OrdMap.find? s.documents_ document_id with
    | none => .error .out_of_range
    | some document_data =>
      accumulateWord ar s document_predicate inverse_document_freq rest
        (if document_predicate document_id document_data.status document_data.rating then
          OrdMap.alter document_id ar.zero
            (fun v => ar.add v (ar.mul term_freq inverse_document_freq)) document_to_relevance
        else document_to_relevance)

/-- The first loop of `FindAllDocuments`, over the plus-words. -/
def accumulatePlus {R : Type} (ar : DoubleOps R) (s : SearchServer R)
    (document_predicate : DocumentPredicate) :
    List Str → OrdMap Int R → Except Fault (OrdMap Int R)
  | [], document_to_relevance => .ok document_to_relevance
  | word :: rest, document_to_relevance =>
    match OrdMap.find? s.word_to_document_freqs_ word with
    | none => accumulatePlus ar s document_predicate rest document_to_relevance
    | some freqs =>
      match ComputeWordInverseDocumentFreq ar s word with
      | .error e => .error e
      | .ok inverse_document_freq =>
        match accumulateWord ar s document_predicate inverse_document_freq freqs
            document_to_relevance with
        | .error e => .error e
        | .ok updated => accumulatePlus ar s document_predicate rest updated

/-- The inner loop over one minus-word: every listed document is erased. -/
def eraseListed {R : Type} : List (Int × R) → OrdMap Int R → OrdMap Int R
  | [], document_to_relevance => document_to_relevance
  | (document_id, _) :: rest, document_to_relevance =>
    eraseListed rest (OrdMap.erase document_id document_to_relevance)

/-- The second loop of `FindAllDocuments`, over the minus-words. -/
def eraseMinus {R : Type} (s : SearchServer R) : List Str → OrdMap Int R → OrdMap Int R
  | [], document_to_relevance => document_to_relevance
  | word :: rest, document_to_relevance =>
    match OrdMap.find? s.word_to_document_freqs_ word with
    | none => eraseMinus s rest document_to_relevance
    | some freqs => eraseMinus s rest (eraseListed freqs document_to_relevance)

/-- The last loop of `FindAllDocuments`: one `Document` per entry of the map. -/
def materialize {R : Type} (s : SearchServer R) : List (Int × R) → Except Fault (List (Document R))
  | [] => .ok []
  | (document_id, relevance) :: rest =>
    match OrdMap.find? s.documents_ document_id with
    | none => .error .out_of_range
    | some document_data =>
      match materialize s rest with
      | .error e => .error e
      | .ok matched_documents =>
        .ok ({ id := document_id, relevance := relevance, rating := document_data.rating }
              :: matched_documents)

/-- Transcription of the sequential `SearchServer::FindAllDocuments`. -/
def FindAllDocuments {R : Type} (ar : DoubleOps R) (s : SearchServer R) (query : Query)
    (document_predicate : DocumentPredicate) : Except Fault (List (Document R)) :=
  match accumulatePlus ar s document_predicate query.plus_words [] with
  | .error e => .error e
  | .ok document_to_relevance =>
    materialize s (eraseMinus s query.minus_words document_to_relevance)

/-- The comparison passed to `sort` in `FindTopDocuments`. -/
def compareDocuments {R : Type} (ar : DoubleOps R) (lhs rhs : Document R) : Bool :=
  if ar.lt (ar.abs (ar.sub lhs.relevance rhs.relevance)) ar.eps then
    decide (lhs.rating > rhs.rating)
  else ar.lt rhs.relevance lhs.relevance

/-- Insertion of `x` into a list ordered by `comp`, after the elements that go
before it. -/
def sortInsert {α : Type} (comp : α → α → Bool) (x : α) : List α → List α
  | [] => [x]
  | y :: rest => if comp y x then y :: sortInsert comp x rest else x :: y :: rest

/-- Sorting by insertion: one function that meets the contract of
`std::sort(first, last, comp)` (see `SortContract`).  It is the sort of the
sequential `FindTopDocuments` in the statements that hold of every such function
because they use no more than that the result is a rearrangement, or that concern
inputs on which the comparison is a strict weak ordering. -/
def sort {α : Type} (comp : α → α → Bool) : List α → List α
  | [] => []
  | x :: rest => sortInsert comp x (sort comp rest)

/-- The tail of `FindTopDocuments`: sort, then cut to `MAX_RESULT_DOCUMENT_COUNT`
(`sortAndCutBy` at insertion sort). -/
def sortAndCut {R : Type} (ar : DoubleOps R) (matched_documents : List (Document R)) :
    List (Document R) :=
  let sorted := sort (compareDocuments ar) matched_documents
  if sorted.length > MAX_RESULT_DOCUMENT_COUNT then sorted.take MAX_RESULT_DOCUMENT_COUNT
  else sorted

/-- Transcription of `SearchServer::FindTopDocuments(raw_query, document_predicate)`,
with insertion sort for the call of `std::sort` (`FindTopDocumentsBy` at `sort`). -/
def FindTopDocuments {R : Type} (ar : DoubleOps R) (s : SearchServer R) (raw_query : Str)
    (document_predicate : DocumentPredicate) : Except Fault (List (Document R)) :=
  match ParseQuery s raw_query with
  | .error e => .error e
  | .ok query =>
    match FindAllDocuments ar s query document_predicate with
    | .error e => .error e
    | .ok matched_documents => .ok (sortAndCut ar matched_documents)

/-! ## `ConcurrentMap` and ranking, parallel -/

/-- The data member of `ConcurrentMap<int, double>`: the vector of buckets.  The
mutex of a bucket makes each access through `operator[]` one indivisible step,
which is how an access is modelled. -/
structure ConcurrentMap (R : Type) where
  split_map_in_vec_ : List (OrdMap Int R)

namespace ConcurrentMap

/-- Transcription of the constructor `ConcurrentMap(size_t bucket_count)`. -/
def create {R : Type} (bucket_count : Nat) : ConcurrentMap R :=
  { split_map_in_vec_ := List.replicate bucket_count [] }

/-- The index computed by `operator[]`:
`static_cast<uint64_t>(key) % split_map_in_vec_.size()`. -/
def bucketIndex (key : Int) (bucket_count : Nat) : Nat :=
  (key % 18446744073709551616).toNat % bucket_count

/-- Replacement of the bucket at position `index`. -/
def modifyBucket {R : Type} (f : OrdMap Int R → OrdMap Int R) :
    Nat → List (OrdMap Int R) → List (OrdMap Int R)
  | _, [] => []
  | 0, bucket :: rest => f bucket :: rest
  | index + 1, bucket :: rest => bucket :: modifyBucket f index rest

/-- The statement `m[key].ref_to_value = f(m[key].ref_to_value)`: `operator[]`
picks the bucket, locks it and creates the value-initialised entry `d` when the key
is absent; the update happens while the `Access` holds the lock.  With no bucket
the remainder is undefined. -/
def update {R : Type} (m : ConcurrentMap R) (key : Int) (d : R) (f : R → R) :
    Except Fault (ConcurrentMap R) :=
  if m.split_map_in_vec_.length = 0 then .error .modulo_by_zero
  else
    .ok { split_map_in_vec_ :=
            modifyBucket (OrdMap.alter key d f)
              (bucketIndex key m.split_map_in_vec_.length) m.split_map_in_vec_ }

/-- The range insertion `result.insert(dictionary.begin(), dictionary.end())`. -/
def insertRange {R : Type} : List (Int × R) → OrdMap Int R → OrdMap Int R
  | [], result => result
  | (key, value) :: rest, result => insertRange rest (OrdMap.emplace key value result)

/-- The loop of `BuildOrdinaryMap` over the buckets. -/
def buildLoop {R : Type} : List (OrdMap Int R) → OrdMap Int R → OrdMap Int R
  | [], result => result
  | dictionary :: rest, result => buildLoop rest (insertRange dictionary result)

/-- Transcription of `ConcurrentMap::BuildOrdinaryMap`. -/
def BuildOrdinaryMap {R : Type} (m : ConcurrentMap R) : OrdMap Int R :=
  buildLoop m.split_map_in_vec_ []

end ConcurrentMap

/-- The body of the parallel `for_each` over the pairs of one plus-word, the pairs
taken in the order in which their updates of the accumulator take effect. -/
def accumulateWordPar {R : Type} (ar : DoubleOps R) (s : SearchServer R)
    (document_predicate : DocumentPredicate) (inverse_document_freq : R) :
    List (Int × R) → ConcurrentMap R → Except Fault (ConcurrentMap R)
  | [], document_to_relevance_concurrent => .ok document_to_relevance_concurrent
  | (document_id, term_freq) :: rest, document_to_relevance_concurrent =>
    match OrdMap.find? s.documents_ document_id with
    | none => .error .out_of_range
    | some document_data =>
      if document_predicate document_id document_data.status document_data.rating then
        match ConcurrentMap.update document_to_relevance_concurrent document_id ar.zero
            (fun v => ar.add v (ar.mul term_freq inverse_document_freq)) with
        | .error e => .error e
        | .ok updated =>
          accumulateWordPar ar s document_predicate inverse_document_freq rest updated
      else
        accumulateWordPar ar s document_predicate inverse_document_freq rest
          document_to_relevance_concurrent

/-- The first loop of the parallel `FindAllDocuments`.  The words are taken one
after the other; `schedule` gives, for the pairs of a word, the order in which the
worker threads get to update the accumulator. -/
def accumulatePlusPar {R : Type} (ar : DoubleOps R) (s : SearchServer R)
    (schedule : List (Int × R) → List (Int × R)) (document_predicate : DocumentPredicate) :
    List Str → ConcurrentMap R → Except Fault (ConcurrentMap R)
  | [], document_to_relevance_concurrent => .ok document_to_relevance_concurrent
  | word :: rest, document_to_relevance_concurrent =>
    match OrdMap.find? s.word_to_document_freqs_ word with
    | none => accumulatePlusPar ar s schedule document_predicate rest document_to_relevance_concurrent
    | some freqs =>
      match ComputeWordInverseDocumentFreq ar s word with
      | .error e => .error e
      | .ok inverse_document_freq =>
        match accumulateWordPar ar s document_predicate inverse_document_freq (schedule freqs)
            document_to_relevance_concurrent with
        | .error e => .error e
        | .ok updated => accumulatePlusPar ar s schedule document_predicate rest updated

/-- Transcription of `SearchServer::FindAllDocuments(execution::parallel_policy, ...)`. -/
def FindAllDocumentsPar {R : Type} (ar : DoubleOps R) (s : SearchServer R)
    (schedule : List (Int × R) → List (Int × R)) (query : Query)
    (document_predicate : DocumentPredicate) : Except Fault (List (Document R)) :=
  match accumulatePlusPar ar s schedule document_predicate query.plus_words
      (ConcurrentMap.create s.word_to_document_freqs_.length) with
  | .error e => .error e
  | .ok document_to_relevance_concurrent =>
    materialize s
      (eraseMinus s query.minus_words
        (ConcurrentMap.BuildOrdinaryMap document_to_relevance_concurrent))

/-! ## Vocabulary of the theorems -/

/-- What every reachable state satisfies: the documents listed in the index are
stored, and no word lists a document twice. -/
structure Inv {R : Type} (s : SearchServer R) : Prop where
  listed : ∀ p ∈ s.word_to_document_freqs_, ∀ e ∈ p.2,
    (OrdMap.find? s.documents_ e.1).isSome = true
  freqs_nodup : ∀ p ∈ s.word_to_document_freqs_, (OrdMap.keys p.2).Nodup

/-- The index while `AddDocument` runs its loop: the new document may be listed
before it is stored. -/
def IndexOk {R : Type} (docs : OrdMap Int DocumentData) (id : Int) (index : OrdMap Str (OrdMap Int R)) :
    Prop :=
  (∀ p ∈ index, ∀ e ∈ p.2, e.1 = id ∨ (OrdMap.find? docs e.1).isSome = true) ∧
  (∀ p ∈ index, (OrdMap.keys p.2).Nodup)

/-- The state left by a successful `AddDocument`. -/
def addedState {R : Type} (ar : DoubleOps R) (s : SearchServer R) (id : Int) (words : List Str)
    (rating : Int) (status : DocumentStatus) : SearchServer R :=
  let s1 := indexWords ar id (ar.div ar.one (ar.ofNat words.length)) words s
  { s1 with
    documents_ := OrdMap.emplace id { rating := rating, status := status } s1.documents_,
    document_ids_ := s1.document_ids_ ++ [id] }

/-- The keys of a map are in strictly ascending order, as `std::map` keeps them. -/
def OrdMap.Sorted {K V : Type} [LinearOrder K] (m : OrdMap K V) : Prop :=
  (OrdMap.keys m).Sorted (· < ·)

/-- Document `id` is listed under `word` in the inverted index: `word` is a key of
`word_to_document_freqs_` and `id` is a key of its map. -/
def Listed {R : Type} (s : SearchServer R) (word : Str) (id : Int) : Prop :=
  ∃ freqs, OrdMap.find? s.word_to_document_freqs_ word = some freqs ∧ id ∈ OrdMap.keys freqs

/-- Decision procedure for `Listed`. -/
def isListed {R : Type} (s : SearchServer R) (word : Str) (id : Int) : Bool :=
  match OrdMap.find? s.word_to_document_freqs_ word with
  | none => false
  | some freqs => (OrdMap.find? freqs id).isSome

/-- The predicate holds on `(id, status, rating)` of the stored document `id`. -/
def Passes {R : Type} (s : SearchServer R) (document_predicate : DocumentPredicate)
    (id : Int) : Prop :=
  ∃ data, OrdMap.find? s.documents_ id = some data ∧
    document_predicate id data.status data.rating = true

/-- The term frequency stored for `word` and document `id`. -/
def termFreq {R : Type} (ar : DoubleOps R) (s : SearchServer R) (word : Str) (id : Int) : R :=
  match OrdMap.find? s.word_to_document_freqs_ word with
  | none => ar.zero
  | some freqs => (OrdMap.find? freqs id).getD ar.zero

/-- The number of documents listed under `word`. -/
def documentFreq {R : Type} (s : SearchServer R) (word : Str) : Nat :=
  match OrdMap.find? s.word_to_document_freqs_ word with
  | none => 0
  | some freqs => freqs.length

/-- What one pair list adds to the relevance of document `x`: `term_freq * idf`
when `x` is listed and passes the predicate. -/
def pairsContribution {R : Type} (ar : DoubleOps R) (s : SearchServer R)
    (document_predicate : DocumentPredicate) (inverse_document_freq : R)
    (freqs : List (Int × R)) (x : Int) : Option R :=
  match OrdMap.find? freqs x with
  | none => none
  | some term_freq =>
    match OrdMap.find? s.documents_ x with
    | none => none
    | some data =>
      if document_predicate x data.status data.rating then
        some (ar.mul term_freq inverse_document_freq)
      else none

/-- What plus-word `word` adds to the relevance of document `x`. -/
def contribution {R : Type} (ar : DoubleOps R) (s : SearchServer R)
    (document_predicate : DocumentPredicate) (word : Str) (x : Int) : Option R :=
  match OrdMap.find? s.word_to_document_freqs_ word with
  | none => none
  | some freqs =>
    pairsContribution ar s document_predicate
      (ar.log (ar.div (ar.mul (ar.ofNat (GetDocumentCount s)) ar.one) (ar.ofNat freqs.length)))
      freqs x

/-- The statement `document_to_relevance[x] += c`, on the entry of `x`, when there
is something to add. -/
def accStep {R : Type} (ar : DoubleOps R) (entry : Option R) (c : Option R) : Option R :=
  match c with
  | none => entry
  | some value => some (ar.add (entry.getD ar.zero) value)

/-- The rating stored for document `id` (`documents_.at(id).rating`). -/
def storedRating {R : Type} (s : SearchServer R) (id : Int) : Int :=
  match OrdMap.find? s.documents_ id with
  | none => 0
  | some data => data.rating

/-- The `Document` made from an entry of the relevance map. -/
def toDocument {R : Type} (s : SearchServer R) (e : Int × R) : Document R :=
  { id := e.1, relevance := e.2, rating := storedRating s e.1 }

/-- The entry of `key` in a `ConcurrentMap`: the lookup in the bucket of the key. -/
def ConcurrentMap.find? {R : Type} (m : ConcurrentMap R) (key : Int) : Option R :=
  (m.split_map_in_vec_[ConcurrentMap.bucketIndex key m.split_map_in_vec_.length]?).bind
    (fun bucket => OrdMap.find? bucket key)

/-- Every key of the bucket at position `offset + i` of a `ConcurrentMap` with
`bucket_count` buckets belongs there. -/
def ConcurrentMap.BucketsOk {R : Type} (bucket_count offset : Nat)
    (buckets : List (OrdMap Int R)) : Prop :=
  ∀ i bucket, buckets[i]? = some bucket →
    ∀ key ∈ OrdMap.keys bucket, ConcurrentMap.bucketIndex key bucket_count = offset + i

/-- The keys of a `ConcurrentMap` are stored in the bucket that `operator[]` picks. -/
def ConcurrentMap.WF {R : Type} (m : ConcurrentMap R) : Prop :=
  ConcurrentMap.BucketsOk m.split_map_in_vec_.length 0 m.split_map_in_vec_

/-- Some byte of `word` lies in `[0, 0x20)`. -/
def HasControlByte (word : Str) : Prop := ∃ c ∈ word, c.toNat < 32

/-! ## Worked example -/

deriving instance DecidableEq for Except

/-- Exact arithmetic with the stand-in logarithm, for the worked examples. -/
def exampleOps : DoubleOps ℚ := exactOps lnTangent

/-- The example server after `AddDocument(0, "white cat", ACTUAL, {8, -3})`. -/
def exampleOne : SearchServer ℚ :=
  (AddDocument exampleOps emptyServer 0 "white cat".toList .ACTUAL [8, -3]).2

/-- The example server after `AddDocument(1, "black cat", ACTUAL, {5, 5})` as well. -/
def exampleServer : SearchServer ℚ :=
  (AddDocument exampleOps exampleOne 1 "black cat".toList .ACTUAL [5, 5]).2

/-- The predicate that accepts every document. -/
def acceptAll : DocumentPredicate := fun _ _ _ => true

/-! ## Lookups by document -/

/-- The loop of `SearchServer::GetWordFrequencies` over the index: a word whose map
holds `document_id` is inserted with the frequency stored there. -/
def getWordFrequenciesLoop {R : Type} (document_id : Int) :
    List (Str × OrdMap Int R) → OrdMap Str R → OrdMap Str R
  | [], result => result
  | (word, freqs) :: rest, result =>
    if OrdMap.count freqs document_id ≠ 0 then
      match OrdMap.find? freqs document_id with
      | some freq => getWordFrequenciesLoop document_id rest (OrdMap.emplace word freq result)
      | none => getWordFrequenciesLoop document_id rest result
    else getWordFrequenciesLoop document_id rest result

/-- Transcription of `SearchServer::GetWordFrequencies`. -/
def GetWordFrequencies {R : Type} (s : SearchServer R) (document_id : Int) : OrdMap Str R :=
  getWordFrequenciesLoop document_id s.word_to_document_freqs_ []

/-- The first loop of `SearchServer::MatchDocument`: the plus-words whose map holds
`document_id`, in the order of the set. -/
def matchPlusWords {R : Type} (s : SearchServer R) (document_id : Int) : List Str → List Str
  | [] => []
  | word :: rest =>
    match OrdMap.find? s.word_to_document_freqs_ word with
    | none => matchPlusWords s document_id rest
    | some freqs =>
      if OrdMap.count freqs document_id ≠ 0 then word :: matchPlusWords s document_id rest
      else matchPlusWords s document_id rest

/-- The second loop of `SearchServer::MatchDocument`: at the first minus-word whose
map holds `document_id` the matched words are cleared and the loop is left. -/
def matchMinusWords {R : Type} (s : SearchServer R) (document_id : Int) :
    List Str → List Str → List Str
  | [], matched_words => matched_words
  | word :: rest, matched_words =>
    match OrdMap.find? s.word_to_document_freqs_ word with
    | none => matchMinusWords s document_id rest matched_words
    | some freqs =>
      if OrdMap.count freqs document_id ≠ 0 then []
      else matchMinusWords s document_id rest matched_words

/-- Transcription of `SearchServer::MatchDocument(raw_query, document_id)`. -/
def MatchDocument {R : Type} (s : SearchServer R) (raw_query : Str) (document_id : Int) :
    Except Fault (List Str × DocumentStatus) :=
  match ParseQuery s raw_query with
  | .error e => .error e
  | .ok query =>
    let matched_words :=
      matchMinusWords s document_id query.minus_words
        (matchPlusWords s document_id query.plus_words)
    match OrdMap.find? s.documents_ document_id with
    | none => .error .out_of_range
    | some document_data => .ok (matched_words, document_data.status)

/-! ## `RequestQueue` -/

/-- The struct `RequestQueue::QueryResult`. -/
structure QueryResult where
  time : Int
  response_counter : Int
  deriving DecidableEq, Repr

/-- The constant `RequestQueue::kMinutesInDay`. -/
def kMinutesInDay : Nat := 1440

/-- The statement `++requests_.back().time`: the last record gets its time
incremented in place; the new time is returned with the deque. -/
def incrementBackTime : List QueryResult → Int × List QueryResult
  | [] => (0, [])
  | [last] => (last.time + 1, [{ last with time := last.time + 1 }])
  | first :: rest => ((incrementBackTime rest).1, first :: (incrementBackTime rest).2)

/-- The body of `RequestQueue::AddFindRequest` after the search: the bookkeeping of
a result of `result_size` documents in the deque `requests_`. -/
def recordRequest (requests_ : List QueryResult) (result_size : Nat) : List QueryResult :=
  let element : QueryResult := { time := 1, response_counter := (result_size : Int) }
  let requests_ := if requests_.isEmpty then requests_ ++ [element] else requests_
  if requests_.length ≠ kMinutesInDay then
    let bumped := incrementBackTime requests_
    bumped.2 ++ [{ element with time := bumped.1 }]
  else
    match requests_.getLast? with
    | none => requests_
    | some back =>
      if back.time = (kMinutesInDay : Int) then
        (requests_ ++ [{ element with time := 1 }]).drop 1
      else
        let bumped := incrementBackTime requests_
        (bumped.2 ++ [{ element with time := bumped.1 }]).drop 1

/-- Transcription of `RequestQueue::AddFindRequest(raw_query, document_predicate)`: the
search comes first, so a query that throws leaves the deque as it was. -/
def AddFindRequest {R : Type} (ar : DoubleOps R) (s : SearchServer R)
    (requests_ : List QueryResult) (raw_query : Str) (document_predicate : DocumentPredicate) :
    Except Fault (List (Document R)) × List QueryResult :=
  match FindTopDocuments ar s raw_query document_predicate with
  | .error e => (.error e, requests_)
  | .ok result => (.ok result, recordRequest requests_ result.length)

/-- Transcription of `RequestQueue::GetNoResultRequests`. -/
def GetNoResultRequests (requests_ : List QueryResult) : Nat :=
  requests_.countP (fun element => decide (element.response_counter = 0))

/-- The example server after `AddDocument(2, "dog", ACTUAL, {1})` and then
`AddDocument(1, "cat", ACTUAL, {1})`: the ids were not added in ascending order. -/
def exampleTwoOne : SearchServer ℚ :=
  (AddDocument exampleOps
    (AddDocument exampleOps emptyServer 2 "dog".toList .ACTUAL [1]).2
    1 "cat".toList .ACTUAL [1]).2

/-! ## Vocabulary of the query claims -/

/-- The token without its leading `'-'`, when it has one. -/
def stripMinus (token : Str) : Str :=
  if decide (token.head? = some '-') then token.drop 1 else token

/-- The token is malformed: after removing at most one leading `'-'` it is empty,
still begins with `'-'`, ends with `'-'`, or has a byte in `[0, 0x20)`. -/
def BadToken (token : Str) : Prop :=
  stripMinus token = [] ∨ (stripMinus token).head? = some '-' ∨
    (stripMinus token).getLast? = some '-' ∨ HasControlByte (stripMinus token)

/-- The step of the loop of `ParseQuery` on a well-formed token. -/
def queryStep {R : Type} (s : SearchServer R) (query : Query) (token : Str) : Query :=
  if IsStopWord s (stripMinus token) then query
  else if decide (token.head? = some '-') then
    { query with minus_words := OrdSet.insert (stripMinus token) query.minus_words }
  else { query with plus_words := OrdSet.insert (stripMinus token) query.plus_words }

/-- The frequency stored in the index for `word` and document `id`, if any. -/
def storedFreq {R : Type} (index : OrdMap Str (OrdMap Int R)) (id : Int) (word : Str) :
    Option R :=
  (OrdMap.find? index word).bind (fun freqs => OrdMap.find? freqs id)

/-- The words of a text that are not stop words, in the order of the text: what
`SplitIntoWordsNoStop` returns when it returns. -/
def nonStopWords {R : Type} (s : SearchServer R) (text : Str) : List Str :=
  (SplitIntoWords text).filter (fun w => !IsStopWord s w)

/-- The test `abs(lhs.relevance - rhs.relevance) < 1e-6` of the comparison in
`FindTopDocuments`. -/
def closeRelevance {R : Type} (ar : DoubleOps R) (lhs rhs : Document R) : Bool :=
  ar.lt (ar.abs (ar.sub lhs.relevance rhs.relevance)) ar.eps

/-- Neither document goes before the other under the comparison of `FindTopDocuments`. -/
def incomparable {R : Type} (ar : DoubleOps R) (lhs rhs : Document R) : Bool :=
  !compareDocuments ar lhs rhs && !compareDocuments ar rhs lhs

/-- A sequence of statements `m[key].ref_to_value += value` on a `ConcurrentMap`,
in the order in which they take effect (each is one indivisible step under the
mutex of its bucket). -/
def ConcurrentMap.applyUpdates {R : Type} (ar : DoubleOps R) :
    List (Int × R) → ConcurrentMap R → Except Fault (ConcurrentMap R)
  | [], m => .ok m
  | (key, value) :: rest, m =>
    match ConcurrentMap.update m key ar.zero (fun v => ar.add v value) with
    | .error e => .error e
    | .ok updated => ConcurrentMap.applyUpdates ar rest updated

/-- The reference of the refinement: the same statements `m[key] += value` on an
ordinary `std::map` with value-initialised (zero) new entries. -/
def ordinaryUpdates {R : Type} (ar : DoubleOps R) :
    List (Int × R) → OrdMap Int R → OrdMap Int R
  | [], m => m
  | (key, value) :: rest, m =>
    ordinaryUpdates ar rest (OrdMap.alter key ar.zero (fun v => ar.add v value) m)

/-- The value accumulated under `key` by a sequence of updates, starting from the
entry `init`: `none` when there is no entry and no update touches the key. -/
def accumulated {R : Type} (ar : DoubleOps R) (key : Int) :
    List (Int × R) → Option R → Option R
  | [], init => init
  | (k, value) :: rest, init =>
    accumulated ar key rest
      (if key = k then some (ar.add (init.getD ar.zero) value) else init)

/-- A sequence of calls `AddFindRequest(raw_query, document_predicate)` on one
`RequestQueue`: the deque after the calls.  A call that throws leaves the deque as it
was. -/
def serveRequests {R : Type} (ar : DoubleOps R) (s : SearchServer R) :
    List (Str × DocumentPredicate) → List QueryResult → List QueryResult
  | [], requests_ => requests_
  | (raw_query, document_predicate) :: rest, requests_ =>
    serveRequests ar s rest (AddFindRequest ar s requests_ raw_query document_predicate).2

/-- The sizes of the results of the calls that return, in call order. -/
def resultSizes {R : Type} (ar : DoubleOps R) (s : SearchServer R) :
    List (Str × DocumentPredicate) → List Nat
  | [] => []
  | (raw_query, document_predicate) :: rest =>
    match FindTopDocuments ar s raw_query document_predicate with
    | .error _ => resultSizes ar s rest
    | .ok result => result.length :: resultSizes ar s rest

/-- The `response_counter` fields of the records of the deque, front to back. -/
def counters (requests_ : List QueryResult) : List Int :=
  requests_.map (fun element => element.response_counter)

/-! ## `std::sort` by its contract -/

/-- The comparison `comp` is a strict weak ordering on the elements of `l`, which
`std::sort` requires of its comparison: irreflexive, transitive, and with a
transitive relation "neither goes before the other". -/
def StrictWeakOn {α : Type} (comp : α → α → Bool) (l : List α) : Prop :=
  (∀ a ∈ l, comp a a = false) ∧
  (∀ a ∈ l, ∀ b ∈ l, ∀ c ∈ l, comp a b = true → comp b c = true → comp a c = true) ∧
  (∀ a ∈ l, ∀ b ∈ l, ∀ c ∈ l, comp a b = false → comp b a = false →
    comp b c = false → comp c b = false → comp a c = false ∧ comp c a = false)

/-- The contract of the library call `std::sort(first, last, comp)`, for a function
`sorter` standing for it: the result is a rearrangement of the input, and when
`comp` is a strict weak ordering on the input no element of the result goes before
an earlier one.  Nothing is said of the order of equivalent elements, nor of the
order at all when `comp` is not a strict weak ordering on the input. -/
def SortContract {α : Type} (sorter : (α → α → Bool) → List α → List α) : Prop :=
  ∀ comp l, (sorter comp l).Perm l ∧
    (StrictWeakOn comp l → (sorter comp l).Pairwise (fun a b => comp b a = false))

/-- The tail of `FindTopDocuments`, with `sorter` for the call of `std::sort`: sort,
then cut to `MAX_RESULT_DOCUMENT_COUNT`. -/
def sortAndCutBy {R : Type} (sorter : (Document R → Document R → Bool) → List (Document R) →
      List (Document R))
    (ar : DoubleOps R) (matched_documents : List (Document R)) : List (Document R) :=
  let sorted := sorter (compareDocuments ar) matched_documents
  if sorted.length > MAX_RESULT_DOCUMENT_COUNT then sorted.take MAX_RESULT_DOCUMENT_COUNT
  else sorted

/-- Transcription of `SearchServer::FindTopDocuments(raw_query, document_predicate)`,
with `sorter` for the call `sort(begin, end, comp)`.  `FindTopDocuments` is this
function at `sort`. -/
def FindTopDocumentsBy {R : Type} (ar : DoubleOps R)
    (sorter : (Document R → Document R → Bool) → List (Document R) → List (Document R))
    (s : SearchServer R) (raw_query : Str) (document_predicate : DocumentPredicate) :
    Except Fault (List (Document R)) :=
  match ParseQuery s raw_query with
  | .error e => .error e
  | .ok query =>
    match FindAllDocuments ar s query document_predicate with
    | .error e => .error e
    | .ok matched_documents => .ok (sortAndCutBy sorter ar matched_documents)

/-- The server with stop words "a" and "the" after
`AddDocument(0, "a cat sat on the mat", ACTUAL, {5})`. -/
def matServer : SearchServer ℚ :=
  (AddDocument exampleOps (internStopWords ["a".toList, "the".toList] emptyServer) 0
    "a cat sat on the mat".toList .ACTUAL [5]).2

end SearchEngine

/-! # Theorems -/

set_option linter.unusedSectionVars false
set_option linter.unusedVariables false

namespace SearchEngine

/-! ## Ordered maps -/

namespace OrdMap

variable {K V : Type} [LinearOrder K]

/-! ### Lookup -/

theorem find?_eq_none_iff (m : OrdMap K V) (k : K) : find? m k = none ↔ k ∉ keys m := by
  induction m with
  | nil => simp [find?, keys]
  | cons p rest ih =>
    obtain ⟨x, v⟩ := p
    by_cases h : k = x
    · simp [find?, keys, h]
    · simp only [find?, if_neg h, ih]
      simp [keys, h]

theorem find?_isSome_iff (m : OrdMap K V) (k : K) : (find? m k).isSome = true ↔ k ∈ keys m := by
  have h := find?_eq_none_iff m k
  cases hf : find? m k with
  | none => simpa [hf] using h
  | some v =>
    rw [hf] at h
    simp only [Option.isSome_some, true_iff]
    by_contra hk
    exact absurd (h.mpr hk) (by simp)

theorem mem_of_find? {m : OrdMap K V} {k : K} {v : V} (h : find? m k = some v) : (k, v) ∈ m := by
  induction m with
  | nil => simp [find?] at h
  | cons p rest ih =>
    obtain ⟨x, w⟩ := p
    by_cases hk : k = x
    · simp only [find?, if_pos hk, Option.some.injEq] at h
      simp [hk, h]
    · simp only [find?, if_neg hk] at h
      exact List.mem_cons_of_mem _ (ih h)

theorem find?_of_mem {m : OrdMap K V} {k : K} {v : V} (hn : (keys m).Nodup) (h : (k, v) ∈ m) :
    find? m k = some v := by
  induction m with
  | nil => simp at h
  | cons p rest ih =>
    obtain ⟨x, w⟩ := p
    simp only [keys, List.map_cons, List.nodup_cons] at hn
    rcases List.mem_cons.mp h with heq | hmem
    · simp only [Prod.mk.injEq] at heq
      simp [find?, heq.1, heq.2]
    · have hne : k ≠ x := by
        rintro rfl
        exact hn.1 (List.mem_map.mpr ⟨(k, v), hmem, rfl⟩)
      simp only [find?, if_neg hne]
      exact ih hn.2 hmem

theorem mem_keys_of_mem {m : OrdMap K V} {p : K × V} (h : p ∈ m) : p.1 ∈ keys m :=
  List.mem_map.mpr ⟨p, h, rfl⟩

/-! ### Insertion at the sorted place -/

theorem insertSorted_perm (k : K) (v : V) (m : OrdMap K V) :
    (insertSorted k v m).Perm ((k, v) :: m) := by
  induction m with
  | nil => simp [insertSorted]
  | cons p rest ih =>
    by_cases h : k < p.1
    · simp [insertSorted, h]
    · simp only [insertSorted, if_neg h]
      exact ((List.Perm.cons p ih).trans (List.Perm.swap _ _ _))

theorem mem_insertSorted {k : K} {v : V} {m : OrdMap K V} {p : K × V} :
    p ∈ insertSorted k v m ↔ p = (k, v) ∨ p ∈ m := by
  rw [(insertSorted_perm k v m).mem_iff, List.mem_cons]

theorem keys_insertSorted_perm (k : K) (v : V) (m : OrdMap K V) :
    (keys (insertSorted k v m)).Perm (k :: keys m) := by
  simpa [keys] using (insertSorted_perm k v m).map Prod.fst

theorem length_insertSorted (k : K) (v : V) (m : OrdMap K V) :
    (insertSorted k v m).length = m.length + 1 := by
  simpa using (insertSorted_perm k v m).length_eq

theorem find?_insertSorted {k : K} (v : V) {m : OrdMap K V} (hk : k ∉ keys m) (x : K) :
    find? (insertSorted k v m) x = if x = k then some v else find? m x := by
  induction m with
  | nil => simp [insertSorted, find?]
  | cons p rest ih =>
    obtain ⟨y, w⟩ := p
    simp only [keys, List.map_cons, List.mem_cons, not_or] at hk
    by_cases h : k < y
    · simp [insertSorted, h, find?]
    · simp only [insertSorted, if_neg h, find?]
      by_cases hxy : x = y
      · have : x ≠ k := by rw [hxy]; exact fun e => hk.1 e.symm
        simp only [if_pos hxy, if_neg this]
      · simp only [if_neg hxy]
        exact ih hk.2

/-! ### Update through `operator[]` -/

theorem find?_map_update (k : K) (f : V → V) (m : OrdMap K V) (x : K) :
    find? (m.map (fun p => if p.1 = k then (p.1, f p.2) else p)) x =
      if x = k then (find? m x).map f else find? m x := by
  induction m with
  | nil => simp [find?]
  | cons p rest ih =>
    obtain ⟨y, w⟩ := p
    rw [List.map_cons]
    show find? ((if y = k then (y, f w) else (y, w)) :: _) x = _
    by_cases hy : y = k
    · rw [if_pos hy]
      by_cases hx : x = y
      · simp [find?, hy, hx]
      · have hxk : x ≠ k := by rw [← hy]; exact hx
        simp only [find?, if_neg hx, ih, if_neg hxk]
    · rw [if_neg hy]
      by_cases hx : x = y
      · have hxk : x ≠ k := by rw [hx]; exact hy
        simp [find?, hy, hx]
      · simp only [find?, if_neg hx, ih]

theorem find?_alter (k : K) (d : V) (f : V → V) (m : OrdMap K V) (x : K) :
    find? (alter k d f m) x = if x = k then some (f ((find? m k).getD d)) else find? m x := by
  unfold alter
  by_cases h : (find? m k).isSome = true
  · rw [if_pos h, find?_map_update]
    by_cases hx : x = k
    · obtain ⟨v, hv⟩ := Option.isSome_iff_exists.mp h
      simp [hx, hv]
    · simp [hx]
  · rw [if_neg h]
    have hk : k ∉ keys m := fun hk => h ((find?_isSome_iff m k).mpr hk)
    rw [find?_insertSorted _ hk]
    have : find? m k = none := (find?_eq_none_iff m k).mpr hk
    simp [this]

theorem keys_map_update (k : K) (f : V → V) (m : OrdMap K V) :
    keys (m.map (fun p => if p.1 = k then (p.1, f p.2) else p)) = keys m := by
  induction m with
  | nil => rfl
  | cons p rest ih =>
    simp only [keys, List.map_cons, List.cons.injEq] at ih ⊢
    refine ⟨?_, ih⟩
    split <;> rfl

theorem mem_keys_alter {k : K} {d : V} {f : V → V} {m : OrdMap K V} {x : K} :
    x ∈ keys (alter k d f m) ↔ x = k ∨ x ∈ keys m := by
  rw [← find?_isSome_iff, find?_alter]
  by_cases hx : x = k
  · simp [hx]
  · simp [hx, find?_isSome_iff]

theorem nodup_keys_alter {k : K} {d : V} {f : V → V} {m : OrdMap K V} (h : (keys m).Nodup) :
    (keys (alter k d f m)).Nodup := by
  unfold alter
  by_cases hs : (find? m k).isSome = true
  · rw [if_pos hs, keys_map_update]; exact h
  · rw [if_neg hs]
    have hk : k ∉ keys m := fun hk => hs ((find?_isSome_iff m k).mpr hk)
    exact (keys_insertSorted_perm k (f d) m).nodup_iff.mpr (List.nodup_cons.mpr ⟨hk, h⟩)

theorem mem_alter {k : K} {d : V} {f : V → V} {m : OrdMap K V} {p : K × V}
    (h : p ∈ alter k d f m) :
    p ∈ m ∨ (p = (k, f d) ∧ k ∉ keys m) ∨ ∃ v, (k, v) ∈ m ∧ p = (k, f v) := by
  unfold alter at h
  by_cases hs : (find? m k).isSome = true
  · rw [if_pos hs] at h
    obtain ⟨q, hq, hqp⟩ := List.mem_map.mp h
    by_cases hqk : q.1 = k
    · rw [if_pos hqk] at hqp
      refine Or.inr (Or.inr ⟨q.2, ?_, ?_⟩)
      · rw [← hqk]; exact hq
      · rw [← hqp, hqk]
    · rw [if_neg hqk] at hqp
      exact Or.inl (hqp ▸ hq)
  · rw [if_neg hs] at h
    have hk : k ∉ keys m := fun hk => hs ((find?_isSome_iff m k).mpr hk)
    rcases mem_insertSorted.mp h with h1 | h1
    · exact Or.inr (Or.inl ⟨h1, hk⟩)
    · exact Or.inl h1

/-! ### Erasure and `emplace` -/

theorem find?_erase (k : K) (m : OrdMap K V) (x : K) :
    find? (erase k m) x = if x = k then none else find? m x := by
  induction m with
  | nil => simp [erase, find?]
  | cons p rest ih =>
    obtain ⟨y, w⟩ := p
    unfold erase at ih ⊢
    by_cases hy : y = k
    · simp only [List.filter_cons, hy, ne_eq, not_true_eq_false, decide_False, Bool.false_eq_true,
        if_false, ih, find?]
      by_cases hx : x = k <;> simp [hx]
    · simp only [List.filter_cons, ne_eq, hy, not_false_eq_true, decide_True, if_true, find?, ih]
      by_cases hx : x = y
      · have : x ≠ k := by rw [hx]; exact hy
        simp [hx, hy]
      · simp [hx]

theorem mem_erase {k : K} {m : OrdMap K V} {p : K × V} :
    p ∈ erase k m ↔ p ∈ m ∧ p.1 ≠ k := by
  simp [erase]

theorem mem_keys_erase {k : K} {m : OrdMap K V} {x : K} :
    x ∈ keys (erase k m) ↔ x ∈ keys m ∧ x ≠ k := by
  rw [← find?_isSome_iff, find?_erase, ← find?_isSome_iff]
  by_cases hx : x = k <;> simp [hx]

theorem nodup_keys_erase {k : K} {m : OrdMap K V} (h : (keys m).Nodup) :
    (keys (erase k m)).Nodup := by
  unfold keys erase at *
  exact (List.Sublist.map _ (List.filter_sublist _)).nodup h

theorem find?_emplace {k : K} (v : V) {m : OrdMap K V} (h : find? m k = none) (x : K) :
    find? (emplace k v m) x = if x = k then some v else find? m x := by
  unfold emplace
  rw [h]
  simp only [Option.isSome_none, Bool.false_eq_true, if_false]
  exact find?_insertSorted v ((find?_eq_none_iff m k).mp h) x

theorem length_emplace {k : K} (v : V) {m : OrdMap K V} (h : find? m k = none) :
    (emplace k v m).length = m.length + 1 := by
  unfold emplace
  rw [h]
  simp only [Option.isSome_none, Bool.false_eq_true, if_false]
  exact length_insertSorted k v m

theorem nodup_keys_emplace {k : K} (v : V) {m : OrdMap K V} (h : (keys m).Nodup) :
    (keys (emplace k v m)).Nodup := by
  unfold emplace
  by_cases hs : (find? m k).isSome = true
  · rw [if_pos hs]; exact h
  · rw [if_neg hs]
    have hk : k ∉ keys m := fun hk => hs ((find?_isSome_iff m k).mpr hk)
    exact (keys_insertSorted_perm k v m).nodup_iff.mpr (List.nodup_cons.mpr ⟨hk, h⟩)

end OrdMap

/-! ## The invariant of reachable states -/

section Invariant

variable {R : Type}

theorem internStopWords_index (ws : List Str) (s : SearchServer R) :
    (internStopWords ws s).word_to_document_freqs_ = s.word_to_document_freqs_ ∧
    (internStopWords ws s).documents_ = s.documents_ ∧
    (internStopWords ws s).document_ids_ = s.document_ids_ := by
  induction ws generalizing s with
  | nil => exact ⟨rfl, rfl, rfl⟩
  | cons w rest ih => simpa [internStopWords] using ih _

theorem inv_of_create {stop_words : List Str} {s : SearchServer R}
    (h : create stop_words = .ok s) : Inv s := by
  unfold create at h
  split at h
  · cases h
  · have hs : s = internStopWords stop_words emptyServer := (Except.ok.inj h).symm
    obtain ⟨h1, h2, h3⟩ := internStopWords_index stop_words (emptyServer : SearchServer R)
    subst hs
    constructor
    · intro p hp; rw [h1] at hp; simp [emptyServer] at hp
    · intro p hp; rw [h1] at hp; simp [emptyServer] at hp

theorem indexWords_documents (ar : DoubleOps R) (id : Int) (inv : R) (ws : List Str)
    (s : SearchServer R) :
    (indexWords ar id inv ws s).documents_ = s.documents_ ∧
    (indexWords ar id inv ws s).document_ids_ = s.document_ids_ ∧
    (indexWords ar id inv ws s).stop_words_ = s.stop_words_ := by
  induction ws generalizing s with
  | nil => exact ⟨rfl, rfl, rfl⟩
  | cons w rest ih => simpa [indexWords] using ih _

theorem indexOk_alter (ar : DoubleOps R) {docs : OrdMap Int DocumentData} {id : Int}
    {index : OrdMap Str (OrdMap Int R)} (h : IndexOk docs id index) (w : Str) (inv : R) :
    IndexOk docs id
      (OrdMap.alter w [] (fun freqs => OrdMap.alter id ar.zero (fun v => ar.add v inv) freqs)
        index) := by
  have key : ∀ freqs : OrdMap Int R,
      (∀ e ∈ freqs, e.1 = id ∨ (OrdMap.find? docs e.1).isSome = true) →
      ∀ e ∈ OrdMap.alter id ar.zero (fun v => ar.add v inv) freqs,
        e.1 = id ∨ (OrdMap.find? docs e.1).isSome = true := by
    intro freqs hf e he
    rcases OrdMap.mem_alter he with h1 | ⟨h1, _⟩ | ⟨v, _, h1⟩
    · exact hf e h1
    · exact Or.inl (by rw [h1])
    · exact Or.inl (by rw [h1])
  constructor
  · intro p hp
    rcases OrdMap.mem_alter hp with h1 | ⟨h1, _⟩ | ⟨v, hv, h1⟩
    · exact h.1 p h1
    · rw [h1]; exact key [] (by simp)
    · rw [h1]; exact key v (h.1 _ hv)
  · intro p hp
    rcases OrdMap.mem_alter hp with h1 | ⟨h1, _⟩ | ⟨v, hv, h1⟩
    · exact h.2 p h1
    · rw [h1]
      show (OrdMap.keys (OrdMap.alter id ar.zero (fun v => ar.add v inv) [])).Nodup
      exact OrdMap.nodup_keys_alter List.nodup_nil
    · rw [h1]
      show (OrdMap.keys (OrdMap.alter id ar.zero (fun v => ar.add v inv) v)).Nodup
      exact OrdMap.nodup_keys_alter (h.2 _ hv)

theorem indexOk_indexWords (ar : DoubleOps R) (id : Int) (inv : R) (ws : List Str)
    (s : SearchServer R) (h : IndexOk s.documents_ id s.word_to_document_freqs_) :
    IndexOk s.documents_ id (indexWords ar id inv ws s).word_to_document_freqs_ := by
  induction ws generalizing s with
  | nil => exact h
  | cons w rest ih =>
    simp only [indexWords]
    exact ih _ (indexOk_alter ar h w inv)

theorem addDocument_ok {ar : DoubleOps R} {s s' : SearchServer R} {id : Int} {text : Str}
    {status : DocumentStatus} {ratings : List Int}
    (h : AddDocument ar s id text status ratings = (.ok (), s')) :
    0 ≤ id ∧ OrdMap.find? s.documents_ id = none ∧
    ∃ words rating, SplitIntoWordsNoStop s text = .ok words ∧
      ComputeAverageRating ratings = .ok rating ∧
      s' = addedState ar s id words rating status := by
  rw [AddDocument] at h
  by_cases hcond : id < 0 ∨ OrdMap.count s.documents_ id > 0
  · rw [if_pos hcond] at h
    exact absurd (congrArg Prod.fst h) (by simp)
  · rw [if_neg hcond] at h
    have hid : 0 ≤ id := by
      by_contra hc
      exact hcond (Or.inl (not_le.mp hc))
    have hnone : OrdMap.find? s.documents_ id = none := by
      cases hf : OrdMap.find? s.documents_ id with
      | none => rfl
      | some v => exact absurd (Or.inr (by simp [OrdMap.count, hf])) hcond
    refine ⟨hid, hnone, ?_⟩
    cases hw : SplitIntoWordsNoStop s text with
    | error e =>
      rw [hw] at h
      exact absurd (congrArg Prod.fst h) (by simp)
    | ok words =>
      rw [hw] at h
      cases hr : ComputeAverageRating ratings with
      | error e =>
        rw [hr] at h
        exact absurd (congrArg Prod.fst h) (by simp)
      | ok rating =>
        rw [hr] at h
        exact ⟨words, rating, rfl, rfl, (congrArg Prod.snd h).symm⟩

theorem inv_of_addDocument {ar : DoubleOps R} {s s' : SearchServer R} {id : Int} {text : Str}
    {status : DocumentStatus} {ratings : List Int} (hs : Inv s)
    (h : AddDocument ar s id text status ratings = (.ok (), s')) : Inv s' := by
  obtain ⟨_, hnone, words, rating, _, _, rfl⟩ := addDocument_ok h
  have hok : IndexOk s.documents_ id s.word_to_document_freqs_ :=
    ⟨fun p hp e he => Or.inr (hs.listed p hp e he), hs.freqs_nodup⟩
  have h2 := indexOk_indexWords ar id (ar.div ar.one (ar.ofNat words.length)) words s hok
  have hd := (indexWords_documents ar id (ar.div ar.one (ar.ofNat words.length)) words s).1
  constructor
  · intro p hp e he
    show (OrdMap.find? (OrdMap.emplace id _ (indexWords ar id _ words s).documents_) e.1).isSome
      = true
    rw [hd, OrdMap.find?_emplace _ hnone]
    rcases h2.1 p hp e he with h3 | h3
    · rw [if_pos h3]; rfl
    · by_cases hx : e.1 = id
      · rw [if_pos hx]; rfl
      · rw [if_neg hx]; exact h3
  · intro p hp
    exact h2.2 p hp

/-- What a call of `RemoveDocument` that returns normally has done to the document
table and to the index. -/
theorem removeDocument_ok {s s' : SearchServer R} {id : Int}
    (h : RemoveDocument s id = (.ok (), s')) :
    s'.documents_ = OrdMap.erase id s.documents_ ∧
    s'.word_to_document_freqs_ =
      s.word_to_document_freqs_.map (fun p =>
        (p.1, if OrdMap.count p.2 id ≠ 0 then OrdMap.erase id p.2 else p.2)) := by
  rw [RemoveDocument] at h
  cases hx : s.document_ids_[lower_bound s.document_ids_ id]? with
  | none =>
    simp only [hx] at h
    exact absurd (congrArg Prod.fst h) (by simp)
  | some x =>
    simp only [hx] at h
    have h2 := (congrArg Prod.snd h).symm
    simp only at h2
    subst h2
    by_cases hxi : x = id
    · rw [if_pos hxi]; exact ⟨rfl, rfl⟩
    · rw [if_neg hxi]; exact ⟨rfl, rfl⟩

theorem inv_of_removeDocument {s s' : SearchServer R} {id : Int} (hs : Inv s)
    (h : RemoveDocument s id = (.ok (), s')) : Inv s' := by
  obtain ⟨hd, hi⟩ := removeDocument_ok h
  constructor
  · intro p hp e he
    rw [hi] at hp
    obtain ⟨q, hq, rfl⟩ := List.mem_map.mp hp
    rw [hd, OrdMap.find?_erase]
    simp only at he
    by_cases hc : OrdMap.count q.2 id ≠ 0
    · rw [if_pos hc] at he
      obtain ⟨he1, he2⟩ := OrdMap.mem_erase.mp he
      rw [if_neg he2]
      exact hs.listed q hq e he1
    · rw [if_neg hc] at he
      have hne : e.1 ≠ id := by
        intro heq
        apply hc
        have : (OrdMap.find? q.2 id).isSome = true :=
          (OrdMap.find?_isSome_iff q.2 id).mpr (heq ▸ OrdMap.mem_keys_of_mem he)
        simp [OrdMap.count, this]
      rw [if_neg hne]
      exact hs.listed q hq e he
  · intro p hp
    rw [hi] at hp
    obtain ⟨q, hq, rfl⟩ := List.mem_map.mp hp
    simp only
    split
    · exact OrdMap.nodup_keys_erase (hs.freqs_nodup q hq)
    · exact hs.freqs_nodup q hq

theorem inv_of_reachable {ar : DoubleOps R} {s : SearchServer R} (h : Reachable ar s) : Inv s := by
  induction h with
  | create stop_words s hc => exact inv_of_create hc
  | add s s' id text status ratings _ hadd ih => exact inv_of_addDocument ih hadd
  | remove s s' id _ hrem ih => exact inv_of_removeDocument ih hrem

end Invariant

/-! ## Ordered maps: ascending order of the keys -/

namespace OrdMap

variable {K V : Type} [LinearOrder K]

theorem Sorted.nodup {m : OrdMap K V} (h : Sorted m) : (keys m).Nodup :=
  List.Sorted.nodup h

theorem sorted_nil : Sorted ([] : OrdMap K V) := List.sorted_nil

theorem sorted_cons {p : K × V} {m : OrdMap K V} :
    Sorted (p :: m) ↔ (∀ x ∈ keys m, p.1 < x) ∧ Sorted m := by
  unfold Sorted keys
  rw [List.map_cons, List.sorted_cons]

theorem sorted_insertSorted {k : K} (v : V) {m : OrdMap K V} (h : Sorted m) (hk : k ∉ keys m) :
    Sorted (insertSorted k v m) := by
  induction m with
  | nil => simp [insertSorted, Sorted, keys]
  | cons p rest ih =>
    obtain ⟨hp, hrest⟩ := sorted_cons.mp h
    have hne : k ≠ p.1 := fun e => hk (by simp [keys, e])
    have hk2 : k ∉ keys rest := fun e => hk (by simp only [keys, List.map_cons]; exact List.mem_cons_of_mem _ e)
    by_cases hlt : k < p.1
    · simp only [insertSorted, if_pos hlt]
      refine sorted_cons.mpr ⟨?_, h⟩
      intro x hx
      simp only [keys, List.map_cons, List.mem_cons] at hx
      rcases hx with rfl | hx
      · exact hlt
      · exact lt_trans hlt (hp x hx)
    · simp only [insertSorted, if_neg hlt]
      refine sorted_cons.mpr ⟨?_, ih hrest hk2⟩
      intro x hx
      rcases List.mem_cons.mp ((keys_insertSorted_perm k v rest).mem_iff.mp hx) with hx | hx
      · rw [hx]
        exact lt_of_le_of_ne (not_lt.mp hlt) (Ne.symm hne)
      · exact hp x hx

theorem sorted_alter {k : K} {d : V} {f : V → V} {m : OrdMap K V} (h : Sorted m) :
    Sorted (alter k d f m) := by
  unfold alter
  by_cases hs : (find? m k).isSome = true
  · rw [if_pos hs]
    unfold Sorted
    rw [keys_map_update]
    exact h
  · rw [if_neg hs]
    exact sorted_insertSorted _ h (fun hk => hs ((find?_isSome_iff m k).mpr hk))

theorem sorted_emplace {k : K} (v : V) {m : OrdMap K V} (h : Sorted m) :
    Sorted (emplace k v m) := by
  unfold emplace
  by_cases hs : (find? m k).isSome = true
  · rw [if_pos hs]; exact h
  · rw [if_neg hs]
    exact sorted_insertSorted _ h (fun hk => hs ((find?_isSome_iff m k).mpr hk))

theorem sorted_erase {k : K} {m : OrdMap K V} (h : Sorted m) : Sorted (erase k m) := by
  unfold Sorted keys erase at *
  exact List.Pairwise.sublist (List.Sublist.map _ (List.filter_sublist _)) h

/-- Two maps with ascending keys and the same lookups are the same list. -/
theorem ext_of_sorted {m₁ m₂ : OrdMap K V} (h₁ : Sorted m₁) (h₂ : Sorted m₂)
    (h : ∀ k, find? m₁ k = find? m₂ k) : m₁ = m₂ := by
  induction m₁ generalizing m₂ with
  | nil =>
    cases m₂ with
    | nil => rfl
    | cons q r =>
      have := h q.1
      simp [find?] at this
  | cons p r₁ ih =>
    cases m₂ with
    | nil =>
      have := h p.1
      simp [find?] at this
    | cons q r₂ =>
      obtain ⟨a, v⟩ := p
      obtain ⟨b, w⟩ := q
      obtain ⟨hp, hr₁⟩ := sorted_cons.mp h₁
      obtain ⟨hq, hr₂⟩ := sorted_cons.mp h₂
      have hab : a = b := by
        by_contra hne
        have ha := h a
        have hb := h b
        simp only [find?, if_true, if_neg hne, if_neg (Ne.symm hne)] at ha hb
        have h1 : a ∈ keys r₂ := (find?_isSome_iff r₂ a).mp (by rw [← ha]; rfl)
        have h2 : b ∈ keys r₁ := (find?_isSome_iff r₁ b).mp (by rw [hb]; rfl)
        exact lt_asymm (hq a h1) (hp b h2)
      subst hab
      have hvw : v = w := by
        have ha := h a
        simp only [find?, if_true, Option.some.injEq] at ha
        exact ha
      subst hvw
      have hrest : r₁ = r₂ := by
        apply ih hr₁ hr₂
        intro k
        by_cases hk : k = a
        · subst hk
          have n1 : find? r₁ k = none :=
            (find?_eq_none_iff r₁ k).mpr (fun hm => lt_irrefl _ (hp k hm))
          have n2 : find? r₂ k = none :=
            (find?_eq_none_iff r₂ k).mpr (fun hm => lt_irrefl _ (hq k hm))
          rw [n1, n2]
        · have hk' := h k
          simp only [find?, if_neg hk] at hk'
          exact hk'
      rw [hrest]

/-- A rearrangement of a map without repeated keys has the same lookups. -/
theorem find?_perm {m₁ m₂ : OrdMap K V} (hp : m₁.Perm m₂) (hn : (keys m₁).Nodup) (k : K) :
    find? m₁ k = find? m₂ k := by
  have hn2 : (keys m₂).Nodup := (hp.map Prod.fst).nodup_iff.mp hn
  cases h1 : find? m₁ k with
  | some v => exact (find?_of_mem hn2 (hp.mem_iff.mp (mem_of_find? h1))).symm
  | none =>
    have : k ∉ keys m₂ := fun hm =>
      (find?_eq_none_iff m₁ k).mp h1 ((hp.map Prod.fst).mem_iff.mpr hm)
    exact ((find?_eq_none_iff m₂ k).mpr this).symm

end OrdMap

/-! ## Ranking: what the loops of `FindAllDocuments` compute -/

section Ranking

variable {R : Type}

theorem accumulateWord_spec (ar : DoubleOps R) (s : SearchServer R) (pred : DocumentPredicate)
    (idf : R) (freqs : List (Int × R))
    (hdocs : ∀ e ∈ freqs, (OrdMap.find? s.documents_ e.1).isSome = true)
    (hn : (OrdMap.keys freqs).Nodup) (m : OrdMap Int R) :
    ∃ m', accumulateWord ar s pred idf freqs m = .ok m' ∧
      (OrdMap.Sorted m → OrdMap.Sorted m') ∧
      ∀ x, OrdMap.find? m' x =
        accStep ar (OrdMap.find? m x) (pairsContribution ar s pred idf freqs x) := by
  induction freqs generalizing m with
  | nil => exact ⟨m, rfl, id, fun x => rfl⟩
  | cons e rest ih =>
    obtain ⟨id, tf⟩ := e
    obtain ⟨data, hdata⟩ := Option.isSome_iff_exists.mp (hdocs (id, tf) (List.mem_cons_self _ _))
    have hn' : id ∉ OrdMap.keys rest ∧ (OrdMap.keys rest).Nodup := by
      simpa [OrdMap.keys] using hn
    have hrest : OrdMap.find? rest id = none := (OrdMap.find?_eq_none_iff rest id).mpr hn'.1
    rw [accumulateWord, hdata]
    by_cases hp : pred id data.status data.rating = true
    · obtain ⟨m', hm', hs', hf'⟩ := ih (fun e he => hdocs e (List.mem_cons_of_mem _ he)) hn'.2
        (OrdMap.alter id ar.zero (fun v => ar.add v (ar.mul tf idf)) m)
      refine ⟨m', ?_, fun h => hs' (OrdMap.sorted_alter h), ?_⟩
      · simp only [if_pos hp]; exact hm'
      · intro x
        rw [hf' x, OrdMap.find?_alter]
        by_cases hx : x = id
        · subst hx
          simp only [pairsContribution, hrest, OrdMap.find?, if_true, hdata, if_pos hp, accStep]
        · simp only [pairsContribution, OrdMap.find?, if_neg hx]
    · obtain ⟨m', hm', hs', hf'⟩ := ih (fun e he => hdocs e (List.mem_cons_of_mem _ he)) hn'.2 m
      refine ⟨m', ?_, hs', ?_⟩
      · simp only [if_neg hp]; exact hm'
      · intro x
        rw [hf' x]
        by_cases hx : x = id
        · subst hx
          simp only [pairsContribution, hrest, OrdMap.find?, if_true, hdata, if_neg hp, accStep]
        · simp only [pairsContribution, OrdMap.find?, if_neg hx]

theorem accumulatePlus_spec (ar : DoubleOps R) (s : SearchServer R) (hs : Inv s)
    (pred : DocumentPredicate) (ws : List Str) (m : OrdMap Int R) :
    ∃ m', accumulatePlus ar s pred ws m = .ok m' ∧
      (OrdMap.Sorted m → OrdMap.Sorted m') ∧
      ∀ x, OrdMap.find? m' x =
        ws.foldl (fun entry w => accStep ar entry (contribution ar s pred w x))
          (OrdMap.find? m x) := by
  induction ws generalizing m with
  | nil => exact ⟨m, rfl, id, fun x => rfl⟩
  | cons w rest ih =>
    rw [accumulatePlus]
    cases hw : OrdMap.find? s.word_to_document_freqs_ w with
    | none =>
      obtain ⟨m', hm', hs', hf'⟩ := ih m
      refine ⟨m', hm', hs', ?_⟩
      intro x
      rw [hf' x, List.foldl_cons]
      simp only [contribution, hw, accStep]
    | some freqs =>
      have hmem := OrdMap.mem_of_find? hw
      obtain ⟨m1, hm1, hs1, hf1⟩ := accumulateWord_spec ar s pred
        (ar.log (ar.div (ar.mul (ar.ofNat (GetDocumentCount s)) ar.one) (ar.ofNat freqs.length)))
        freqs (hs.listed _ hmem) (hs.freqs_nodup _ hmem) m
      obtain ⟨m', hm', hs', hf'⟩ := ih m1
      refine ⟨m', ?_, fun h => hs' (hs1 h), ?_⟩
      · simp only [ComputeWordInverseDocumentFreq, hw, hm1]
        exact hm'
      · intro x
        rw [hf' x, List.foldl_cons, hf1 x]
        simp only [contribution, hw]

theorem eraseListed_spec (freqs : List (Int × R)) (m : OrdMap Int R) :
    (OrdMap.Sorted m → OrdMap.Sorted (eraseListed freqs m)) ∧
    ∀ x, (x ∈ OrdMap.keys freqs → OrdMap.find? (eraseListed freqs m) x = none) ∧
      (x ∉ OrdMap.keys freqs → OrdMap.find? (eraseListed freqs m) x = OrdMap.find? m x) := by
  induction freqs generalizing m with
  | nil => exact ⟨id, fun x => ⟨fun h => absurd h (by simp [OrdMap.keys]), fun _ => rfl⟩⟩
  | cons e rest ih =>
    obtain ⟨id, tf⟩ := e
    obtain ⟨hs, hf⟩ := ih (OrdMap.erase id m)
    refine ⟨fun h => hs (OrdMap.sorted_erase h), fun x => ⟨fun hx => ?_, fun hx => ?_⟩⟩
    · rw [eraseListed]
      by_cases hr : x ∈ OrdMap.keys rest
      · exact (hf x).1 hr
      · rw [(hf x).2 hr, OrdMap.find?_erase]
        have : x = id := by
          simp only [OrdMap.keys, List.map_cons, List.mem_cons] at hx
          rcases hx with h | h
          · exact h
          · exact absurd h hr
        rw [if_pos this]
    · rw [eraseListed]
      simp only [OrdMap.keys, List.map_cons, List.mem_cons, not_or] at hx
      rw [(hf x).2 hx.2, OrdMap.find?_erase, if_neg hx.1]

theorem eraseMinus_spec (s : SearchServer R) (ws : List Str) (m : OrdMap Int R) :
    (OrdMap.Sorted m → OrdMap.Sorted (eraseMinus s ws m)) ∧
    ∀ x, ((∃ w ∈ ws, Listed s w x) → OrdMap.find? (eraseMinus s ws m) x = none) ∧
      ((¬ ∃ w ∈ ws, Listed s w x) → OrdMap.find? (eraseMinus s ws m) x = OrdMap.find? m x) := by
  induction ws generalizing m with
  | nil =>
    refine ⟨id, fun x => ⟨fun h => ?_, fun _ => rfl⟩⟩
    obtain ⟨w, hw, _⟩ := h
    simp at hw
  | cons w rest ih =>
    rw [eraseMinus]
    cases hw : OrdMap.find? s.word_to_document_freqs_ w with
    | none =>
      obtain ⟨hs, hf⟩ := ih m
      have hnl : ∀ x, ¬ Listed s w x := by
        intro x ⟨freqs, h1, _⟩
        rw [hw] at h1
        cases h1
      refine ⟨hs, fun x => ⟨fun h => ?_, fun h => ?_⟩⟩
      · apply (hf x).1
        obtain ⟨w', hw', hl⟩ := h
        rcases List.mem_cons.mp hw' with rfl | hmem
        · exact absurd hl (hnl x)
        · exact ⟨w', hmem, hl⟩
      · apply (hf x).2
        rintro ⟨w', hw', hl⟩
        exact h ⟨w', List.mem_cons_of_mem _ hw', hl⟩
    | some freqs =>
      obtain ⟨hs, hf⟩ := ih (eraseListed freqs m)
      obtain ⟨hs1, hf1⟩ := eraseListed_spec freqs m
      have hl : ∀ x, Listed s w x ↔ x ∈ OrdMap.keys freqs := by
        intro x
        constructor
        · rintro ⟨freqs', h1, h2⟩
          rw [hw] at h1
          cases h1
          exact h2
        · intro h
          exact ⟨freqs, hw, h⟩
      refine ⟨fun h => hs (hs1 h), fun x => ⟨fun h => ?_, fun h => ?_⟩⟩
      · by_cases hr : ∃ w' ∈ rest, Listed s w' x
        · exact (hf x).1 hr
        · rw [(hf x).2 hr]
          obtain ⟨w', hw', hlw⟩ := h
          rcases List.mem_cons.mp hw' with rfl | hmem
          · exact (hf1 x).1 ((hl x).mp hlw)
          · exact absurd ⟨w', hmem, hlw⟩ hr
      · have hr : ¬ ∃ w' ∈ rest, Listed s w' x := by
          rintro ⟨w', hw', hlw⟩
          exact h ⟨w', List.mem_cons_of_mem _ hw', hlw⟩
        rw [(hf x).2 hr]
        apply (hf1 x).2
        intro hk
        exact h ⟨w, List.mem_cons_self _ _, (hl x).mpr hk⟩

theorem materialize_spec (s : SearchServer R) (m : List (Int × R))
    (h : ∀ e ∈ m, (OrdMap.find? s.documents_ e.1).isSome = true) :
    materialize s m = .ok (m.map (toDocument s)) := by
  induction m with
  | nil => rfl
  | cons e rest ih =>
    obtain ⟨id, rel⟩ := e
    obtain ⟨data, hdata⟩ := Option.isSome_iff_exists.mp (h (id, rel) (List.mem_cons_self _ _))
    rw [materialize, hdata, ih (fun e he => h e (List.mem_cons_of_mem _ he))]
    simp only [List.map_cons, toDocument, storedRating, hdata]

theorem isListed_iff (s : SearchServer R) (w : Str) (x : Int) :
    isListed s w x = true ↔ Listed s w x := by
  unfold isListed Listed
  cases hw : OrdMap.find? s.word_to_document_freqs_ w with
  | none => simp
  | some freqs => simp [OrdMap.find?_isSome_iff]

theorem contribution_isSome (ar : DoubleOps R) (s : SearchServer R) (pred : DocumentPredicate)
    (w : Str) (x : Int) :
    (contribution ar s pred w x).isSome = true ↔ Listed s w x ∧ Passes s pred x := by
  unfold contribution Listed Passes
  cases hw : OrdMap.find? s.word_to_document_freqs_ w with
  | none => simp
  | some freqs =>
    simp only [pairsContribution, Option.some.injEq, exists_eq_left']
    rw [← OrdMap.find?_isSome_iff]
    cases hf : OrdMap.find? freqs x with
    | none => simp
    | some tf =>
      cases hd : OrdMap.find? s.documents_ x with
      | none => simp
      | some data =>
        by_cases hp : pred x data.status data.rating = true
        · simp [hp]
        · simp [hp]

/-- The contribution of a word to a document that passes the predicate. -/
theorem contribution_of_passes (ar : DoubleOps R) (s : SearchServer R)
    (pred : DocumentPredicate) (w : Str) (x : Int) (hp : Passes s pred x) :
    contribution ar s pred w x =
      if isListed s w x then
        some (ar.mul (termFreq ar s w x)
          (ar.log (ar.div (ar.mul (ar.ofNat (GetDocumentCount s)) ar.one)
            (ar.ofNat (documentFreq s w)))))
      else none := by
  obtain ⟨data, hd, hpd⟩ := hp
  unfold contribution isListed termFreq documentFreq
  cases hw : OrdMap.find? s.word_to_document_freqs_ w with
  | none => simp
  | some freqs =>
    simp only [pairsContribution]
    cases hf : OrdMap.find? freqs x with
    | none => simp
    | some tf => simp [hd, hpd]

theorem foldl_accStep_isSome (ar : DoubleOps R) (c : Str → Option R) (ws : List Str)
    (entry : Option R) :
    (ws.foldl (fun e w => accStep ar e (c w)) entry).isSome = true ↔
      entry.isSome = true ∨ ∃ w ∈ ws, (c w).isSome = true := by
  induction ws generalizing entry with
  | nil => simp
  | cons w rest ih =>
    rw [List.foldl_cons, ih]
    cases hc : c w with
    | none => simp [accStep, hc]
    | some v => simp [accStep, hc]

theorem foldl_accStep_filter (ar : DoubleOps R) (listed : Str → Bool) (g : Str → R)
    (ws : List Str) (entry : Option R) :
    ws.foldl (fun e w => accStep ar e (if listed w then some (g w) else none)) entry =
      if ws.filter listed = [] then entry
      else some ((ws.filter listed).foldl (fun a w => ar.add a (g w)) (entry.getD ar.zero)) := by
  induction ws generalizing entry with
  | nil => simp
  | cons w rest ih =>
    rw [List.foldl_cons, ih]
    by_cases hl : listed w = true
    · simp only [hl, if_true, accStep, List.filter_cons_of_pos, Option.getD_some,
        List.foldl_cons, reduceCtorEq, if_false]
      by_cases hr : rest.filter listed = []
      · simp [hr]
      · simp [hr]
    · simp only [hl, accStep, List.filter_cons_of_neg, not_false_eq_true, Bool.false_eq_true,
        if_false]

/-- The sequential `FindAllDocuments` on a state with the invariant: it returns, and
its relevance map is described entry by entry. -/
theorem findAllDocuments_spec (ar : DoubleOps R) (s : SearchServer R) (hs : Inv s)
    (query : Query) (pred : DocumentPredicate) :
    ∃ m : OrdMap Int R,
      FindAllDocuments ar s query pred = .ok (m.map (toDocument s)) ∧
      OrdMap.Sorted m ∧
      (∃ m₀, accumulatePlus ar s pred query.plus_words [] = .ok m₀ ∧ OrdMap.Sorted m₀ ∧
        m = eraseMinus s query.minus_words m₀) ∧
      ∀ x,
        ((∃ w ∈ query.minus_words, Listed s w x) → OrdMap.find? m x = none) ∧
        ((¬ ∃ w ∈ query.minus_words, Listed s w x) →
          OrdMap.find? m x =
            query.plus_words.foldl (fun entry w => accStep ar entry (contribution ar s pred w x))
              none) := by
  obtain ⟨m₀, hm₀, hs₀, hf₀⟩ := accumulatePlus_spec ar s hs pred query.plus_words []
  obtain ⟨hs₁, hf₁⟩ := eraseMinus_spec s query.minus_words m₀
  have hsorted₀ : OrdMap.Sorted m₀ := hs₀ OrdMap.sorted_nil
  have hfind : ∀ x,
      ((∃ w ∈ query.minus_words, Listed s w x) →
        OrdMap.find? (eraseMinus s query.minus_words m₀) x = none) ∧
      ((¬ ∃ w ∈ query.minus_words, Listed s w x) →
        OrdMap.find? (eraseMinus s query.minus_words m₀) x =
          query.plus_words.foldl (fun entry w => accStep ar entry (contribution ar s pred w x))
            none) := by
    intro x
    refine ⟨(hf₁ x).1, fun h => ?_⟩
    rw [(hf₁ x).2 h, hf₀ x]
    rfl
  have hdocs : ∀ e ∈ eraseMinus s query.minus_words m₀,
      (OrdMap.find? s.documents_ e.1).isSome = true := by
    intro e he
    have hk : (OrdMap.find? (eraseMinus s query.minus_words m₀) e.1).isSome = true :=
      (OrdMap.find?_isSome_iff _ _).mpr (OrdMap.mem_keys_of_mem he)
    by_cases hminus : ∃ w ∈ query.minus_words, Listed s w e.1
    · rw [(hfind e.1).1 hminus] at hk
      cases hk
    · rw [(hfind e.1).2 hminus, foldl_accStep_isSome] at hk
      rcases hk with hk | ⟨w, _, hw⟩
      · cases hk
      · obtain ⟨data, hd, _⟩ := ((contribution_isSome ar s pred w e.1).mp hw).2
        rw [hd]; rfl
  refine ⟨eraseMinus s query.minus_words m₀, ?_, hs₁ hsorted₀, ⟨m₀, hm₀, hsorted₀, rfl⟩, hfind⟩
  rw [FindAllDocuments, hm₀]
  exact materialize_spec s _ hdocs

/-- Which documents are candidates, in terms of the relevance map. -/
theorem findAllDocuments_mem (ar : DoubleOps R) (s : SearchServer R) (hs : Inv s)
    (query : Query) (pred : DocumentPredicate) :
    ∃ cands, FindAllDocuments ar s query pred = .ok cands ∧
      (cands.map (fun doc => doc.id)).Nodup ∧
      ∀ x, x ∈ cands.map (fun doc => doc.id) ↔
        ((∃ w ∈ query.plus_words, Listed s w x ∧ Passes s pred x) ∧
          ¬ ∃ w ∈ query.minus_words, Listed s w x) := by
  obtain ⟨m, hm, hsorted, _, hf⟩ := findAllDocuments_spec ar s hs query pred
  have hids : (m.map (toDocument s)).map (fun doc => doc.id) = OrdMap.keys m := by
    simp [OrdMap.keys, toDocument, Function.comp_def]
  refine ⟨_, hm, ?_, fun x => ?_⟩
  · rw [hids]; exact hsorted.nodup
  · rw [hids, ← OrdMap.find?_isSome_iff]
    by_cases hminus : ∃ w ∈ query.minus_words, Listed s w x
    · rw [(hf x).1 hminus]
      constructor
      · intro h; cases h
      · intro h; exact absurd hminus h.2
    · rw [(hf x).2 hminus, foldl_accStep_isSome]
      constructor
      · rintro (h | ⟨w, hw, hc⟩)
        · cases h
        · exact ⟨⟨w, hw, (contribution_isSome ar s pred w x).mp hc⟩, hminus⟩
      · rintro ⟨⟨w, hw, hl⟩, _⟩
        exact Or.inr ⟨w, hw, (contribution_isSome ar s pred w x).mpr hl⟩

end Ranking

/-! ## Claims on the candidates of `FindAllDocuments` -/

/-- C1. In every reachable state, for every query and predicate, the sequential
`FindAllDocuments` returns a list in which a document id occurs (and then once) iff
(a) some plus-word is an index key listing the id and the predicate holds on the
stored `(id, status, rating)`, and (b) no minus-word is an index key listing the id.
A query without plus-words, or whose words are all absent from the index, gives the
empty list. -/
theorem C1_findAllDocuments_candidates {R : Type} (ar : DoubleOps R) (s : SearchServer R)
    (hs : Reachable ar s) (query : Query) (document_predicate : DocumentPredicate) :
    ∃ cands, FindAllDocuments ar s query document_predicate = .ok cands ∧
      (cands.map (fun doc => doc.id)).Nodup ∧
      (∀ id, id ∈ cands.map (fun doc => doc.id) ↔
        ((∃ w ∈ query.plus_words,
            (∃ freqs, OrdMap.find? s.word_to_document_freqs_ w = some freqs ∧
              id ∈ OrdMap.keys freqs) ∧
            ∃ data, OrdMap.find? s.documents_ id = some data ∧
              document_predicate id data.status data.rating = true) ∧
          ¬ ∃ w ∈ query.minus_words,
            ∃ freqs, OrdMap.find? s.word_to_document_freqs_ w = some freqs ∧
              id ∈ OrdMap.keys freqs)) ∧
      (query.plus_words = [] → cands = []) ∧
      ((∀ w ∈ query.plus_words ++ query.minus_words,
          OrdMap.find? s.word_to_document_freqs_ w = none) → cands = []) := by
  obtain ⟨cands, hc, hn, hmem⟩ :=
    findAllDocuments_mem ar s (inv_of_reachable hs) query document_predicate
  have hempty : (∀ id, id ∉ cands.map (fun doc => doc.id)) → cands = [] := by
    intro h
    cases cands with
    | nil => rfl
    | cons d rest => exact absurd (List.mem_cons_self _ _) (h d.id)
  refine ⟨cands, hc, hn, hmem, fun hp => hempty fun id hid => ?_, fun hw => hempty fun id hid => ?_⟩
  · obtain ⟨⟨w, hwm, _⟩, _⟩ := (hmem id).mp hid
    rw [hp] at hwm
    cases hwm
  · obtain ⟨⟨w, hwm, ⟨freqs, hf, _⟩, _⟩, _⟩ := (hmem id).mp hid
    rw [hw w (List.mem_append_left _ hwm)] at hf
    cases hf

/-- C2. Every candidate `d` of `FindAllDocuments` has as relevance the sum, taken
from `0.0` over the plus-words `w` listing `d` in the order of the set, of
`tf(w, d) * ln(N / df(w))`, with `N` the number of stored documents and `df(w)` the
number of documents listed under `w`; and as rating the rating stored for `d`.
(`hone`: the factor `1.0` in `N * 1.0 / df` changes nothing.) -/
theorem C2_findAllDocuments_relevance {R : Type} (ar : DoubleOps R)
    (hone : ∀ x, ar.mul x ar.one = x) (s : SearchServer R) (hs : Reachable ar s)
    (query : Query) (document_predicate : DocumentPredicate) :
    ∃ cands, FindAllDocuments ar s query document_predicate = .ok cands ∧
      ∀ d ∈ cands,
        d.relevance =
          (query.plus_words.filter (fun w => isListed s w d.id)).foldl
            (fun sum w =>
              ar.add sum
                (ar.mul (termFreq ar s w d.id)
                  (ar.log (ar.div (ar.ofNat (GetDocumentCount s))
                    (ar.ofNat (documentFreq s w))))))
            ar.zero ∧
        ∃ data, OrdMap.find? s.documents_ d.id = some data ∧ d.rating = data.rating := by
  have hinv := inv_of_reachable hs
  obtain ⟨m, hm, hsorted, _, hf⟩ := findAllDocuments_spec ar s hinv query document_predicate
  refine ⟨_, hm, fun d hd => ?_⟩
  obtain ⟨e, he, rfl⟩ := List.mem_map.mp hd
  have hfind : OrdMap.find? m e.1 = some e.2 := OrdMap.find?_of_mem hsorted.nodup he
  have hminus : ¬ ∃ w ∈ query.minus_words, Listed s w e.1 := by
    intro h
    rw [(hf e.1).1 h] at hfind
    cases hfind
  have hfold := (hf e.1).2 hminus
  rw [hfind] at hfold
  have hsome : (query.plus_words.foldl
      (fun entry w => accStep ar entry (contribution ar s document_predicate w e.1))
      none).isSome = true := by rw [← hfold]; rfl
  obtain ⟨w₀, hw₀, hc₀⟩ := ((foldl_accStep_isSome ar _ _ _).mp hsome).resolve_left (by simp)
  have hpass : Passes s document_predicate e.1 :=
    ((contribution_isSome ar s document_predicate w₀ e.1).mp hc₀).2
  have hlisted₀ : isListed s w₀ e.1 = true :=
    (isListed_iff s w₀ e.1).mpr ((contribution_isSome ar s document_predicate w₀ e.1).mp hc₀).1
  have hcontr : (fun (entry : Option R) (w : Str) =>
      accStep ar entry (contribution ar s document_predicate w e.1)) =
      (fun entry w => accStep ar entry
        (if isListed s w e.1 then
          some (ar.mul (termFreq ar s w e.1)
            (ar.log (ar.div (ar.ofNat (GetDocumentCount s)) (ar.ofNat (documentFreq s w)))))
        else none)) := by
    funext entry w
    rw [contribution_of_passes ar s document_predicate w e.1 hpass, hone]
  rw [hcontr, foldl_accStep_filter] at hfold
  have hne : query.plus_words.filter (fun w => isListed s w e.1) ≠ [] := by
    intro h
    have : w₀ ∈ query.plus_words.filter (fun w => isListed s w e.1) :=
      List.mem_filter.mpr ⟨hw₀, hlisted₀⟩
    rw [h] at this
    cases this
  rw [if_neg hne] at hfold
  refine ⟨?_, ?_⟩
  · have := Option.some.inj hfold
    simpa [toDocument] using this
  · obtain ⟨data, hdata, _⟩ := hpass
    exact ⟨data, hdata, by simp [toDocument, storedRating, hdata]⟩

/-! ## Sorting and cutting -/

section Sorting

variable {α : Type}

theorem sortInsert_perm (comp : α → α → Bool) (x : α) (l : List α) :
    (sortInsert comp x l).Perm (x :: l) := by
  induction l with
  | nil => exact List.Perm.refl _
  | cons y rest ih =>
    by_cases h : comp y x = true
    · simp only [sortInsert, if_pos h]
      exact (List.Perm.cons y ih).trans (List.Perm.swap _ _ _)
    · simp only [sortInsert, if_neg h]
      exact List.Perm.refl _

theorem sort_perm (comp : α → α → Bool) (l : List α) : (sort comp l).Perm l := by
  induction l with
  | nil => exact List.Perm.refl _
  | cons x rest ih =>
    exact (sortInsert_perm comp x (sort comp rest)).trans (List.Perm.cons x ih)

theorem sort_length (comp : α → α → Bool) (l : List α) : (sort comp l).length = l.length :=
  (sort_perm comp l).length_eq

/-- Insertion keeps a list in which no element should go before its predecessor,
as soon as `comp` never holds in both directions. -/
theorem sortInsert_chain (comp : α → α → Bool)
    (hasymm : ∀ a b, comp a b = true → comp b a = false) (x : α) (l : List α)
    (h : List.Chain' (fun a b => comp b a = false) l) :
    List.Chain' (fun a b => comp b a = false) (sortInsert comp x l) := by
  induction l with
  | nil => exact List.chain'_singleton x
  | cons y rest ih =>
    by_cases hyx : comp y x = true
    · simp only [sortInsert, if_pos hyx]
      have hrest := ih (List.Chain'.tail h)
      refine List.Chain'.cons' hrest ?_
      intro z hz
      cases rest with
      | nil =>
        simp only [sortInsert, List.head?_cons, Option.mem_def, Option.some.injEq] at hz
        rw [← hz]
        exact hasymm y x hyx
      | cons z' rest' =>
        by_cases hzx : comp z' x = true
        · simp only [sortInsert, if_pos hzx, List.head?_cons, Option.mem_def,
            Option.some.injEq] at hz
          rw [← hz]
          exact (List.chain'_cons.mp h).1
        · simp only [sortInsert, if_neg hzx, List.head?_cons, Option.mem_def,
            Option.some.injEq] at hz
          rw [← hz]
          exact hasymm y x hyx
    · simp only [sortInsert, if_neg hyx]
      exact List.chain'_cons.mpr ⟨by simpa using hyx, h⟩

theorem sort_chain (comp : α → α → Bool)
    (hasymm : ∀ a b, comp a b = true → comp b a = false) (l : List α) :
    List.Chain' (fun a b => comp b a = false) (sort comp l) := by
  induction l with
  | nil => exact List.chain'_nil
  | cons x rest ih => exact sortInsert_chain comp hasymm x _ ih

end Sorting

section Top

variable {R : Type}

theorem sortAndCut_eq (ar : DoubleOps R) (cands : List (Document R)) :
    sortAndCut ar cands =
      (sort (compareDocuments ar) cands).take (min MAX_RESULT_DOCUMENT_COUNT cands.length) := by
  unfold sortAndCut
  simp only
  by_cases h : (sort (compareDocuments ar) cands).length > MAX_RESULT_DOCUMENT_COUNT
  · rw [if_pos h]
    rw [sort_length] at h
    rw [Nat.min_eq_left (Nat.le_of_lt h)]
  · rw [if_neg h]
    rw [sort_length] at h
    rw [Nat.min_eq_right (Nat.le_of_not_lt h), ← sort_length (compareDocuments ar) cands,
      List.take_length]

theorem mem_sortAndCut (ar : DoubleOps R) {cands : List (Document R)} {d : Document R}
    (h : d ∈ sortAndCut ar cands) : d ∈ cands := by
  rw [sortAndCut_eq] at h
  exact (sort_perm _ cands).mem_iff.mp (List.mem_of_mem_take h)

/-- On a state with the invariant and a query that parses, `FindTopDocuments` returns the
sorted and cut candidates of `FindAllDocuments`. -/
theorem findTopDocuments_eq (ar : DoubleOps R) (s : SearchServer R) (hs : Inv s) (raw : Str)
    (query : Query) (hq : ParseQuery s raw = .ok query) (pred : DocumentPredicate) :
    ∃ cands, FindAllDocuments ar s query pred = .ok cands ∧
      FindTopDocuments ar s raw pred = .ok (sortAndCut ar cands) := by
  obtain ⟨m, hm, _⟩ := findAllDocuments_spec ar s hs query pred
  refine ⟨_, hm, ?_⟩
  rw [FindTopDocuments, hq]
  simp only [hm]

end Top

/-! ## Claims on `FindTopDocuments` -/

/-- C3. In every reachable state, for a query whose parsed minus-words contain `M`
and for every predicate, `FindTopDocuments` returns and no returned document is
listed under `M` in the index; nothing is assumed on `M` being a plus-word too. -/
theorem C3_findTopDocuments_excludes_minus {R : Type} (ar : DoubleOps R) (s : SearchServer R)
    (hs : Reachable ar s) (raw_query : Str) (query : Query)
    (hq : ParseQuery s raw_query = .ok query) (M : Str) (hM : M ∈ query.minus_words)
    (document_predicate : DocumentPredicate) :
    ∃ result, FindTopDocuments ar s raw_query document_predicate = .ok result ∧
      ∀ d ∈ result,
        ¬ ∃ freqs, OrdMap.find? s.word_to_document_freqs_ M = some freqs ∧
          d.id ∈ OrdMap.keys freqs := by
  have hinv := inv_of_reachable hs
  obtain ⟨cands, hc, htop⟩ := findTopDocuments_eq ar s hinv raw_query query hq document_predicate
  obtain ⟨cands', hc', _, hmem⟩ := findAllDocuments_mem ar s hinv query document_predicate
  rw [hc] at hc'
  cases hc'
  refine ⟨_, htop, fun d hd hl => ?_⟩
  have hdc : d.id ∈ cands.map (fun doc => doc.id) :=
    List.mem_map.mpr ⟨d, mem_sortAndCut ar hd, rfl⟩
  exact ((hmem d.id).mp hdc).2 ⟨M, hM, hl⟩

/-- C4. In every reachable state, for a query that parses and every predicate,
`FindTopDocuments` returns the first `min(5, n)` elements of the sorted list of the
`n` candidates of `FindAllDocuments`: never more than `MAX_RESULT_DOCUMENT_COUNT = 5`
documents, and all candidates when `n <= 5`. -/
theorem C4_findTopDocuments_cut {R : Type} (ar : DoubleOps R) (s : SearchServer R)
    (hs : Reachable ar s) (raw_query : Str) (query : Query)
    (hq : ParseQuery s raw_query = .ok query) (document_predicate : DocumentPredicate) :
    ∃ cands result,
      FindAllDocuments ar s query document_predicate = .ok cands ∧
      FindTopDocuments ar s raw_query document_predicate = .ok result ∧
      result = (sort (compareDocuments ar) cands).take (min 5 cands.length) ∧
      result.length = min 5 cands.length ∧
      result.length ≤ MAX_RESULT_DOCUMENT_COUNT ∧
      (cands.length ≤ 5 → result = sort (compareDocuments ar) cands ∧ result.Perm cands) := by
  obtain ⟨cands, hc, htop⟩ :=
    findTopDocuments_eq ar s (inv_of_reachable hs) raw_query query hq document_predicate
  have heq := sortAndCut_eq ar cands
  have hlen : (sortAndCut ar cands).length = min 5 cands.length := by
    rw [heq, List.length_take, sort_length]
    simp [MAX_RESULT_DOCUMENT_COUNT]
  refine ⟨cands, _, hc, htop, heq, hlen, ?_, fun hn => ?_⟩
  · rw [hlen]; exact Nat.min_le_left _ _
  · have : sortAndCut ar cands = sort (compareDocuments ar) cands := by
      rw [heq]
      apply List.take_of_length_le
      rw [sort_length]
      simp [MAX_RESULT_DOCUMENT_COUNT, hn]
    rw [this]
    exact ⟨rfl, sort_perm _ _⟩

/-! ## `ConcurrentMap` -/

namespace ConcurrentMap

variable {R : Type}

theorem length_modifyBucket (f : OrdMap Int R → OrdMap Int R) (i : Nat)
    (bs : List (OrdMap Int R)) : (modifyBucket f i bs).length = bs.length := by
  induction bs generalizing i with
  | nil => cases i <;> rfl
  | cons b rest ih =>
    cases i with
    | zero => rfl
    | succ i => simp [modifyBucket, ih]

theorem getElem?_modifyBucket (f : OrdMap Int R → OrdMap Int R) (i : Nat)
    (bs : List (OrdMap Int R)) (j : Nat) :
    (modifyBucket f i bs)[j]? = if j = i then (bs[j]?).map f else bs[j]? := by
  induction bs generalizing i j with
  | nil => cases i <;> simp [modifyBucket]
  | cons b rest ih =>
    cases i with
    | zero =>
      cases j with
      | zero => simp [modifyBucket]
      | succ j => simp [modifyBucket]
    | succ i =>
      cases j with
      | zero => simp [modifyBucket]
      | succ j => simp [modifyBucket, ih]

theorem wf_create (n : Nat) : WF (create n : ConcurrentMap R) := by
  intro i bucket hb key hk
  have : bucket = [] := by
    simp only [create, List.getElem?_replicate] at hb
    split at hb
    · exact (Option.some.inj hb).symm
    · cases hb
  rw [this] at hk
  simp [OrdMap.keys] at hk

theorem find?_create (n : Nat) (x : Int) : find? (create n : ConcurrentMap R) x = none := by
  simp only [find?, create, List.getElem?_replicate]
  split <;> rfl

theorem bucketIndex_lt (key : Int) {n : Nat} (hn : 0 < n) : bucketIndex key n < n :=
  Nat.mod_lt _ hn

/-- An update through `operator[]` on a map with at least one bucket. -/
theorem update_spec (m : ConcurrentMap R) (hn : 0 < m.split_map_in_vec_.length) (hwf : WF m)
    (key : Int) (d : R) (f : R → R) :
    ∃ m', update m key d f = .ok m' ∧
      m'.split_map_in_vec_.length = m.split_map_in_vec_.length ∧ WF m' ∧
      ∀ x, find? m' x = if x = key then some (f ((find? m key).getD d)) else find? m x := by
  have hne : m.split_map_in_vec_.length ≠ 0 := Nat.pos_iff_ne_zero.mp hn
  refine ⟨_, by rw [update, if_neg hne], length_modifyBucket _ _ _, ?_, ?_⟩
  · intro i bucket hb k hk
    simp only [length_modifyBucket] at hb ⊢
    rw [getElem?_modifyBucket] at hb
    by_cases hi : i = bucketIndex key m.split_map_in_vec_.length
    · rw [if_pos hi] at hb
      obtain ⟨b₀, hb₀, rfl⟩ := Option.map_eq_some'.mp hb
      rcases OrdMap.mem_keys_alter.mp hk with rfl | hk'
      · rw [hi]; simp
      · exact hwf i b₀ hb₀ k hk'
    · rw [if_neg hi] at hb
      exact hwf i bucket hb k hk
  · intro x
    simp only [find?, length_modifyBucket, getElem?_modifyBucket]
    have hlt := bucketIndex_lt key hn
    by_cases hx : x = key
    · subst hx
      simp only [if_true]
      rw [List.getElem?_eq_getElem hlt]
      simp [OrdMap.find?_alter]
    · rw [if_neg hx]
      by_cases hi : bucketIndex x m.split_map_in_vec_.length =
          bucketIndex key m.split_map_in_vec_.length
      · rw [if_pos hi, hi, List.getElem?_eq_getElem hlt]
        simp [OrdMap.find?_alter, hx]
      · rw [if_neg hi]

theorem insertRange_spec (dict : List (Int × R)) (result : OrdMap Int R) :
    (OrdMap.Sorted result → OrdMap.Sorted (insertRange dict result)) ∧
    ∀ x, OrdMap.find? (insertRange dict result) x =
      match OrdMap.find? result x with
      | some v => some v
      | none => OrdMap.find? dict x := by
  induction dict generalizing result with
  | nil =>
    refine ⟨id, fun x => ?_⟩
    cases h : OrdMap.find? result x <;> simp [insertRange, h, OrdMap.find?]
  | cons e rest ih =>
    obtain ⟨k, v⟩ := e
    obtain ⟨hs, hf⟩ := ih (OrdMap.emplace k v result)
    refine ⟨fun h => hs (OrdMap.sorted_emplace v h), fun x => ?_⟩
    rw [insertRange, hf x]
    cases hk : OrdMap.find? result k with
    | none =>
      rw [OrdMap.find?_emplace v hk]
      by_cases hx : x = k
      · subst hx
        simp [hk, OrdMap.find?]
      · simp only [if_neg hx, OrdMap.find?]
    | some w =>
      have hemp : OrdMap.emplace k v result = result := by
        simp [OrdMap.emplace, hk]
      rw [hemp]
      by_cases hx : x = k
      · subst hx
        simp [hk]
      · simp only [OrdMap.find?, if_neg hx]

theorem buildLoop_spec (bs : List (OrdMap Int R)) (result : OrdMap Int R) :
    (OrdMap.Sorted result → OrdMap.Sorted (buildLoop bs result)) ∧
    ∀ x, OrdMap.find? (buildLoop bs result) x =
      match OrdMap.find? result x with
      | some v => some v
      | none => bs.findSome? (fun bucket => OrdMap.find? bucket x) := by
  induction bs generalizing result with
  | nil =>
    refine ⟨id, fun x => ?_⟩
    cases h : OrdMap.find? result x <;> simp [buildLoop, h]
  | cons b rest ih =>
    obtain ⟨hs, hf⟩ := ih (insertRange b result)
    obtain ⟨hs1, hf1⟩ := insertRange_spec b result
    refine ⟨fun h => hs (hs1 h), fun x => ?_⟩
    rw [buildLoop, hf x, hf1 x]
    cases h : OrdMap.find? result x with
    | some v => rfl
    | none =>
      simp only [List.findSome?_cons]
      cases hb : OrdMap.find? b x <;> rfl

theorem findSome?_of_bucketsOk (n : Nat) (bs : List (OrdMap Int R)) (o : Nat)
    (h : BucketsOk n o bs) (x : Int) :
    bs.findSome? (fun bucket => OrdMap.find? bucket x) =
      if o ≤ bucketIndex x n then
        (bs[bucketIndex x n - o]?).bind (fun bucket => OrdMap.find? bucket x)
      else none := by
  induction bs generalizing o with
  | nil => simp
  | cons b rest ih =>
    have hrest : BucketsOk n (o + 1) rest := by
      intro i bucket hb key hk
      have := h (i + 1) bucket (by simpa using hb) key hk
      omega
    rw [List.findSome?_cons]
    cases hb : OrdMap.find? b x with
    | some v =>
      have hx : x ∈ OrdMap.keys b := (OrdMap.find?_isSome_iff b x).mp (by rw [hb]; rfl)
      have hidx := h 0 b (by simp) x hx
      simp [hidx, hb]
    | none =>
      simp only
      rw [ih (o + 1) hrest]
      by_cases h1 : o + 1 ≤ bucketIndex x n
      · have h2 : o ≤ bucketIndex x n := by omega
        have h3 : bucketIndex x n - o = (bucketIndex x n - (o + 1)) + 1 := by omega
        rw [if_pos h1, if_pos h2, h3, List.getElem?_cons_succ]
      · rw [if_neg h1]
        by_cases h2 : o ≤ bucketIndex x n
        · have h3 : bucketIndex x n - o = 0 := by omega
          rw [if_pos h2, h3]
          simp [hb]
        · rw [if_neg h2]

/-- The map built by `BuildOrdinaryMap` has ascending keys and the entries of the
`ConcurrentMap`. -/
theorem buildOrdinaryMap_spec (m : ConcurrentMap R) (hwf : WF m) :
    OrdMap.Sorted (BuildOrdinaryMap m) ∧
    ∀ x, OrdMap.find? (BuildOrdinaryMap m) x = find? m x := by
  obtain ⟨hs, hf⟩ := buildLoop_spec m.split_map_in_vec_ []
  refine ⟨hs OrdMap.sorted_nil, fun x => ?_⟩
  rw [BuildOrdinaryMap, hf x]
  simp only [OrdMap.find?]
  rw [findSome?_of_bucketsOk _ _ 0 hwf x]
  simp [find?]

end ConcurrentMap

/-! ## Ranking, parallel -/

section Parallel

variable {R : Type}

theorem pairsContribution_perm (ar : DoubleOps R) (s : SearchServer R)
    (pred : DocumentPredicate) (idf : R) {l₁ l₂ : List (Int × R)} (hp : l₁.Perm l₂)
    (hn : (OrdMap.keys l₁).Nodup) (x : Int) :
    pairsContribution ar s pred idf l₁ x = pairsContribution ar s pred idf l₂ x := by
  unfold pairsContribution
  rw [OrdMap.find?_perm hp hn x]

theorem accumulateWordPar_spec (ar : DoubleOps R) (s : SearchServer R)
    (pred : DocumentPredicate) (idf : R) (pairs : List (Int × R))
    (hdocs : ∀ e ∈ pairs, (OrdMap.find? s.documents_ e.1).isSome = true)
    (hn : (OrdMap.keys pairs).Nodup) (m : ConcurrentMap R)
    (hlen : 0 < m.split_map_in_vec_.length) (hwf : ConcurrentMap.WF m) :
    ∃ m', accumulateWordPar ar s pred idf pairs m = .ok m' ∧
      m'.split_map_in_vec_.length = m.split_map_in_vec_.length ∧ ConcurrentMap.WF m' ∧
      ∀ x, ConcurrentMap.find? m' x =
        accStep ar (ConcurrentMap.find? m x) (pairsContribution ar s pred idf pairs x) := by
  induction pairs generalizing m with
  | nil => exact ⟨m, rfl, rfl, hwf, fun x => rfl⟩
  | cons e rest ih =>
    obtain ⟨id, tf⟩ := e
    obtain ⟨data, hdata⟩ := Option.isSome_iff_exists.mp (hdocs (id, tf) (List.mem_cons_self _ _))
    have hn' : id ∉ OrdMap.keys rest ∧ (OrdMap.keys rest).Nodup := by
      simpa [OrdMap.keys] using hn
    have hrest : OrdMap.find? rest id = none := (OrdMap.find?_eq_none_iff rest id).mpr hn'.1
    rw [accumulateWordPar, hdata]
    by_cases hp : pred id data.status data.rating = true
    · obtain ⟨m₁, hm₁, hl₁, hwf₁, hf₁⟩ := ConcurrentMap.update_spec m hlen hwf id ar.zero
        (fun v => ar.add v (ar.mul tf idf))
      obtain ⟨m', hm', hl', hwf', hf'⟩ := ih (fun e he => hdocs e (List.mem_cons_of_mem _ he))
        hn'.2 m₁ (by rw [hl₁]; exact hlen) hwf₁
      refine ⟨m', ?_, by rw [hl', hl₁], hwf', ?_⟩
      · simp only [if_pos hp, hm₁]; exact hm'
      · intro x
        rw [hf' x, hf₁ x]
        by_cases hx : x = id
        · subst hx
          simp only [pairsContribution, hrest, OrdMap.find?, if_true, hdata, if_pos hp, accStep]
        · simp only [pairsContribution, OrdMap.find?, if_neg hx]
    · obtain ⟨m', hm', hl', hwf', hf'⟩ := ih (fun e he => hdocs e (List.mem_cons_of_mem _ he))
        hn'.2 m hlen hwf
      refine ⟨m', ?_, hl', hwf', ?_⟩
      · simp only [if_neg hp]; exact hm'
      · intro x
        rw [hf' x]
        by_cases hx : x = id
        · subst hx
          simp only [pairsContribution, hrest, OrdMap.find?, if_true, hdata, if_neg hp, accStep]
        · simp only [pairsContribution, OrdMap.find?, if_neg hx]

theorem accumulatePlusPar_spec (ar : DoubleOps R) (s : SearchServer R) (hs : Inv s)
    (schedule : List (Int × R) → List (Int × R)) (hsched : ∀ l, (schedule l).Perm l)
    (pred : DocumentPredicate) (ws : List Str) (m : ConcurrentMap R)
    (hlen : m.split_map_in_vec_.length = s.word_to_document_freqs_.length)
    (hwf : ConcurrentMap.WF m) :
    ∃ m', accumulatePlusPar ar s schedule pred ws m = .ok m' ∧ ConcurrentMap.WF m' ∧
      ∀ x, ConcurrentMap.find? m' x =
        ws.foldl (fun entry w => accStep ar entry (contribution ar s pred w x))
          (ConcurrentMap.find? m x) := by
  induction ws generalizing m with
  | nil => exact ⟨m, rfl, hwf, fun x => rfl⟩
  | cons w rest ih =>
    rw [accumulatePlusPar]
    cases hw : OrdMap.find? s.word_to_document_freqs_ w with
    | none =>
      obtain ⟨m', hm', hwf', hf'⟩ := ih m hlen hwf
      refine ⟨m', hm', hwf', ?_⟩
      intro x
      rw [hf' x, List.foldl_cons]
      simp only [contribution, hw, accStep]
    | some freqs =>
      have hmem := OrdMap.mem_of_find? hw
      have hpos : 0 < m.split_map_in_vec_.length := by
        rw [hlen]
        exact List.length_pos_of_mem hmem
      have hperm := hsched freqs
      have hnodup : (OrdMap.keys (schedule freqs)).Nodup :=
        (hperm.map Prod.fst).nodup_iff.mpr (hs.freqs_nodup _ hmem)
      obtain ⟨m₁, hm₁, hl₁, hwf₁, hf₁⟩ := accumulateWordPar_spec ar s pred
        (ar.log (ar.div (ar.mul (ar.ofNat (GetDocumentCount s)) ar.one) (ar.ofNat freqs.length)))
        (schedule freqs) (fun e he => hs.listed _ hmem e (hperm.mem_iff.mp he)) hnodup m hpos hwf
      obtain ⟨m', hm', hwf', hf'⟩ := ih m₁ (by rw [hl₁, hlen]) hwf₁
      refine ⟨m', ?_, hwf', ?_⟩
      · simp only [ComputeWordInverseDocumentFreq, hw, hm₁]
        exact hm'
      · intro x
        rw [hf' x, List.foldl_cons, hf₁ x, pairsContribution_perm ar s pred _ hperm hnodup x]
        simp only [contribution, hw]

/-- On a state with the invariant, the parallel `FindAllDocuments` returns what the
sequential one returns, whatever the order in which the workers update the
accumulator. -/
theorem findAllDocumentsPar_eq (ar : DoubleOps R) (s : SearchServer R) (hs : Inv s)
    (schedule : List (Int × R) → List (Int × R)) (hsched : ∀ l, (schedule l).Perm l)
    (query : Query) (pred : DocumentPredicate) :
    FindAllDocumentsPar ar s schedule query pred = FindAllDocuments ar s query pred := by
  obtain ⟨m₀, hm₀, hs₀, hf₀⟩ := accumulatePlus_spec ar s hs pred query.plus_words []
  obtain ⟨c, hc, hwf, hfc⟩ := accumulatePlusPar_spec ar s hs schedule hsched pred
    query.plus_words (ConcurrentMap.create s.word_to_document_freqs_.length)
    (by simp [ConcurrentMap.create]) (ConcurrentMap.wf_create _)
  obtain ⟨hsb, hfb⟩ := ConcurrentMap.buildOrdinaryMap_spec c hwf
  have heq : ConcurrentMap.BuildOrdinaryMap c = m₀ := by
    apply OrdMap.ext_of_sorted hsb (hs₀ OrdMap.sorted_nil)
    intro x
    rw [hfb x, hfc x, hf₀ x, ConcurrentMap.find?_create]
    rfl
  rw [FindAllDocumentsPar, hc, FindAllDocuments, hm₀]
  simp only [heq]

end Parallel

/-! ## `AddDocument` -/

section Adding

variable {R : Type}

theorem wrap32_of_fits {x : Int} (h₁ : -2147483648 ≤ x) (h₂ : x < 2147483648) : wrap32 x = x := by
  unfold wrap32
  omega

theorem wrap32_add_wrap32 (a b : Int) : wrap32 (wrap32 a + b) = wrap32 (a + b) := by
  unfold wrap32
  omega

theorem foldl_wrap32 (ratings : List Int) (a : Int) :
    ratings.foldl (fun acc rating => wrap32 (acc + rating)) (wrap32 a) =
      wrap32 (a + ratings.sum) := by
  induction ratings generalizing a with
  | nil => simp
  | cons r rest ih =>
    rw [List.foldl_cons, wrap32_add_wrap32, ih, List.sum_cons, add_assoc]

theorem isValidWord_eq_false_iff (word : Str) : IsValidWord word = false ↔ HasControlByte word := by
  unfold IsValidWord HasControlByte
  simp

theorem splitIntoWordsNoStopLoop_cases (s : SearchServer R) (tokens : List Str) :
    ((∃ w ∈ tokens, HasControlByte w) ∧
      SplitIntoWordsNoStopLoop s tokens = .error .invalid_argument) ∨
    ((¬ ∃ w ∈ tokens, HasControlByte w) ∧
      ∃ words, SplitIntoWordsNoStopLoop s tokens = .ok words) := by
  induction tokens with
  | nil => exact Or.inr ⟨by simp, [], rfl⟩
  | cons w rest ih =>
    rw [SplitIntoWordsNoStopLoop]
    by_cases hv : IsValidWord w = true
    · have hnc : ¬ HasControlByte w := fun h => by
        rw [(isValidWord_eq_false_iff w).mpr h] at hv
        cases hv
      simp only [hv, Bool.not_true, Bool.false_eq_true, if_false]
      rcases ih with ⟨⟨w', hw', hc⟩, he⟩ | ⟨hno, words, hok⟩
      · exact Or.inl ⟨⟨w', List.mem_cons_of_mem _ hw', hc⟩, by rw [he]⟩
      · refine Or.inr ⟨?_, _, by rw [hok]⟩
        rintro ⟨w', hw', hc⟩
        rcases List.mem_cons.mp hw' with rfl | hmem
        · exact hnc hc
        · exact hno ⟨w', hmem, hc⟩
    · have hf : IsValidWord w = false := by simpa using hv
      refine Or.inl ⟨⟨w, List.mem_cons_self _ _, (isValidWord_eq_false_iff w).mp hf⟩, ?_⟩
      simp only [hf, Bool.not_false, if_true]

theorem addDocument_of_bad_id (ar : DoubleOps R) (s : SearchServer R) (id : Int) (text : Str)
    (status : DocumentStatus) (ratings : List Int)
    (h : id < 0 ∨ OrdMap.count s.documents_ id > 0) :
    AddDocument ar s id text status ratings = (.error .invalid_argument, s) := by
  rw [AddDocument, if_pos h]

theorem addDocument_of_bad_word (ar : DoubleOps R) (s : SearchServer R) (id : Int) (text : Str)
    (status : DocumentStatus) (ratings : List Int)
    (h : ¬ (id < 0 ∨ OrdMap.count s.documents_ id > 0)) (e : Fault)
    (hw : SplitIntoWordsNoStop s text = .error e) :
    AddDocument ar s id text status ratings = (.error e, s) := by
  rw [AddDocument, if_neg h, hw]

theorem addDocument_of_bad_ratings (ar : DoubleOps R) (s : SearchServer R) (id : Int)
    (text : Str) (status : DocumentStatus) (ratings : List Int)
    (h : ¬ (id < 0 ∨ OrdMap.count s.documents_ id > 0)) (words : List Str)
    (hw : SplitIntoWordsNoStop s text = .ok words) (e : Fault)
    (hr : ComputeAverageRating ratings = .error e) :
    AddDocument ar s id text status ratings =
      (.error e, indexWords ar id (ar.div ar.one (ar.ofNat words.length)) words s) := by
  rw [AddDocument, if_neg h, hw, hr]

theorem addDocument_of_ok (ar : DoubleOps R) (s : SearchServer R) (id : Int)
    (text : Str) (status : DocumentStatus) (ratings : List Int)
    (h : ¬ (id < 0 ∨ OrdMap.count s.documents_ id > 0)) (words : List Str)
    (hw : SplitIntoWordsNoStop s text = .ok words) (rating : Int)
    (hr : ComputeAverageRating ratings = .ok rating) :
    AddDocument ar s id text status ratings =
      (.ok (), addedState ar s id words rating status) := by
  rw [AddDocument, if_neg h, hw, hr]
  rfl

theorem count_pos_iff (m : OrdMap Int DocumentData) (id : Int) :
    OrdMap.count m id > 0 ↔ (OrdMap.find? m id).isSome = true := by
  unfold OrdMap.count
  by_cases h : (OrdMap.find? m id).isSome = true <;> simp [h]

theorem computeAverageRating_eq (ratings : List Int) :
    ComputeAverageRating ratings =
      if wrap32 (ratings.length : Int) = 0 then .error .division_by_zero
      else .ok (wrap32 (Int.tdiv (ratings.foldl (fun acc rating => wrap32 (acc + rating)) 0)
        (wrap32 (ratings.length : Int)))) := rfl

theorem computeAverageRating_ok (ratings : List Int) (hne : ratings ≠ [])
    (hlen : ratings.length < 2147483648) :
    ComputeAverageRating ratings =
      .ok (wrap32 (Int.tdiv (wrap32 ratings.sum) (ratings.length : Int))) := by
  have hpos : 0 < ratings.length := List.length_pos.mpr hne
  have hsize : wrap32 (ratings.length : Int) = (ratings.length : Int) :=
    wrap32_of_fits (by omega) (by omega)
  have hsum := foldl_wrap32 ratings 0
  rw [wrap32_of_fits (x := 0) (by omega) (by omega), zero_add] at hsum
  rw [computeAverageRating_eq, hsize, hsum, if_neg (by omega)]

theorem computeAverageRating_error (ratings : List Int) (e : Fault)
    (h : ComputeAverageRating ratings = .error e) : e = .division_by_zero := by
  rw [computeAverageRating_eq] at h
  by_cases hz : wrap32 (ratings.length : Int) = 0
  · rw [if_pos hz] at h
    exact (Except.error.inj h).symm
  · rw [if_neg hz] at h
    cases h

/-- A failure of `AddDocument` with `invalid_argument` leaves the server as it was. -/
theorem addDocument_invalid_argument_unchanged (ar : DoubleOps R) (s : SearchServer R) (id : Int)
    (text : Str) (status : DocumentStatus) (ratings : List Int)
    (h : (AddDocument ar s id text status ratings).1 = .error .invalid_argument) :
    (AddDocument ar s id text status ratings).2 = s := by
  by_cases hid : id < 0 ∨ OrdMap.count s.documents_ id > 0
  · rw [addDocument_of_bad_id ar s id text status ratings hid]
  · cases hw : SplitIntoWordsNoStop s text with
    | error e => rw [addDocument_of_bad_word ar s id text status ratings hid e hw]
    | ok words =>
      cases hr : ComputeAverageRating ratings with
      | ok rating =>
        rw [addDocument_of_ok ar s id text status ratings hid words hw rating hr] at h
        cases h
      | error e =>
        rw [addDocument_of_bad_ratings ar s id text status ratings hid words hw e hr] at h
        have he : e = .division_by_zero := computeAverageRating_error ratings e hr
        subst he
        cases h

end Adding

/-- C7. For every server state and every non-empty ratings list (whose length fits
an `int`), `AddDocument` fails with `invalid_argument` iff `id < 0`, or `id` is a
stored document, or some word of the text has a byte in `[0, 0x20)`; otherwise it
returns normally, the document count is one more, and the status and the average
rating are stored under `id`. -/
theorem C7_addDocument_outcome {R : Type} (ar : DoubleOps R) (s : SearchServer R)
    (document_id : Int) (document : Str) (status : DocumentStatus) (ratings : List Int)
    (hne : ratings ≠ []) (hlen : ratings.length < 2147483648) :
    ((AddDocument ar s document_id document status ratings).1 = .error .invalid_argument ↔
      (document_id < 0 ∨ (OrdMap.find? s.documents_ document_id).isSome = true ∨
        ∃ w ∈ SplitIntoWords document, ∃ c ∈ w, c.toNat < 32)) ∧
    (¬ (document_id < 0 ∨ (OrdMap.find? s.documents_ document_id).isSome = true ∨
        ∃ w ∈ SplitIntoWords document, ∃ c ∈ w, c.toNat < 32) →
      ∃ rating, ComputeAverageRating ratings = .ok rating ∧
        (AddDocument ar s document_id document status ratings).1 = .ok () ∧
        GetDocumentCount (AddDocument ar s document_id document status ratings).2 =
          GetDocumentCount s + 1 ∧
        OrdMap.find? (AddDocument ar s document_id document status ratings).2.documents_
          document_id = some { rating := rating, status := status }) := by
  have hr := computeAverageRating_ok ratings hne hlen
  by_cases hid : document_id < 0 ∨ OrdMap.count s.documents_ document_id > 0
  · have hcond : document_id < 0 ∨ (OrdMap.find? s.documents_ document_id).isSome = true ∨
        ∃ w ∈ SplitIntoWords document, ∃ c ∈ w, c.toNat < 32 := by
      rcases hid with h | h
      · exact Or.inl h
      · exact Or.inr (Or.inl ((count_pos_iff _ _).mp h))
    rw [addDocument_of_bad_id ar s document_id document status ratings hid]
    exact ⟨⟨fun _ => hcond, fun _ => rfl⟩, fun h => absurd hcond h⟩
  · have hid1 : ¬ document_id < 0 := fun h => hid (Or.inl h)
    have hid2 : ¬ (OrdMap.find? s.documents_ document_id).isSome = true :=
      fun h => hid (Or.inr ((count_pos_iff _ _).mpr h))
    have hnone : OrdMap.find? s.documents_ document_id = none := by
      cases hf : OrdMap.find? s.documents_ document_id with
      | none => rfl
      | some v => rw [hf] at hid2; exact absurd rfl hid2
    rcases splitIntoWordsNoStopLoop_cases s (SplitIntoWords document) with
      ⟨hbad, herr⟩ | ⟨hgood, words, hok⟩
    · rw [addDocument_of_bad_word ar s document_id document status ratings hid _ herr]
      exact ⟨⟨fun _ => Or.inr (Or.inr hbad), fun _ => rfl⟩,
        fun h => absurd (Or.inr (Or.inr hbad)) h⟩
    · rw [addDocument_of_ok ar s document_id document status ratings hid words hok _ hr]
      have hd := (indexWords_documents ar document_id
        (ar.div ar.one (ar.ofNat words.length)) words s).1
      refine ⟨⟨fun h => ?_, fun h => ?_⟩, fun _ => ⟨_, hr, rfl, ?_, ?_⟩⟩
      · cases h
      · rcases h with h | h | h
        · exact absurd h hid1
        · exact absurd h hid2
        · exact absurd h hgood
      · show (OrdMap.emplace document_id _ (indexWords ar document_id _ words s).documents_).length
          = s.documents_.length + 1
        rw [hd]
        exact OrdMap.length_emplace _ hnone
      · show OrdMap.find? (OrdMap.emplace document_id _
          (indexWords ar document_id _ words s).documents_) document_id = _
        rw [hd, OrdMap.find?_emplace _ hnone, if_pos rfl]

section Adding

variable {R : Type}

theorem tdiv_fits {a : Int} {n : Nat} (hn : 0 < n) (h₁ : -2147483648 ≤ a) (h₂ : a < 2147483648) :
    -2147483648 ≤ Int.tdiv a n ∧ Int.tdiv a n < 2147483648 := by
  have hn' : (0 : Int) ≤ (n : Int) := Int.ofNat_nonneg n
  by_cases ha : 0 ≤ a
  · rw [Int.tdiv_eq_ediv ha hn']
    have h3 := Int.ediv_le_self (n : Int) ha
    have h4 : 0 ≤ a / (n : Int) := Int.ediv_nonneg ha hn'
    omega
  · have hna : 0 ≤ -a := by omega
    have h5 : Int.tdiv a n = -(Int.tdiv (-a) n) := by
      rw [Int.neg_tdiv, neg_neg]
    rw [h5, Int.tdiv_eq_ediv hna hn']
    have h3 := Int.ediv_le_self (n : Int) hna
    have h4 : 0 ≤ (-a) / (n : Int) := Int.ediv_nonneg hna hn'
    omega

/-- The state and the stored entry after a call of `AddDocument` that returns normally. -/
theorem addDocument_stored (ar : DoubleOps R) (s : SearchServer R) (id : Int) (text : Str)
    (status : DocumentStatus) (ratings : List Int)
    (h : (AddDocument ar s id text status ratings).1 = .ok ()) :
    ∃ rating, ComputeAverageRating ratings = .ok rating ∧
      OrdMap.find? (AddDocument ar s id text status ratings).2.documents_ id =
        some { rating := rating, status := status } := by
  obtain ⟨_, hnone, words, rating, _, hr, hs'⟩ :=
    addDocument_ok (show AddDocument ar s id text status ratings =
      (.ok (), (AddDocument ar s id text status ratings).2) from Prod.ext h rfl)
  refine ⟨rating, hr, ?_⟩
  rw [hs']
  have hd := (indexWords_documents ar id (ar.div ar.one (ar.ofNat words.length)) words s).1
  show OrdMap.find? (OrdMap.emplace id _ (indexWords ar id _ words s).documents_) id = _
  rw [hd, OrdMap.find?_emplace _ hnone, if_pos rfl]

end Adding

/-- C9. For every non-empty ratings list whose sum fits a 32-bit `int` (and whose
length fits an `int`), the average computed by `ComputeAverageRating`, which is the
rating stored by `AddDocument`, is the sum divided by the count with the quotient
truncated toward zero: `[8, -3]` gives `2` and `[-3, -2]` gives `-2`. -/
theorem C9_average_rating_truncates (ratings : List Int) (hne : ratings ≠ [])
    (hlen : ratings.length < 2147483648)
    (hlo : -2147483648 ≤ ratings.sum) (hhi : ratings.sum < 2147483648) :
    ComputeAverageRating ratings = .ok (Int.tdiv ratings.sum (ratings.length : Int)) ∧
    ∀ {R : Type} (ar : DoubleOps R) (s : SearchServer R) (document_id : Int) (document : Str)
      (status : DocumentStatus),
      (AddDocument ar s document_id document status ratings).1 = .ok () →
      OrdMap.find? (AddDocument ar s document_id document status ratings).2.documents_
          document_id =
        some { rating := Int.tdiv ratings.sum (ratings.length : Int), status := status } := by
  have hpos : 0 < ratings.length := List.length_pos.mpr hne
  have hfits := tdiv_fits hpos hlo hhi
  have hval : ComputeAverageRating ratings =
      .ok (Int.tdiv ratings.sum (ratings.length : Int)) := by
    rw [computeAverageRating_ok ratings hne hlen, wrap32_of_fits hlo hhi,
      wrap32_of_fits hfits.1 hfits.2]
  refine ⟨hval, fun ar s document_id document status h => ?_⟩
  obtain ⟨rating, hr, hfind⟩ := addDocument_stored ar s document_id document status ratings h
  rw [hval] at hr
  rw [hfind, ← Except.ok.inj hr]

/-! ## The worked example -/

theorem reachable_addDocument {R : Type} {ar : DoubleOps R} {s : SearchServer R}
    (h : Reachable ar s) (id : Int) (text : Str) (status : DocumentStatus) (ratings : List Int)
    (hok : (AddDocument ar s id text status ratings).1 = .ok ()) :
    Reachable ar (AddDocument ar s id text status ratings).2 :=
  Reachable.add s _ id text status ratings h (Prod.ext hok rfl)

theorem exampleOne_reachable : Reachable exampleOps exampleOne :=
  reachable_addDocument (Reachable.create [] emptyServer rfl) 0 "white cat".toList .ACTUAL
    [8, -3] (by decide)

theorem exampleServer_reachable : Reachable exampleOps exampleServer :=
  reachable_addDocument exampleOne_reachable 1 "black cat".toList .ACTUAL [5, 5] (by decide)

theorem exampleOps_mul_one (x : ℚ) : exampleOps.mul x exampleOps.one = x :=
  mul_one x

theorem exampleOps_lt_asymm (a b : ℚ) (h : exampleOps.lt a b = true) :
    exampleOps.lt b a = false := by
  have hab : a < b := of_decide_eq_true h
  exact decide_eq_false (lt_asymm hab)

theorem exampleOps_apart_total (a b : ℚ)
    (h₁ : exampleOps.lt (exampleOps.abs (exampleOps.sub a b)) exampleOps.eps = false)
    (h₂ : exampleOps.lt a b = false) : exampleOps.lt b a = true := by
  have hne : a ≠ b := by
    rintro rfl
    have : exampleOps.lt (exampleOps.abs (exampleOps.sub a a)) exampleOps.eps = true := by
      show decide (|a - a| < (1 / 1000000 : ℚ)) = true
      rw [sub_self, abs_zero]
      exact decide_eq_true (by norm_num)
    rw [this] at h₁
    cases h₁
  have hnlt : ¬ a < b := of_decide_eq_false h₂
  exact decide_eq_true (lt_of_le_of_ne (not_lt.mp hnlt) (Ne.symm hne))

/-! ## `AddDocument` with an empty ratings list -/

theorem splitIntoWordsNoStop_cat {R : Type} :
    SplitIntoWordsNoStop (emptyServer : SearchServer R) "cat".toList = .ok ["cat".toList] := by
  rfl

theorem computeAverageRating_nil : ComputeAverageRating [] = .error .division_by_zero := by
  decide

theorem addDocument_cat_no_ratings {R : Type} (ar : DoubleOps R) :
    AddDocument ar emptyServer 0 "cat".toList .ACTUAL [] =
      (.error .division_by_zero,
        { all_words_ := ["cat".toList], stop_words_ := [],
          word_to_document_freqs_ :=
            [("cat".toList, [(0, ar.add ar.zero (ar.div ar.one (ar.ofNat 1)))])],
          documents_ := [], document_ids_ := [] }) := by
  have hid : ¬ ((0 : Int) < 0 ∨ OrdMap.count (emptyServer : SearchServer R).documents_ 0 > 0) := by
    rintro (h | h)
    · exact absurd h (by decide)
    · exact absurd h (Nat.lt_irrefl 0)
  rw [addDocument_of_bad_ratings ar emptyServer 0 "cat".toList .ACTUAL [] hid
    ["cat".toList] splitIntoWordsNoStop_cat .division_by_zero computeAverageRating_nil]
  rfl

/-- C8 (the code at the failing input).  `AddDocument(0, "cat", ACTUAL, {})` on a new
server does not return normally, and yet leaves the word of the rejected document in
the word pool and in the index, listing document `0`, which is not stored. -/
theorem C8_failed_add_leaves_words_indexed {R : Type} (ar : DoubleOps R) :
    (AddDocument ar emptyServer 0 "cat".toList .ACTUAL []).1 = .error .division_by_zero ∧
    (AddDocument ar emptyServer 0 "cat".toList .ACTUAL []).2.word_to_document_freqs_ =
      [("cat".toList, [(0, ar.add ar.zero (ar.div ar.one (ar.ofNat 1)))])] ∧
    (AddDocument ar emptyServer 0 "cat".toList .ACTUAL []).2.all_words_ = ["cat".toList] ∧
    (AddDocument ar emptyServer 0 "cat".toList .ACTUAL []).2.documents_ = [] ∧
    (emptyServer : SearchServer R).word_to_document_freqs_ = [] ∧
    (emptyServer : SearchServer R).all_words_ = [] := by
  rw [addDocument_cat_no_ratings ar]
  exact ⟨rfl, rfl, rfl, rfl, rfl, rfl⟩

/-- C10 (the code at the failing input).  With an empty ratings list
`ComputeAverageRating` divides by zero, and `AddDocument(0, "cat", ACTUAL, {})` ends
in that division instead of throwing `invalid_argument`. -/
theorem C10_empty_ratings_divide_by_zero {R : Type} (ar : DoubleOps R) :
    ComputeAverageRating [] = .error .division_by_zero ∧
    (AddDocument ar emptyServer 0 "cat".toList .ACTUAL []).1 = .error .division_by_zero ∧
    (AddDocument ar emptyServer 0 "cat".toList .ACTUAL []).1 ≠ .error .invalid_argument := by
  rw [addDocument_cat_no_ratings ar]
  refine ⟨computeAverageRating_nil, rfl, ?_⟩
  intro h
  cases h

/-- With an empty ratings list, every call of `AddDocument` that passes the checks
of the id and of the words ends in the division by zero. -/
theorem addDocument_no_ratings {R : Type} (ar : DoubleOps R) (s : SearchServer R) (id : Int)
    (text : Str) (status : DocumentStatus)
    (hid : ¬ (id < 0 ∨ OrdMap.count s.documents_ id > 0))
    (hwords : ¬ ∃ w ∈ SplitIntoWords text, HasControlByte w) :
    (AddDocument ar s id text status []).1 = .error .division_by_zero := by
  rcases splitIntoWordsNoStopLoop_cases s (SplitIntoWords text) with
    ⟨hbad, _⟩ | ⟨_, words, hok⟩
  · exact absurd hbad hwords
  · rw [addDocument_of_bad_ratings ar s id text status [] hid words hok .division_by_zero
      computeAverageRating_nil]

/-! ## Witnesses -/

theorem C1_witness :
    Reachable exampleOps exampleServer ∧
    ∃ cands, FindAllDocuments exampleOps exampleServer
        { plus_words := ["cat".toList], minus_words := ["white".toList] } acceptAll = .ok cands ∧
      (cands.map (fun doc => doc.id)).Nodup :=
  ⟨exampleServer_reachable,
    (C1_findAllDocuments_candidates exampleOps exampleServer exampleServer_reachable
      { plus_words := ["cat".toList], minus_words := ["white".toList] } acceptAll).imp
      fun _ h => ⟨h.1, h.2.1⟩⟩

theorem C2_witness :
    (∀ x, exampleOps.mul x exampleOps.one = x) ∧ Reachable exampleOps exampleServer ∧
    ∃ cands, FindAllDocuments exampleOps exampleServer
        { plus_words := ["black".toList, "cat".toList], minus_words := [] } acceptAll =
          .ok cands ∧
      ∀ d ∈ cands, ∃ data, OrdMap.find? exampleServer.documents_ d.id = some data ∧
        d.rating = data.rating :=
  ⟨exampleOps_mul_one, exampleServer_reachable,
    (C2_findAllDocuments_relevance exampleOps exampleOps_mul_one exampleServer
      exampleServer_reachable { plus_words := ["black".toList, "cat".toList], minus_words := [] }
      acceptAll).imp fun _ h => ⟨h.1, fun d hd => (h.2 d hd).2⟩⟩

theorem C3_witness :
    Reachable exampleOps exampleServer ∧
    ParseQuery exampleServer "cat -white".toList =
      .ok { plus_words := ["cat".toList], minus_words := ["white".toList] } ∧
    ∃ result, FindTopDocuments exampleOps exampleServer "cat -white".toList acceptAll =
        .ok result ∧
      ∀ d ∈ result,
        ¬ ∃ freqs, OrdMap.find? exampleServer.word_to_document_freqs_ "white".toList =
            some freqs ∧ d.id ∈ OrdMap.keys freqs :=
  ⟨exampleServer_reachable, by decide,
    C3_findTopDocuments_excludes_minus exampleOps exampleServer exampleServer_reachable
      "cat -white".toList { plus_words := ["cat".toList], minus_words := ["white".toList] }
      (by decide) "white".toList (List.mem_singleton.mpr rfl) acceptAll⟩

theorem C4_witness :
    Reachable exampleOps exampleServer ∧
    ParseQuery exampleServer "black cat".toList =
      .ok { plus_words := ["black".toList, "cat".toList], minus_words := [] } ∧
    ∃ result, FindTopDocuments exampleOps exampleServer "black cat".toList acceptAll =
        .ok result ∧ result.length ≤ MAX_RESULT_DOCUMENT_COUNT :=
  ⟨exampleServer_reachable, by decide,
    by
      obtain ⟨cands, result, _, htop, _, _, hle, _⟩ :=
        C4_findTopDocuments_cut exampleOps exampleServer exampleServer_reachable
          "black cat".toList { plus_words := ["black".toList, "cat".toList], minus_words := [] }
          (by decide) acceptAll
      exact ⟨result, htop, hle⟩⟩

theorem C7_witness :
    ([8, -3] : List Int) ≠ [] ∧ ([8, -3] : List Int).length < 2147483648 ∧
    ((AddDocument exampleOps exampleOne 0 "grey cat".toList .ACTUAL [8, -3]).1 =
        .error .invalid_argument ↔
      ((0 : Int) < 0 ∨ (OrdMap.find? exampleOne.documents_ 0).isSome = true ∨
        ∃ w ∈ SplitIntoWords "grey cat".toList, ∃ c ∈ w, c.toNat < 32)) :=
  ⟨by decide, by decide,
    (C7_addDocument_outcome exampleOps exampleOne 0 "grey cat".toList .ACTUAL [8, -3]
      (by decide) (by decide)).1⟩

theorem C9_witness :
    ([-3, -2] : List Int) ≠ [] ∧ ([-3, -2] : List Int).length < 2147483648 ∧
    -2147483648 ≤ ([-3, -2] : List Int).sum ∧ ([-3, -2] : List Int).sum < 2147483648 ∧
    ComputeAverageRating [-3, -2] = .ok (-2) ∧ ComputeAverageRating [8, -3] = .ok 2 :=
  ⟨by decide, by decide, by decide, by decide,
    (C9_average_rating_truncates [-3, -2] (by decide) (by decide) (by decide) (by decide)).1,
    (C9_average_rating_truncates [8, -3] (by decide) (by decide) (by decide) (by decide)).1⟩

/-! ## `RemoveDocument` -/

section Removing

variable {R : Type}

theorem erase_of_not_mem {K V : Type} [LinearOrder K] {k : K} {m : OrdMap K V}
    (h : k ∉ OrdMap.keys m) : OrdMap.erase k m = m := by
  unfold OrdMap.erase
  apply List.filter_eq_self.mpr
  intro p hp
  have : p.1 ≠ k := fun e => h (e ▸ OrdMap.mem_keys_of_mem hp)
  simpa using this

theorem erase_of_find?_none {K V : Type} [LinearOrder K] {k : K} {m : OrdMap K V}
    (h : OrdMap.find? m k = none) : OrdMap.erase k m = m :=
  erase_of_not_mem ((OrdMap.find?_eq_none_iff m k).mp h)

/-- The conditional erasure in the loop of `RemoveDocument` is the erasure. -/
theorem eraseIfCounted (id : Int) (freqs : OrdMap Int R) :
    (if OrdMap.count freqs id ≠ 0 then OrdMap.erase id freqs else freqs) =
      OrdMap.erase id freqs := by
  by_cases hc : OrdMap.count freqs id ≠ 0
  · rw [if_pos hc]
  · rw [if_neg hc]
    have hnone : OrdMap.find? freqs id = none := by
      cases hf : OrdMap.find? freqs id with
      | none => rfl
      | some v => exact absurd (by simp [OrdMap.count, hf]) hc
    exact (erase_of_find?_none hnone).symm

/-- The index after a call of `RemoveDocument` that returns normally. -/
theorem removeDocument_index {s s' : SearchServer R} {id : Int}
    (h : RemoveDocument s id = (.ok (), s')) :
    s'.word_to_document_freqs_ =
      s.word_to_document_freqs_.map (fun p => (p.1, OrdMap.erase id p.2)) := by
  rw [(removeDocument_ok h).2]
  apply List.map_congr_left
  intro p _
  rw [eraseIfCounted]

theorem find?_map_values {K V W : Type} [LinearOrder K] (f : V → W) (m : OrdMap K V) (k : K) :
    OrdMap.find? (m.map (fun p => (p.1, f p.2))) k = (OrdMap.find? m k).map f := by
  induction m with
  | nil => rfl
  | cons p rest ih =>
    obtain ⟨x, v⟩ := p
    by_cases hk : k = x
    · simp [OrdMap.find?, hk]
    · simp only [List.map_cons, OrdMap.find?, if_neg hk]
      exact ih

/-- When `RemoveDocument` returns normally: whether it does, and what it does to the
list of document ids. -/
theorem removeDocument_returns_iff (s : SearchServer R) (id : Int) :
    (RemoveDocument s id).1 = .ok () ↔ lower_bound s.document_ids_ id < s.document_ids_.length := by
  rw [RemoveDocument]
  cases hx : s.document_ids_[lower_bound s.document_ids_ id]? with
  | none =>
    have := List.getElem?_eq_none_iff.mp hx
    constructor
    · intro h; cases h
    · intro h; omega
  | some x =>
    have := (List.getElem?_eq_some_iff.mp hx).1
    exact ⟨fun _ => this, fun _ => rfl⟩

end Removing

/-- C11 (the code at the failing input).  `RemoveDocument(5)` on a newly constructed
server, and `RemoveDocument(7)` on the server holding documents `0` and `1`, read
`*id_to_delete` where `lower_bound` has returned `end()`: the call does not return
normally. -/
theorem C11_remove_absent_reads_end :
    (RemoveDocument (emptyServer : SearchServer ℚ) 5).1 = .error .end_dereference ∧
    OrdMap.find? exampleServer.documents_ 7 = none ∧
    exampleServer.document_ids_ = [0, 1] ∧
    lower_bound exampleServer.document_ids_ 7 = 2 ∧
    (RemoveDocument exampleServer 7).1 = .error .end_dereference := by
  refine ⟨by decide, by decide, by decide, by decide, by decide⟩

section Removing

variable {R : Type}

theorem getWordFrequenciesLoop_of_unlisted (id : Int) (index : List (Str × OrdMap Int R))
    (result : OrdMap Str R) (h : ∀ p ∈ index, OrdMap.find? p.2 id = none) :
    getWordFrequenciesLoop id index result = result := by
  induction index generalizing result with
  | nil => rfl
  | cons p rest ih =>
    obtain ⟨w, freqs⟩ := p
    have hnone : OrdMap.find? freqs id = none := h (w, freqs) (List.mem_cons_self _ _)
    have hc : ¬ OrdMap.count freqs id ≠ 0 := by simp [OrdMap.count, hnone]
    rw [getWordFrequenciesLoop, if_neg hc]
    exact ih result (fun p hp => h p (List.mem_cons_of_mem _ hp))

/-- What a call of `RemoveDocument(D)` that returns normally has done to the document
table and to the index. -/
theorem removeDocument_effect {s s' : SearchServer R} {D : Int}
    (h : RemoveDocument s D = (.ok (), s')) :
    GetWordFrequencies s' D = [] ∧
    (∀ w, ¬ Listed s' w D) ∧
    OrdMap.find? s'.documents_ D = none ∧
    ∀ w x, x ≠ D →
      (OrdMap.find? s'.word_to_document_freqs_ w).bind (fun freqs => OrdMap.find? freqs x) =
        (OrdMap.find? s.word_to_document_freqs_ w).bind (fun freqs => OrdMap.find? freqs x) := by
  have hi := removeDocument_index h
  have hd := (removeDocument_ok h).1
  have hunlisted : ∀ p ∈ s'.word_to_document_freqs_, OrdMap.find? p.2 D = none := by
    intro p hp
    rw [hi] at hp
    obtain ⟨q, _, rfl⟩ := List.mem_map.mp hp
    show OrdMap.find? (OrdMap.erase D q.2) D = none
    rw [OrdMap.find?_erase, if_pos rfl]
  refine ⟨getWordFrequenciesLoop_of_unlisted D _ [] hunlisted, ?_, ?_, ?_⟩
  · rintro w ⟨freqs, hf, hk⟩
    have := hunlisted (w, freqs) (OrdMap.mem_of_find? hf)
    exact (OrdMap.find?_eq_none_iff freqs D).mp this hk
  · rw [hd, OrdMap.find?_erase, if_pos rfl]
  · intro w x hx
    rw [hi, find?_map_values]
    cases hw : OrdMap.find? s.word_to_document_freqs_ w with
    | none => rfl
    | some freqs =>
      show OrdMap.find? (OrdMap.erase D freqs) x = OrdMap.find? freqs x
      rw [OrdMap.find?_erase, if_neg hx]

end Removing

/-- C12 (the code at the failing input).  After `AddDocument(2, "dog", ...)` and
`AddDocument(1, "cat", ...)` the id list is `[2, 1]`; on `RemoveDocument(2)` the binary
search of `lower_bound` ends at `end()`, `*id_to_delete` is read there, and the loop
over the index is not reached: "dog" still lists document `2`. -/
theorem C12_remove_stops_before_index :
    (AddDocument exampleOps emptyServer 2 "dog".toList .ACTUAL [1]).1 = .ok () ∧
    (AddDocument exampleOps (AddDocument exampleOps emptyServer 2 "dog".toList .ACTUAL [1]).2
      1 "cat".toList .ACTUAL [1]).1 = .ok () ∧
    exampleTwoOne.document_ids_ = [2, 1] ∧
    lower_bound exampleTwoOne.document_ids_ 2 = 2 ∧
    (RemoveDocument exampleTwoOne 2).1 = .error .end_dereference ∧
    isListed (RemoveDocument exampleTwoOne 2).2 "dog".toList 2 = true := by
  refine ⟨by decide, by decide, by decide, by decide, by decide, by decide⟩

/-! ## `lower_bound` -/

/-- The binary search stays within its range, and does not run to the end of a range
whose last element is not below the value. -/
theorem lowerBoundLoop_bound (v : List Int) (val : Int) (fuel first len : Nat)
    (hfuel : len ≤ fuel) (hlen : first + len ≤ v.length) :
    first ≤ lowerBoundLoop v val fuel first len ∧
    lowerBoundLoop v val fuel first len ≤ first + len ∧
    (0 < len → (∃ x, v[first + len - 1]? = some x ∧ ¬ x < val) →
      lowerBoundLoop v val fuel first len < first + len) := by
  induction fuel generalizing first len with
  | zero =>
    have : len = 0 := by omega
    subst this
    exact ⟨Nat.le_refl _, Nat.le_refl _, fun h => absurd h (Nat.lt_irrefl 0)⟩
  | succ fuel ih =>
    rw [lowerBoundLoop]
    by_cases hz : len = 0
    · rw [if_pos hz]
      subst hz
      exact ⟨Nat.le_refl _, Nat.le_refl _, fun h => absurd h (Nat.lt_irrefl 0)⟩
    · rw [if_neg hz]
      have hpos : 0 < len := Nat.pos_of_ne_zero hz
      have hhalf : len / 2 < len := Nat.div_lt_self hpos (by decide)
      have hmid : first + len / 2 < v.length := by omega
      simp only [List.getElem?_eq_getElem hmid]
      by_cases hlt : v[first + len / 2] < val
      · rw [if_pos hlt]
        obtain ⟨h1, h2, h3⟩ := ih (first + len / 2 + 1) (len - len / 2 - 1) (by omega) (by omega)
        have hsum : first + len / 2 + 1 + (len - len / 2 - 1) = first + len := by omega
        rw [hsum] at h2 h3
        refine ⟨by omega, h2, fun _ hlast => ?_⟩
        by_cases hrem : len - len / 2 - 1 = 0
        · exfalso
          obtain ⟨x, hx, hnx⟩ := hlast
          have hidx : first + len - 1 = first + len / 2 := by omega
          rw [hidx, List.getElem?_eq_getElem hmid] at hx
          exact hnx (by rw [← Option.some.inj hx]; exact hlt)
        · exact h3 (Nat.pos_of_ne_zero hrem) hlast
      · rw [if_neg hlt]
        obtain ⟨h1, h2, _⟩ := ih first (len / 2) (by omega) (by omega)
        exact ⟨h1, by omega, fun _ _ => by omega⟩

/-- The search for the last element of a list does not return `end()`. -/
theorem lower_bound_append_lt (ids : List Int) (id : Int) :
    lower_bound (ids ++ [id]) id < (ids ++ [id]).length := by
  have h := (lowerBoundLoop_bound (ids ++ [id]) id ((ids ++ [id]).length + 1) 0
    (ids ++ [id]).length (by omega) (by omega)).2.2
  have hlen : (ids ++ [id]).length = ids.length + 1 := by simp
  have := h (by omega) ⟨id, by simp [hlen], lt_irrefl id⟩
  unfold lower_bound
  omega

/-! ## Adding, then removing -/

section RoundTrip

variable {R : Type}

theorem erase_insertSorted {K V : Type} [LinearOrder K] (k : K) (v : V) (m : OrdMap K V) :
    OrdMap.erase k (OrdMap.insertSorted k v m) = OrdMap.erase k m := by
  induction m with
  | nil => simp [OrdMap.insertSorted, OrdMap.erase]
  | cons p rest ih =>
    by_cases h : k < p.1
    · simp [OrdMap.insertSorted, h, OrdMap.erase]
    · simp only [OrdMap.insertSorted, if_neg h]
      unfold OrdMap.erase at ih ⊢
      rw [List.filter_cons, List.filter_cons, ih]

theorem erase_map_update {K V : Type} [LinearOrder K] (k : K) (f : V → V) (m : OrdMap K V) :
    OrdMap.erase k (m.map (fun p => if p.1 = k then (p.1, f p.2) else p)) = OrdMap.erase k m := by
  induction m with
  | nil => rfl
  | cons p rest ih =>
    unfold OrdMap.erase at ih ⊢
    rw [List.map_cons, List.filter_cons, List.filter_cons, ih]
    by_cases hp : p.1 = k
    · simp [hp]
    · simp [hp]

theorem erase_alter {K V : Type} [LinearOrder K] (k : K) (d : V) (f : V → V) (m : OrdMap K V) :
    OrdMap.erase k (OrdMap.alter k d f m) = OrdMap.erase k m := by
  unfold OrdMap.alter
  by_cases hs : (OrdMap.find? m k).isSome = true
  · rw [if_pos hs, erase_map_update]
  · rw [if_neg hs, erase_insertSorted]

theorem erase_emplace {K V : Type} [LinearOrder K] (k : K) (v : V) (m : OrdMap K V)
    (h : OrdMap.find? m k = none) : OrdMap.erase k (OrdMap.emplace k v m) = m := by
  unfold OrdMap.emplace
  rw [h]
  simp only [Option.isSome_none, Bool.false_eq_true, if_false]
  rw [erase_insertSorted, erase_of_find?_none h]

/-- The maps of the index with document `id` erased, word by word, while the loop of
`AddDocument` runs: a word of the index keeps its map, a new word gets the empty map. -/
theorem find?_indexWords_erased (ar : DoubleOps R) (id : Int) (inv : R) (ws : List Str)
    (s : SearchServer R) (w : Str) :
    (OrdMap.find? (indexWords ar id inv ws s).word_to_document_freqs_ w).map (OrdMap.erase id) =
      match (OrdMap.find? s.word_to_document_freqs_ w).map (OrdMap.erase id) with
      | some freqs => some freqs
      | none => if w ∈ ws then some [] else none := by
  induction ws generalizing s with
  | nil =>
    simp only [indexWords, List.not_mem_nil, if_false]
    cases OrdMap.find? s.word_to_document_freqs_ w <;> rfl
  | cons w₀ rest ih =>
    rw [indexWords, ih]
    simp only [OrdMap.find?_alter]
    by_cases hw : w = w₀
    · subst hw
      simp only [if_true, Option.map_some', erase_alter, List.mem_cons, true_or]
      cases hf : OrdMap.find? s.word_to_document_freqs_ w with
      | none => simp [OrdMap.erase]
      | some freqs => simp
    · simp only [if_neg hw, List.mem_cons, hw, false_or, if_false]

end RoundTrip

/-- On a new server, `AddDocument(0, "cat", ACTUAL, {1})` followed by
`RemoveDocument(0)` leaves "cat" in the index as a key with an empty map, which lists
no document: `RemoveDocument` erases entries of the per-word maps, never a word. -/
theorem emptied_word_stays_key :
    (AddDocument exampleOps emptyServer 0 "cat".toList .ACTUAL [1]).1 = .ok () ∧
    (RemoveDocument (AddDocument exampleOps emptyServer 0 "cat".toList .ACTUAL [1]).2 0).1 =
      .ok () ∧
    (RemoveDocument (AddDocument exampleOps emptyServer 0 "cat".toList .ACTUAL [1]).2
      0).2.word_to_document_freqs_ = [("cat".toList, [])] ∧
    (RemoveDocument (AddDocument exampleOps emptyServer 0 "cat".toList .ACTUAL [1]).2
      0).2.word_to_document_freqs_ ≠ (emptyServer : SearchServer ℚ).word_to_document_freqs_ := by
  refine ⟨by decide, by decide, by decide, by decide⟩

/-- The index after `AddDocument(id, ...)` and `RemoveDocument(id)`, both returning
normally, in a reachable state: a word that was a key has the map it had; a word of
the document that was not a key is a key with the empty map; no other word is a key. -/
theorem add_then_remove_index {R : Type} (ar : DoubleOps R) (s : SearchServer R)
    (hs : Reachable ar s) (document_id : Int) (document : Str) (status : DocumentStatus)
    (ratings : List Int) (s₁ : SearchServer R)
    (hadd : AddDocument ar s document_id document status ratings = (.ok (), s₁)) :
    ∃ s₂ words, RemoveDocument s₁ document_id = (.ok (), s₂) ∧
      SplitIntoWordsNoStop s document = .ok words ∧
      s₂.documents_ = s.documents_ ∧
      ∀ w, OrdMap.find? s₂.word_to_document_freqs_ w =
        match OrdMap.find? s.word_to_document_freqs_ w with
        | some freqs => some freqs
        | none => if w ∈ words then some [] else none := by
  have hinv := inv_of_reachable hs
  obtain ⟨_, hnone, words, rating, hsplit, _, hs₁⟩ := addDocument_ok hadd
  have hiw := indexWords_documents ar document_id (ar.div ar.one (ar.ofNat words.length)) words s
  have hids : s₁.document_ids_ = s.document_ids_ ++ [document_id] := by
    rw [hs₁]
    show (indexWords ar document_id _ words s).document_ids_ ++ [document_id] = _
    rw [hiw.2.1]
  have hdocs : s₁.documents_ =
      OrdMap.emplace document_id { rating := rating, status := status } s.documents_ := by
    rw [hs₁]
    show OrdMap.emplace document_id _ (indexWords ar document_id _ words s).documents_ = _
    rw [hiw.1]
  have hindex : s₁.word_to_document_freqs_ =
      (indexWords ar document_id (ar.div ar.one (ar.ofNat words.length)) words
        s).word_to_document_freqs_ := by
    rw [hs₁]; rfl
  have hret : (RemoveDocument s₁ document_id).1 = .ok () := by
    rw [removeDocument_returns_iff, hids]
    exact lower_bound_append_lt _ _
  have hrem : RemoveDocument s₁ document_id = (.ok (), (RemoveDocument s₁ document_id).2) :=
    Prod.ext hret rfl
  have hd₂ := (removeDocument_ok hrem).1
  have hi₂ := removeDocument_index hrem
  have hfind : ∀ w, OrdMap.find? (RemoveDocument s₁ document_id).2.word_to_document_freqs_ w =
      match OrdMap.find? s.word_to_document_freqs_ w with
      | some freqs => some freqs
      | none => if w ∈ words then some [] else none := by
    intro w
    rw [hi₂, find?_map_values, hindex, find?_indexWords_erased]
    cases hw : OrdMap.find? s.word_to_document_freqs_ w with
    | none => rfl
    | some freqs =>
      have hnot : document_id ∉ OrdMap.keys freqs := by
        intro hk
        obtain ⟨tf, htf⟩ := Option.isSome_iff_exists.mp
          ((OrdMap.find?_isSome_iff freqs document_id).mpr hk)
        have := hinv.listed _ (OrdMap.mem_of_find? hw) _ (OrdMap.mem_of_find? htf)
        rw [hnone] at this
        cases this
      show some (OrdMap.erase document_id freqs) = some freqs
      rw [erase_of_not_mem hnot]
  have hdoc₂ : (RemoveDocument s₁ document_id).2.documents_ = s.documents_ := by
    rw [hd₂, hdocs, erase_emplace _ _ _ hnone]
  exact ⟨_, words, hrem, hsplit, hdoc₂, hfind⟩

/-! ## Ordered sets and the parsed query -/

namespace OrdSet

variable {K : Type} [LinearOrder K]

theorem set_insertSorted_perm (k : K) (s : List K) : (insertSorted k s).Perm (k :: s) := by
  induction s with
  | nil => exact List.Perm.refl _
  | cons x rest ih =>
    by_cases h : k < x
    · simp only [insertSorted, if_pos h]
      exact List.Perm.refl _
    · simp only [insertSorted, if_neg h]
      exact (List.Perm.cons x ih).trans (List.Perm.swap _ _ _)

theorem mem_insert {k x : K} {s : List K} : x ∈ insert k s ↔ x = k ∨ x ∈ s := by
  unfold insert
  by_cases h : k ∈ s
  · rw [if_pos h]
    constructor
    · exact Or.inr
    · rintro (rfl | h')
      · exact h
      · exact h'
  · rw [if_neg h, (set_insertSorted_perm k s).mem_iff, List.mem_cons]

theorem nodup_insert {k : K} {s : List K} (hs : s.Nodup) : (insert k s).Nodup := by
  unfold insert
  by_cases h : k ∈ s
  · rw [if_pos h]; exact hs
  · rw [if_neg h]
    exact (set_insertSorted_perm k s).nodup_iff.mpr (List.nodup_cons.mpr ⟨h, hs⟩)

end OrdSet

section Matching

variable {R : Type}

theorem count_ne_zero_iff (freqs : OrdMap Int R) (id : Int) :
    OrdMap.count freqs id ≠ 0 ↔ (OrdMap.find? freqs id).isSome = true := by
  unfold OrdMap.count
  by_cases h : (OrdMap.find? freqs id).isSome = true <;> simp [h]

theorem parseQueryLoop_nodup (s : SearchServer R) (tokens : List Str) (q q' : Query)
    (h : ParseQueryLoop s tokens q = .ok q') (hp : q.plus_words.Nodup)
    (hm : q.minus_words.Nodup) : q'.plus_words.Nodup ∧ q'.minus_words.Nodup := by
  induction tokens generalizing q with
  | nil =>
    rw [ParseQueryLoop] at h
    cases h
    exact ⟨hp, hm⟩
  | cons t rest ih =>
    rw [ParseQueryLoop] at h
    cases hw : ParseQueryWord s t with
    | error e => rw [hw] at h; cases h
    | ok qw =>
      rw [hw] at h
      by_cases hstop : qw.is_stop = true
      · simp only [hstop, Bool.not_true, Bool.false_eq_true, if_false] at h
        exact ih q h hp hm
      · have hs : qw.is_stop = false := by simpa using hstop
        simp only [hs, Bool.not_false, if_true] at h
        by_cases hminus : qw.is_minus = true
        · simp only [hminus, if_true] at h
          exact ih _ h hp (OrdSet.nodup_insert hm)
        · have hmi : qw.is_minus = false := by simpa using hminus
          simp only [hmi, Bool.false_eq_true, if_false] at h
          exact ih _ h (OrdSet.nodup_insert hp) hm

theorem parseQuery_nodup (s : SearchServer R) (raw : Str) (q : Query)
    (h : ParseQuery s raw = .ok q) : q.plus_words.Nodup ∧ q.minus_words.Nodup :=
  parseQueryLoop_nodup s _ _ q h List.nodup_nil List.nodup_nil

theorem matchPlusWords_eq (s : SearchServer R) (id : Int) (ws : List Str) :
    matchPlusWords s id ws = ws.filter (fun w => isListed s w id) := by
  induction ws with
  | nil => rfl
  | cons w rest ih =>
    rw [matchPlusWords, List.filter_cons]
    cases hw : OrdMap.find? s.word_to_document_freqs_ w with
    | none =>
      have hl : isListed s w id = false := by simp only [isListed, hw]
      rw [hl, ih]
      rfl
    | some freqs =>
      have hl : isListed s w id = (OrdMap.find? freqs id).isSome := by simp only [isListed, hw]
      rw [hl]
      dsimp only
      by_cases hc : OrdMap.count freqs id ≠ 0
      · rw [if_pos hc, (count_ne_zero_iff freqs id).mp hc, ih]
        rfl
      · have hf : (OrdMap.find? freqs id).isSome = false := by
          simpa using fun h => hc ((count_ne_zero_iff freqs id).mpr h)
        rw [if_neg hc, hf, ih]
        rfl

theorem matchMinusWords_spec (s : SearchServer R) (id : Int) (ws : List Str)
    (matched : List Str) :
    ((∃ w ∈ ws, Listed s w id) → matchMinusWords s id ws matched = []) ∧
    ((¬ ∃ w ∈ ws, Listed s w id) → matchMinusWords s id ws matched = matched) := by
  induction ws with
  | nil =>
    refine ⟨fun h => ?_, fun _ => rfl⟩
    obtain ⟨w, hw, _⟩ := h
    cases hw
  | cons w rest ih =>
    rw [matchMinusWords]
    cases hw : OrdMap.find? s.word_to_document_freqs_ w with
    | none =>
      have hnl : ¬ Listed s w id := by
        rintro ⟨freqs, h1, _⟩
        rw [hw] at h1
        cases h1
      refine ⟨fun h => ih.1 ?_, fun h => ih.2 ?_⟩
      · obtain ⟨w', hw', hl⟩ := h
        rcases List.mem_cons.mp hw' with rfl | hmem
        · exact absurd hl hnl
        · exact ⟨w', hmem, hl⟩
      · rintro ⟨w', hw', hl⟩
        exact h ⟨w', List.mem_cons_of_mem _ hw', hl⟩
    | some freqs =>
      have hl : Listed s w id ↔ OrdMap.count freqs id ≠ 0 := by
        rw [count_ne_zero_iff, OrdMap.find?_isSome_iff]
        constructor
        · rintro ⟨freqs', h1, h2⟩
          rw [hw] at h1
          cases h1
          exact h2
        · intro h
          exact ⟨freqs, hw, h⟩
      dsimp only
      by_cases hc : OrdMap.count freqs id ≠ 0
      · rw [if_pos hc]
        exact ⟨fun _ => rfl, fun h => absurd ⟨w, List.mem_cons_self _ _, hl.mpr hc⟩ h⟩
      · rw [if_neg hc]
        refine ⟨fun h => ih.1 ?_, fun h => ih.2 ?_⟩
        · obtain ⟨w', hw', hlw⟩ := h
          rcases List.mem_cons.mp hw' with rfl | hmem
          · exact absurd (hl.mp hlw) hc
          · exact ⟨w', hmem, hlw⟩
        · rintro ⟨w', hw', hlw⟩
          exact h ⟨w', List.mem_cons_of_mem _ hw', hlw⟩

end Matching

/-- C14. For a query that parses and a stored document id, `MatchDocument` returns the
stored status together with: the empty word list if some minus-word of the query is
an index key listing the document, and otherwise exactly the plus-words of the query
that are index keys listing the document, each once.  The status is returned in both
cases. -/
theorem C14_matchDocument {R : Type} (s : SearchServer R) (raw_query : Str) (query : Query)
    (hq : ParseQuery s raw_query = .ok query) (document_id : Int) (data : DocumentData)
    (hd : OrdMap.find? s.documents_ document_id = some data) :
    ∃ matched_words, MatchDocument s raw_query document_id = .ok (matched_words, data.status) ∧
      ((∃ w ∈ query.minus_words, ∃ freqs,
          OrdMap.find? s.word_to_document_freqs_ w = some freqs ∧
            document_id ∈ OrdMap.keys freqs) → matched_words = []) ∧
      ((¬ ∃ w ∈ query.minus_words, ∃ freqs,
          OrdMap.find? s.word_to_document_freqs_ w = some freqs ∧
            document_id ∈ OrdMap.keys freqs) →
        matched_words.Nodup ∧
        ∀ w, w ∈ matched_words ↔
          (w ∈ query.plus_words ∧ ∃ freqs,
            OrdMap.find? s.word_to_document_freqs_ w = some freqs ∧
              document_id ∈ OrdMap.keys freqs)) := by
  obtain ⟨hminus₁, hminus₂⟩ := matchMinusWords_spec s document_id query.minus_words
    (matchPlusWords s document_id query.plus_words)
  refine ⟨_, by rw [MatchDocument, hq, hd], hminus₁, fun h => ?_⟩
  rw [hminus₂ h, matchPlusWords_eq]
  refine ⟨(parseQuery_nodup s raw_query query hq).1.filter _, fun w => ?_⟩
  rw [List.mem_filter, isListed_iff]
  rfl

theorem C14_witness :
    ParseQuery exampleServer "cat -white".toList =
      .ok { plus_words := ["cat".toList], minus_words := ["white".toList] } ∧
    OrdMap.find? exampleServer.documents_ 1 = some { rating := 5, status := .ACTUAL } ∧
    ∃ matched_words,
      MatchDocument exampleServer "cat -white".toList 1 = .ok (matched_words, .ACTUAL) :=
  ⟨by decide, by decide,
    (C14_matchDocument exampleServer "cat -white".toList
      { plus_words := ["cat".toList], minus_words := ["white".toList] } (by decide) 1
      { rating := 5, status := .ACTUAL } (by decide)).imp fun _ h => h.1⟩

/-- C15 (counterexample).  Document `7` is not stored in the example server, the query
"cat" parses, and `MatchDocument("cat", 7)` throws `out_of_range` instead of
returning an empty result. -/
theorem C15_counterexample :
    OrdMap.find? exampleServer.documents_ 7 = none ∧
    ParseQuery exampleServer "cat".toList =
      .ok { plus_words := ["cat".toList], minus_words := [] } ∧
    MatchDocument exampleServer "cat".toList 7 = .error .out_of_range := by
  refine ⟨by decide, by decide, by decide⟩

/-- C15 (amended).  In a reachable state, for an id that is not a stored document,
`GetWordFrequencies(id)` returns the empty map, and `MatchDocument(query, id)` with a
query that parses throws `out_of_range`, from `documents_.at(id)`. -/
theorem C15_unknown_id_lookups {R : Type} (ar : DoubleOps R) (s : SearchServer R)
    (hs : Reachable ar s) (document_id : Int)
    (hid : OrdMap.find? s.documents_ document_id = none) (raw_query : Str) (query : Query)
    (hq : ParseQuery s raw_query = .ok query) :
    GetWordFrequencies s document_id = [] ∧
    MatchDocument s raw_query document_id = .error .out_of_range := by
  have hinv := inv_of_reachable hs
  refine ⟨getWordFrequenciesLoop_of_unlisted document_id _ [] fun p hp => ?_,
    by rw [MatchDocument, hq, hid]⟩
  cases hf : OrdMap.find? p.2 document_id with
  | none => rfl
  | some tf =>
    have := hinv.listed p hp _ (OrdMap.mem_of_find? hf)
    rw [hid] at this
    cases this

theorem C15_witness :
    Reachable exampleOps exampleServer ∧
    OrdMap.find? exampleServer.documents_ 7 = none ∧
    ParseQuery exampleServer "cat".toList =
      .ok { plus_words := ["cat".toList], minus_words := [] } ∧
    GetWordFrequencies exampleServer 7 = [] ∧
    MatchDocument exampleServer "cat".toList 7 = .error .out_of_range :=
  ⟨exampleServer_reachable, by decide, by decide,
    C15_unknown_id_lookups exampleOps exampleServer exampleServer_reachable 7 (by decide)
      "cat".toList { plus_words := ["cat".toList], minus_words := [] } (by decide)⟩

/-! ## `ParseQuery` -/

section Parsing

variable {R : Type}

theorem parseQueryWord_eq (s : SearchServer R) (text : Str) :
    ParseQueryWord s text =
      if (stripMinus text).isEmpty || decide ((stripMinus text).head? = some '-')
          || decide ((stripMinus text).getLast? = some '-') || !IsValidWord (stripMinus text) then
        .error .invalid_argument
      else .ok { data := stripMinus text, is_minus := decide (text.head? = some '-'),
                 is_stop := IsStopWord s (stripMinus text) } := rfl

theorem badToken_iff (text : Str) :
    BadToken text ↔
      ((stripMinus text).isEmpty || decide ((stripMinus text).head? = some '-')
          || decide ((stripMinus text).getLast? = some '-') || !IsValidWord (stripMinus text))
        = true := by
  unfold BadToken
  rw [← isValidWord_eq_false_iff]
  simp only [Bool.or_eq_true, decide_eq_true_eq, List.isEmpty_iff, Bool.not_eq_true', or_assoc]

theorem parseQueryWord_cases (s : SearchServer R) (text : Str) :
    (BadToken text ∧ ParseQueryWord s text = .error .invalid_argument) ∨
    (¬ BadToken text ∧
      ParseQueryWord s text =
        .ok { data := stripMinus text, is_minus := decide (text.head? = some '-'),
              is_stop := IsStopWord s (stripMinus text) }) := by
  rw [parseQueryWord_eq, badToken_iff]
  by_cases h : ((stripMinus text).isEmpty || decide ((stripMinus text).head? = some '-')
          || decide ((stripMinus text).getLast? = some '-') || !IsValidWord (stripMinus text))
        = true
  · exact Or.inl ⟨h, by rw [if_pos h]⟩
  · exact Or.inr ⟨h, by rw [if_neg h]⟩

theorem parseQueryLoop_cons_ok (s : SearchServer R) (token : Str) (rest : List Str)
    (query : Query) (h : ¬ BadToken token) :
    ParseQueryLoop s (token :: rest) query = ParseQueryLoop s rest (queryStep s query token) := by
  rcases parseQueryWord_cases s token with ⟨hb, _⟩ | ⟨_, hok⟩
  · exact absurd hb h
  · rw [ParseQueryLoop, hok]
    unfold queryStep
    dsimp only
    by_cases hstop : IsStopWord s (stripMinus token) = true
    · simp only [hstop, Bool.not_true, Bool.false_eq_true, if_false, if_true]
    · have hs : IsStopWord s (stripMinus token) = false := by simpa using hstop
      simp only [hs, Bool.not_false, if_true, Bool.false_eq_true, if_false]
      split <;> rfl

theorem parseQueryLoop_cons_bad (s : SearchServer R) (token : Str) (rest : List Str)
    (query : Query) (h : BadToken token) :
    ParseQueryLoop s (token :: rest) query = .error .invalid_argument := by
  rcases parseQueryWord_cases s token with ⟨_, herr⟩ | ⟨hb, _⟩
  · rw [ParseQueryLoop, herr]
  · exact absurd h hb

theorem parseQueryLoop_cases (s : SearchServer R) (tokens : List Str) (query : Query) :
    ((∃ t ∈ tokens, BadToken t) ∧ ParseQueryLoop s tokens query = .error .invalid_argument) ∨
    ((¬ ∃ t ∈ tokens, BadToken t) ∧
      ParseQueryLoop s tokens query = .ok (tokens.foldl (queryStep s) query)) := by
  induction tokens generalizing query with
  | nil => exact Or.inr ⟨by simp, rfl⟩
  | cons t rest ih =>
    by_cases hb : BadToken t
    · exact Or.inl ⟨⟨t, List.mem_cons_self _ _, hb⟩, parseQueryLoop_cons_bad s t rest query hb⟩
    · rw [parseQueryLoop_cons_ok s t rest query hb]
      rcases ih (queryStep s query t) with ⟨⟨t', ht', hbt⟩, herr⟩ | ⟨hgood, hok⟩
      · exact Or.inl ⟨⟨t', List.mem_cons_of_mem _ ht', hbt⟩, herr⟩
      · refine Or.inr ⟨?_, by rw [hok, List.foldl_cons]⟩
        rintro ⟨t', ht', hbt⟩
        rcases List.mem_cons.mp ht' with rfl | hmem
        · exact hb hbt
        · exact hgood ⟨t', hmem, hbt⟩

end Parsing

/-- C16. `ParseQuery` throws `invalid_argument` iff some token of the query, after
removing at most one leading `'-'`, is empty, still begins with `'-'`, ends with
`'-'`, or has a byte in `[0, 0x20)`; otherwise it returns.  The same holds of
`MatchDocument` for every id, and of `FindTopDocuments` in a reachable state.
"--cat", "cat-" and "-" are rejected, "black-cat" is accepted, and the empty query
parses to two empty sets. -/
theorem C16_parseQuery_rejects {R : Type} (ar : DoubleOps R) (s : SearchServer R)
    (hs : Reachable ar s) (raw_query : Str) :
    (ParseQuery s raw_query = .error .invalid_argument ↔
      ∃ t ∈ SplitIntoWords raw_query, BadToken t) ∧
    ((¬ ∃ t ∈ SplitIntoWords raw_query, BadToken t) → ∃ query, ParseQuery s raw_query = .ok query) ∧
    (∀ document_id, MatchDocument s raw_query document_id = .error .invalid_argument ↔
      ∃ t ∈ SplitIntoWords raw_query, BadToken t) ∧
    (∀ document_predicate,
      FindTopDocuments ar s raw_query document_predicate = .error .invalid_argument ↔
        ∃ t ∈ SplitIntoWords raw_query, BadToken t) ∧
    ParseQuery s "--cat".toList = .error .invalid_argument ∧
    ParseQuery s "cat-".toList = .error .invalid_argument ∧
    ParseQuery s "-".toList = .error .invalid_argument ∧
    (∃ query, ParseQuery s "black-cat".toList = .ok query) ∧
    ParseQuery s [] = .ok { plus_words := [], minus_words := [] } := by
  have hcases : ∀ raw : Str,
      ((∃ t ∈ SplitIntoWords raw, BadToken t) ∧ ParseQuery s raw = .error .invalid_argument) ∨
      ((¬ ∃ t ∈ SplitIntoWords raw, BadToken t) ∧ ∃ query, ParseQuery s raw = .ok query) := by
    intro raw
    rcases parseQueryLoop_cases s (SplitIntoWords raw) { plus_words := [], minus_words := [] }
      with ⟨hb, herr⟩ | ⟨hg, hok⟩
    · exact Or.inl ⟨hb, herr⟩
    · exact Or.inr ⟨hg, _, hok⟩
  have hbad : ∀ raw : Str, (∃ t ∈ SplitIntoWords raw, BadToken t) →
      ParseQuery s raw = .error .invalid_argument := by
    intro raw hb
    rcases hcases raw with ⟨_, herr⟩ | ⟨hg, _⟩
    · exact herr
    · exact absurd hb hg
  refine ⟨?_, ?_, ?_, ?_, ?_, ?_, ?_, ?_, rfl⟩
  · rcases hcases raw_query with ⟨hb, herr⟩ | ⟨hg, query, hok⟩
    · exact ⟨fun _ => hb, fun _ => herr⟩
    · rw [hok]
      exact ⟨(fun h => nomatch h), fun h => absurd h hg⟩
  · intro hg
    rcases hcases raw_query with ⟨hb, _⟩ | ⟨_, hq⟩
    · exact absurd hb hg
    · exact hq
  · intro document_id
    rcases hcases raw_query with ⟨hb, herr⟩ | ⟨hg, query, hok⟩
    · rw [MatchDocument, herr]
      exact ⟨fun _ => hb, fun _ => rfl⟩
    · rw [MatchDocument, hok]
      refine ⟨fun h => ?_, fun h => absurd h hg⟩
      dsimp only at h
      cases hd : OrdMap.find? s.documents_ document_id with
      | none => rw [hd] at h; cases h
      | some data => rw [hd] at h; cases h
  · intro document_predicate
    rcases hcases raw_query with ⟨hb, herr⟩ | ⟨hg, query, hok⟩
    · rw [FindTopDocuments, herr]
      exact ⟨fun _ => hb, fun _ => rfl⟩
    · obtain ⟨cands, _, htop⟩ := findTopDocuments_eq ar s (inv_of_reachable hs) raw_query query
        hok document_predicate
      rw [htop]
      exact ⟨(fun h => nomatch h), fun h => absurd h hg⟩
  · exact hbad _ ⟨"--cat".toList, by decide, Or.inr (Or.inl (by decide))⟩
  · exact hbad _ ⟨"cat-".toList, by decide, Or.inr (Or.inr (Or.inl (by decide)))⟩
  · exact hbad _ ⟨"-".toList, by decide, Or.inl (by decide)⟩
  · rcases hcases "black-cat".toList with ⟨⟨t, ht, hb⟩, _⟩ | ⟨_, hq⟩
    · exfalso
      have ht' : t = "black-cat".toList := by
        have : SplitIntoWords "black-cat".toList = ["black-cat".toList] := by decide
        rw [this] at ht
        exact List.mem_singleton.mp ht
      subst ht'
      rcases hb with h | h | h | ⟨c, hc, hlt⟩
      · exact absurd h (by decide)
      · exact absurd h (by decide)
      · exact absurd h (by decide)
      · have hall : ∀ c ∈ stripMinus "black-cat".toList, ¬ c.toNat < 32 := by decide
        exact hall c hc hlt
    · exact hq

theorem C16_witness :
    Reachable exampleOps exampleServer ∧
    (ParseQuery exampleServer "cat --dog".toList = .error .invalid_argument ↔
      ∃ t ∈ SplitIntoWords "cat --dog".toList, BadToken t) :=
  ⟨exampleServer_reachable,
    (C16_parseQuery_rejects exampleOps exampleServer exampleServer_reachable
      "cat --dog".toList).1⟩

section Parsing

variable {R : Type}

theorem stripMinus_of_minus {t : Str} (h : t.head? = some '-') : stripMinus t = t.drop 1 := by
  unfold stripMinus
  rw [if_pos (decide_eq_true h)]

theorem stripMinus_of_plus {t : Str} (h : t.head? ≠ some '-') : stripMinus t = t := by
  unfold stripMinus
  rw [if_neg (by simpa using h)]

theorem exists_mem_cons_iff' (A : Str → Prop) (t : Str) (rest : List Str) :
    (∃ x ∈ t :: rest, A x) ↔ A t ∨ ∃ x ∈ rest, A x := by
  constructor
  · rintro ⟨x, hx, hA⟩
    rcases List.mem_cons.mp hx with rfl | hmem
    · exact Or.inl hA
    · exact Or.inr ⟨x, hmem, hA⟩
  · rintro (hA | ⟨x, hmem, hA⟩)
    · exact ⟨t, List.mem_cons_self _ _, hA⟩
    · exact ⟨x, List.mem_cons_of_mem _ hmem, hA⟩

theorem queryStep_plus (s : SearchServer R) (query : Query) (t w : Str) :
    w ∈ (queryStep s query t).plus_words ↔
      w ∈ query.plus_words ∨ (t.head? ≠ some '-' ∧ IsStopWord s t = false ∧ w = t) := by
  unfold queryStep
  by_cases hminus : t.head? = some '-'
  · have hA : ¬ (t.head? ≠ some '-' ∧ IsStopWord s t = false ∧ w = t) := fun h => h.1 hminus
    by_cases hstop : IsStopWord s (stripMinus t) = true
    · rw [if_pos hstop]; tauto
    · rw [if_neg hstop, if_pos (decide_eq_true hminus)]; tauto
  · rw [stripMinus_of_plus hminus]
    by_cases hstop : IsStopWord s t = true
    · rw [if_pos hstop]
      have hA : ¬ (t.head? ≠ some '-' ∧ IsStopWord s t = false ∧ w = t) := by
        rintro ⟨_, h, _⟩
        rw [hstop] at h
        cases h
      tauto
    · have hs : IsStopWord s t = false := by simpa using hstop
      rw [if_neg hstop, if_neg (by simpa using hminus)]
      show w ∈ OrdSet.insert t query.plus_words ↔ _
      rw [OrdSet.mem_insert]
      tauto

theorem queryStep_minus (s : SearchServer R) (query : Query) (t w : Str) :
    w ∈ (queryStep s query t).minus_words ↔
      w ∈ query.minus_words ∨
        (t.head? = some '-' ∧ IsStopWord s (t.drop 1) = false ∧ w = t.drop 1) := by
  unfold queryStep
  by_cases hminus : t.head? = some '-'
  · rw [stripMinus_of_minus hminus]
    by_cases hstop : IsStopWord s (t.drop 1) = true
    · rw [if_pos hstop]
      have hA : ¬ (t.head? = some '-' ∧ IsStopWord s (t.drop 1) = false ∧ w = t.drop 1) := by
        rintro ⟨_, h, _⟩
        rw [hstop] at h
        cases h
      tauto
    · have hs : IsStopWord s (t.drop 1) = false := by simpa using hstop
      rw [if_neg hstop, if_pos (decide_eq_true hminus)]
      show w ∈ OrdSet.insert (t.drop 1) query.minus_words ↔ _
      rw [OrdSet.mem_insert]
      tauto
  · have hA : ¬ (t.head? = some '-' ∧ IsStopWord s (t.drop 1) = false ∧ w = t.drop 1) :=
      fun h => hminus h.1
    by_cases hstop : IsStopWord s (stripMinus t) = true
    · rw [if_pos hstop]; tauto
    · rw [if_neg hstop, if_neg (by simpa using hminus)]; tauto

theorem mem_foldl_queryStep (s : SearchServer R) (tokens : List Str) (query : Query) (w : Str) :
    (w ∈ (tokens.foldl (queryStep s) query).plus_words ↔
      w ∈ query.plus_words ∨
        ∃ t ∈ tokens, t.head? ≠ some '-' ∧ IsStopWord s t = false ∧ w = t) ∧
    (w ∈ (tokens.foldl (queryStep s) query).minus_words ↔
      w ∈ query.minus_words ∨
        ∃ t ∈ tokens, t.head? = some '-' ∧ IsStopWord s (t.drop 1) = false ∧ w = t.drop 1) := by
  induction tokens generalizing query with
  | nil =>
    constructor
    · exact ⟨Or.inl, fun h => h.elim id (fun ⟨_, hx, _⟩ => nomatch hx)⟩
    · exact ⟨Or.inl, fun h => h.elim id (fun ⟨_, hx, _⟩ => nomatch hx)⟩
  | cons t rest ih =>
    rw [List.foldl_cons]
    obtain ⟨ihp, ihm⟩ := ih (queryStep s query t)
    rw [ihp, ihm, queryStep_plus, queryStep_minus,
      exists_mem_cons_iff' (fun t => t.head? ≠ some '-' ∧ IsStopWord s t = false ∧ w = t),
      exists_mem_cons_iff'
        (fun t => t.head? = some '-' ∧ IsStopWord s (t.drop 1) = false ∧ w = t.drop 1)]
    exact ⟨or_assoc, or_assoc⟩

theorem parseQuery_ok_eq (s : SearchServer R) (raw : Str) (query : Query)
    (h : ParseQuery s raw = .ok query) :
    query = (SplitIntoWords raw).foldl (queryStep s) { plus_words := [], minus_words := [] } := by
  rcases parseQueryLoop_cases s (SplitIntoWords raw) { plus_words := [], minus_words := [] }
    with ⟨_, herr⟩ | ⟨_, hok⟩
  · rw [ParseQuery, herr] at h
    cases h
  · rw [ParseQuery, hok] at h
    exact (Except.ok.inj h).symm

end Parsing

/-- C17. For a query that parses, `plus_words` is exactly the set of the tokens without
a leading `'-'` that are not stop words, and `minus_words` is exactly the set of the
remainders, after the leading `'-'`, of the tokens with a leading `'-'` whose
remainder is not a stop word; both are sets, and a stop word is in neither. -/
theorem C17_parseQuery_sets {R : Type} (s : SearchServer R) (raw_query : Str) (query : Query)
    (hq : ParseQuery s raw_query = .ok query) :
    (∀ w, w ∈ query.plus_words ↔
      ∃ t ∈ SplitIntoWords raw_query, t.head? ≠ some '-' ∧ IsStopWord s t = false ∧ w = t) ∧
    (∀ w, w ∈ query.minus_words ↔
      ∃ t ∈ SplitIntoWords raw_query,
        t.head? = some '-' ∧ IsStopWord s (t.drop 1) = false ∧ w = t.drop 1) ∧
    query.plus_words.Nodup ∧ query.minus_words.Nodup ∧
    ∀ w, IsStopWord s w = true → w ∉ query.plus_words ∧ w ∉ query.minus_words := by
  have heq := parseQuery_ok_eq s raw_query query hq
  have hmem := fun w => mem_foldl_queryStep s (SplitIntoWords raw_query)
    { plus_words := [], minus_words := [] } w
  rw [← heq] at hmem
  have hplus : ∀ w, w ∈ query.plus_words ↔
      ∃ t ∈ SplitIntoWords raw_query, t.head? ≠ some '-' ∧ IsStopWord s t = false ∧ w = t := by
    intro w
    rw [(hmem w).1]
    exact ⟨fun h => h.elim (fun h' => nomatch h') id, Or.inr⟩
  have hminus : ∀ w, w ∈ query.minus_words ↔
      ∃ t ∈ SplitIntoWords raw_query,
        t.head? = some '-' ∧ IsStopWord s (t.drop 1) = false ∧ w = t.drop 1 := by
    intro w
    rw [(hmem w).2]
    exact ⟨fun h => h.elim (fun h' => nomatch h') id, Or.inr⟩
  obtain ⟨hn₁, hn₂⟩ := parseQuery_nodup s raw_query query hq
  refine ⟨hplus, hminus, hn₁, hn₂, fun w hstop => ⟨fun h => ?_, fun h => ?_⟩⟩
  · obtain ⟨t, _, _, hns, rfl⟩ := (hplus w).mp h
    rw [hstop] at hns
    cases hns
  · obtain ⟨t, _, _, hns, rfl⟩ := (hminus w).mp h
    rw [hstop] at hns
    cases hns

theorem C17_witness :
    ParseQuery exampleServer "cat -white".toList =
      .ok { plus_words := ["cat".toList], minus_words := ["white".toList] } ∧
    (∀ w, w ∈ ["cat".toList] ↔
      ∃ t ∈ SplitIntoWords "cat -white".toList,
        t.head? ≠ some '-' ∧ IsStopWord exampleServer t = false ∧ w = t) :=
  ⟨by decide,
    (C17_parseQuery_sets exampleServer "cat -white".toList
      { plus_words := ["cat".toList], minus_words := ["white".toList] } (by decide)).1⟩

/-! ## `GetWordFrequencies` and the term frequencies stored by `AddDocument` -/

section Frequencies

variable {R : Type}

theorem find?_emplace_ne {K V : Type} [LinearOrder K] (k : K) (v : V) (m : OrdMap K V) (x : K)
    (hx : x ≠ k) : OrdMap.find? (OrdMap.emplace k v m) x = OrdMap.find? m x := by
  cases hk : OrdMap.find? m k with
  | none => rw [OrdMap.find?_emplace v hk, if_neg hx]
  | some w =>
    unfold OrdMap.emplace
    rw [hk]
    rfl

theorem find?_emplace_self {K V : Type} [LinearOrder K] (k : K) (v : V) (m : OrdMap K V) :
    OrdMap.find? (OrdMap.emplace k v m) k =
      match OrdMap.find? m k with
      | some w => some w
      | none => some v := by
  cases hk : OrdMap.find? m k with
  | none => rw [OrdMap.find?_emplace v hk, if_pos rfl]
  | some w =>
    unfold OrdMap.emplace
    rw [hk]
    exact hk

theorem getWordFrequenciesLoop_spec (id : Int) (index : List (Str × OrdMap Int R))
    (hn : (OrdMap.keys index).Nodup) (result : OrdMap Str R) :
    (OrdMap.Sorted result → OrdMap.Sorted (getWordFrequenciesLoop id index result)) ∧
    ∀ w, OrdMap.find? (getWordFrequenciesLoop id index result) w =
      match OrdMap.find? result w with
      | some v => some v
      | none => storedFreq index id w := by
  induction index generalizing result with
  | nil =>
    refine ⟨fun h => h, fun w => ?_⟩
    cases h : OrdMap.find? result w <;> simp [getWordFrequenciesLoop, h, storedFreq, OrdMap.find?]
  | cons p rest ih =>
    obtain ⟨w₀, f₀⟩ := p
    have hn' : w₀ ∉ OrdMap.keys rest ∧ (OrdMap.keys rest).Nodup := by
      simpa [OrdMap.keys] using hn
    have hrest : OrdMap.find? rest w₀ = none := (OrdMap.find?_eq_none_iff rest w₀).mpr hn'.1
    have hstored : ∀ w, storedFreq ((w₀, f₀) :: rest) id w =
        if w = w₀ then OrdMap.find? f₀ id else storedFreq rest id w := by
      intro w
      unfold storedFreq
      by_cases hw : w = w₀
      · simp [OrdMap.find?, hw]
      · simp [OrdMap.find?, hw]
    have hstored₀ : storedFreq rest id w₀ = none := by
      unfold storedFreq
      rw [hrest]
      rfl
    rw [getWordFrequenciesLoop]
    cases hf : OrdMap.find? f₀ id with
    | none =>
      have hc : ¬ OrdMap.count f₀ id ≠ 0 := by simp [OrdMap.count, hf]
      rw [if_neg hc]
      obtain ⟨hs, hfind⟩ := ih hn'.2 result
      refine ⟨hs, fun w => ?_⟩
      rw [hfind w, hstored w]
      by_cases hw : w = w₀
      · subst hw
        rw [if_pos rfl, hf, hstored₀]
      · rw [if_neg hw]
    | some v =>
      have hc : OrdMap.count f₀ id ≠ 0 := by simp [OrdMap.count, hf]
      rw [if_pos hc]
      dsimp only
      obtain ⟨hs, hfind⟩ := ih hn'.2 (OrdMap.emplace w₀ v result)
      refine ⟨fun h => hs (OrdMap.sorted_emplace v h), fun w => ?_⟩
      rw [hfind w, hstored w]
      by_cases hw : w = w₀
      · subst hw
        rw [if_pos rfl, find?_emplace_self, hstored₀, hf]
        cases OrdMap.find? result w <;> rfl
      · rw [if_neg hw, find?_emplace_ne _ _ _ _ hw]

/-- The map returned by `GetWordFrequencies`, when no word is twice a key of the index. -/
theorem getWordFrequencies_spec (s : SearchServer R) (id : Int)
    (hn : (OrdMap.keys s.word_to_document_freqs_).Nodup) :
    OrdMap.Sorted (GetWordFrequencies s id) ∧
    ∀ w, OrdMap.find? (GetWordFrequencies s id) w = storedFreq s.word_to_document_freqs_ id w := by
  obtain ⟨hs, hf⟩ := getWordFrequenciesLoop_spec id s.word_to_document_freqs_ hn []
  exact ⟨hs OrdMap.sorted_nil, fun w => by rw [GetWordFrequencies, hf w]; rfl⟩

theorem indexWords_keys_nodup (ar : DoubleOps R) (id : Int) (inv : R) (ws : List Str)
    (s : SearchServer R) (h : (OrdMap.keys s.word_to_document_freqs_).Nodup) :
    (OrdMap.keys (indexWords ar id inv ws s).word_to_document_freqs_).Nodup := by
  induction ws generalizing s with
  | nil => exact h
  | cons w rest ih =>
    rw [indexWords]
    exact ih _ (OrdMap.nodup_keys_alter h)

/-- In a reachable state no word is twice a key of the index. -/
theorem index_keys_nodup_of_reachable {ar : DoubleOps R} {s : SearchServer R}
    (h : Reachable ar s) : (OrdMap.keys s.word_to_document_freqs_).Nodup := by
  induction h with
  | create stop_words s hc =>
    unfold create at hc
    by_cases hv : (!stop_words.all IsValidWord) = true
    · rw [if_pos hv] at hc; cases hc
    · rw [if_neg hv] at hc
      rw [← Except.ok.inj hc, (internStopWords_index stop_words emptyServer).1]
      exact List.nodup_nil
  | add s s' id text status ratings _ hadd ih =>
    obtain ⟨_, _, words, rating, _, _, rfl⟩ := addDocument_ok hadd
    exact indexWords_keys_nodup ar id _ words s ih
  | remove s s' id _ hrem ih =>
    rw [removeDocument_index hrem]
    have : OrdMap.keys (s.word_to_document_freqs_.map (fun p => (p.1, OrdMap.erase id p.2))) =
        OrdMap.keys s.word_to_document_freqs_ := by
      simp [OrdMap.keys, Function.comp_def]
    rw [this]
    exact ih

theorem storedFreq_alter (ar : DoubleOps R) (index : OrdMap Str (OrdMap Int R)) (id : Int)
    (inv : R) (w₀ w : Str) :
    storedFreq
        (OrdMap.alter w₀ []
          (fun freqs => OrdMap.alter id ar.zero (fun v => ar.add v inv) freqs) index) id w =
      if w = w₀ then some (ar.add ((storedFreq index id w₀).getD ar.zero) inv)
      else storedFreq index id w := by
  unfold storedFreq
  rw [OrdMap.find?_alter]
  by_cases hw : w = w₀
  · rw [if_pos hw, if_pos hw]
    show OrdMap.find? (OrdMap.alter id ar.zero _ _) id = _
    rw [OrdMap.find?_alter, if_pos rfl]
    cases OrdMap.find? index w₀ <;> rfl
  · rw [if_neg hw, if_neg hw]

end Frequencies

section Frequencies

variable {R : Type}

theorem splitIntoWordsNoStopLoop_ok (s : SearchServer R) (tokens words : List Str)
    (h : SplitIntoWordsNoStopLoop s tokens = .ok words) :
    words = tokens.filter (fun w => !IsStopWord s w) := by
  induction tokens generalizing words with
  | nil =>
    rw [SplitIntoWordsNoStopLoop] at h
    exact (Except.ok.inj h).symm
  | cons t rest ih =>
    rw [SplitIntoWordsNoStopLoop] at h
    by_cases hv : (!IsValidWord t) = true
    · rw [if_pos hv] at h
      cases h
    · rw [if_neg hv] at h
      cases hr : SplitIntoWordsNoStopLoop s rest with
      | error e => rw [hr] at h; cases h
      | ok ws =>
        rw [hr] at h
        have hws := ih ws hr
        have h' := (Except.ok.inj h).symm
        rw [h', List.filter_cons, hws]

/-- Over exact arithmetic: the frequency stored for a word and the document after the
loop of `AddDocument` is the one stored before plus `inv` for each occurrence. -/
theorem storedFreq_indexWords (ln : ℚ → ℚ) (id : Int) (inv : ℚ) (ws : List Str)
    (s : SearchServer ℚ) (w : Str) :
    storedFreq (indexWords (exactOps ln) id inv ws s).word_to_document_freqs_ id w =
      if ws.count w = 0 then storedFreq s.word_to_document_freqs_ id w
      else some ((storedFreq s.word_to_document_freqs_ id w).getD 0 + (ws.count w : ℚ) * inv) := by
  induction ws generalizing s with
  | nil => rfl
  | cons w₀ rest ih =>
    rw [indexWords, ih]
    simp only [storedFreq_alter]
    by_cases hw : w = w₀
    · subst hw
      have hc : (w :: rest).count w = rest.count w + 1 := List.count_cons_self _ _
      rw [hc, if_neg (Nat.succ_ne_zero _), if_pos rfl]
      by_cases hz : rest.count w = 0
      · rw [if_pos hz, hz]
        show some ((storedFreq s.word_to_document_freqs_ id w).getD 0 + inv) = _
        congr 1
        push_cast
        ring
      · rw [if_neg hz]
        show some (((storedFreq s.word_to_document_freqs_ id w).getD 0 + inv) +
          (rest.count w : ℚ) * inv) = _
        congr 1
        push_cast
        ring
    · have hc : (w₀ :: rest).count w = rest.count w :=
        List.count_cons_of_ne hw _
      rw [hc, if_neg hw]

theorem sum_map_div (l : List Str) (g : Str → ℚ) (n : ℚ) :
    (l.map (fun w => g w / n)).sum = (l.map g).sum / n := by
  induction l with
  | nil => simp
  | cons x rest ih => simp only [List.map_cons, List.sum_cons, ih, add_div]

theorem sum_map_cast (l : List Str) (c : Str → Nat) :
    (l.map (fun w => (c w : ℚ))).sum = ((l.map c).sum : ℚ) := by
  induction l with
  | nil => simp
  | cons x rest ih => simp only [List.map_cons, List.sum_cons, ih, Nat.cast_add]

/-- The values of a map that gives each of its keys its share `count / length` of a
list with the same elements add up to one. -/
theorem sum_of_shares (words : List Str) (hn : 1 ≤ words.length) (res : OrdMap Str ℚ)
    (hs : OrdMap.Sorted res)
    (hf : ∀ w, OrdMap.find? res w =
      if w ∈ words then some ((words.count w : ℚ) / (words.length : ℚ)) else none) :
    (res.map Prod.snd).sum = 1 := by
  have hnodup := hs.nodup
  have hvals : res.map Prod.snd =
      (OrdMap.keys res).map (fun w => (words.count w : ℚ) / (words.length : ℚ)) := by
    unfold OrdMap.keys
    rw [List.map_map]
    apply List.map_congr_left
    intro p hp
    have h1 := OrdMap.find?_of_mem hnodup (show (p.1, p.2) ∈ res from hp)
    rw [hf p.1] at h1
    by_cases hm : p.1 ∈ words
    · rw [if_pos hm] at h1
      exact (Option.some.inj h1).symm
    · rw [if_neg hm] at h1
      cases h1
  have hperm : (OrdMap.keys res).Perm words.dedup := by
    apply (List.perm_ext_iff_of_nodup hnodup (List.nodup_dedup words)).mpr
    intro w
    rw [← OrdMap.find?_isSome_iff, hf w, List.mem_dedup]
    by_cases hm : w ∈ words
    · simp [hm]
    · simp [hm]
  have hsum : (List.map (fun w => List.count w words) words.dedup).sum = words.length := by
    convert List.sum_map_count_dedup_eq_length words
  rw [hvals, (hperm.map _).sum_eq, sum_map_div, sum_map_cast, hsum]
  have : (words.length : ℚ) ≠ 0 := by
    have : 0 < words.length := hn
    exact_mod_cast this.ne'
  exact div_self this

end Frequencies

/-- C18. Over exact (rational) arithmetic: in a reachable state, after an
`AddDocument(id, text, ...)` that returns normally and whose text has `n >= 1` words
that are not stop words, `GetWordFrequencies(id)` maps each of these words `w` to
(number of occurrences of `w` among them) `/ n` and holds no other word; every
frequency lies in `(0, 1]` and the frequencies add up to `1`. -/
theorem C18_term_frequencies (ln : ℚ → ℚ) (s : SearchServer ℚ)
    (hs : Reachable (exactOps ln) s) (document_id : Int) (document : Str)
    (status : DocumentStatus) (ratings : List Int) (s₁ : SearchServer ℚ)
    (hadd : AddDocument (exactOps ln) s document_id document status ratings = (.ok (), s₁))
    (hn : 1 ≤ (nonStopWords s document).length) :
    (∀ w, OrdMap.find? (GetWordFrequencies s₁ document_id) w =
      if w ∈ nonStopWords s document then
        some (((nonStopWords s document).count w : ℚ) / ((nonStopWords s document).length : ℚ))
      else none) ∧
    (∀ w ∈ nonStopWords s document, IsStopWord s w = false) ∧
    (∀ p ∈ GetWordFrequencies s₁ document_id, 0 < p.2 ∧ p.2 ≤ 1) ∧
    ((GetWordFrequencies s₁ document_id).map Prod.snd).sum = 1 := by
  have hinv := inv_of_reachable hs
  have hreach₁ : Reachable (exactOps ln) s₁ :=
    Reachable.add s s₁ document_id document status ratings hs hadd
  obtain ⟨_, hnone, words, rating, hw, _, hs₁⟩ := addDocument_ok hadd
  have hwords : words = nonStopWords s document := splitIntoWordsNoStopLoop_ok s _ words hw
  obtain ⟨hsorted, hfind⟩ := getWordFrequencies_spec s₁ document_id
    (index_keys_nodup_of_reachable hreach₁)
  have hindex : s₁.word_to_document_freqs_ =
      (indexWords (exactOps ln) document_id (1 / (words.length : ℚ)) words
        s).word_to_document_freqs_ := by
    rw [hs₁]; rfl
  have hbefore : ∀ w, storedFreq s.word_to_document_freqs_ document_id w = none := by
    intro w
    unfold storedFreq
    cases hf : OrdMap.find? s.word_to_document_freqs_ w with
    | none => rfl
    | some freqs =>
      show OrdMap.find? freqs document_id = none
      cases hd : OrdMap.find? freqs document_id with
      | none => rfl
      | some tf =>
        have := hinv.listed _ (OrdMap.mem_of_find? hf) _ (OrdMap.mem_of_find? hd)
        rw [hnone] at this
        cases this
  have hlen : (0 : ℚ) < (words.length : ℚ) := by
    rw [hwords]
    exact_mod_cast hn
  have hstored : ∀ w, storedFreq s₁.word_to_document_freqs_ document_id w =
      if words.count w = 0 then none
      else some ((words.count w : ℚ) * (1 / (words.length : ℚ))) := by
    intro w
    have key := storedFreq_indexWords ln document_id (1 / (words.length : ℚ)) words s w
    rw [hbefore w, Option.getD_none, zero_add, ← hindex] at key
    exact key
  have hspec : ∀ w, OrdMap.find? (GetWordFrequencies s₁ document_id) w =
      if w ∈ words then some ((words.count w : ℚ) / (words.length : ℚ)) else none := by
    intro w
    rw [hfind w, hstored w]
    by_cases hm : w ∈ words
    · rw [if_neg (fun h => List.count_eq_zero.mp h hm), if_pos hm, mul_one_div]
    · rw [if_pos (List.count_eq_zero.mpr hm), if_neg hm]
  rw [← hwords]
  refine ⟨hspec, ?_, ?_, sum_of_shares words (by rw [hwords]; exact hn) _ hsorted hspec⟩
  · intro w hw'
    rw [hwords] at hw'
    have := (List.mem_filter.mp hw').2
    simpa using this
  · intro p hp
    have h1 := OrdMap.find?_of_mem hsorted.nodup (show (p.1, p.2) ∈ _ from hp)
    rw [hspec p.1] at h1
    by_cases hm : p.1 ∈ words
    · rw [if_pos hm] at h1
      rw [← Option.some.inj h1]
      have hcpos : (0 : ℚ) < (words.count p.1 : ℚ) := by
        exact_mod_cast List.count_pos_iff.mpr hm
      have hcle : (words.count p.1 : ℚ) ≤ (words.length : ℚ) := by
        exact_mod_cast List.count_le_length p.1 words
      exact ⟨div_pos hcpos hlen, (div_le_one hlen).mpr hcle⟩
    · rw [if_neg hm] at h1
      cases h1

theorem C18_witness :
    Reachable (exactOps lnTangent) exampleOne ∧
    AddDocument (exactOps lnTangent) exampleOne 1 "black cat".toList .ACTUAL [5, 5] =
      (.ok (), exampleServer) ∧
    1 ≤ (nonStopWords exampleOne "black cat".toList).length ∧
    ((GetWordFrequencies exampleServer 1).map Prod.snd).sum = 1 :=
  ⟨exampleOne_reachable, Prod.ext (by decide) rfl, by decide,
    (C18_term_frequencies lnTangent exampleOne exampleOne_reachable 1 "black cat".toList
      .ACTUAL [5, 5] exampleServer (Prod.ext (by decide) rfl) (by decide)).2.2.2⟩

/-! ## Words listed for every document -/

section IdfZero

variable {R : Type}

/-- In a reachable state no id is twice a key of the document table. -/
theorem documents_nodup_of_reachable {ar : DoubleOps R} {s : SearchServer R}
    (h : Reachable ar s) : (OrdMap.keys s.documents_).Nodup := by
  induction h with
  | create stop_words s hc =>
    unfold create at hc
    by_cases hv : (!stop_words.all IsValidWord) = true
    · rw [if_pos hv] at hc; cases hc
    · rw [if_neg hv] at hc
      rw [← Except.ok.inj hc, (internStopWords_index stop_words emptyServer).2.1]
      exact List.nodup_nil
  | add s s' id text status ratings _ hadd ih =>
    obtain ⟨_, _, words, rating, _, _, rfl⟩ := addDocument_ok hadd
    show (OrdMap.keys (OrdMap.emplace id _ (indexWords ar id _ words s).documents_)).Nodup
    rw [(indexWords_documents ar id _ words s).1]
    exact OrdMap.nodup_keys_emplace _ ih
  | remove s s' id _ hrem ih =>
    rw [(removeDocument_ok hrem).1]
    exact OrdMap.nodup_keys_erase ih

/-- A word that lists every stored document lists as many documents as are stored. -/
theorem length_eq_documentCount {ar : DoubleOps R} {s : SearchServer R} (hs : Reachable ar s)
    (w : Str) (freqs : OrdMap Int R)
    (hw : OrdMap.find? s.word_to_document_freqs_ w = some freqs)
    (hall : ∀ id, (OrdMap.find? s.documents_ id).isSome = true → id ∈ OrdMap.keys freqs) :
    freqs.length = GetDocumentCount s := by
  have hinv := inv_of_reachable hs
  have hmem := OrdMap.mem_of_find? hw
  have hperm : (OrdMap.keys freqs).Perm (OrdMap.keys s.documents_) := by
    apply (List.perm_ext_iff_of_nodup (hinv.freqs_nodup _ hmem)
      (documents_nodup_of_reachable hs)).mpr
    intro id
    constructor
    · intro hk
      obtain ⟨tf, htf⟩ := Option.isSome_iff_exists.mp ((OrdMap.find?_isSome_iff freqs id).mpr hk)
      exact (OrdMap.find?_isSome_iff _ _).mp (hinv.listed _ hmem _ (OrdMap.mem_of_find? htf))
    · intro hk
      exact hall id ((OrdMap.find?_isSome_iff _ _).mpr hk)
  have := hperm.length_eq
  simpa [OrdMap.keys, GetDocumentCount] using this

theorem contribution_zero (ar : DoubleOps R)
    (hone : ∀ x, ar.mul x ar.one = x)
    (hdiv : ∀ n, 0 < n → ar.div (ar.ofNat n) (ar.ofNat n) = ar.one)
    (hlog : ar.log ar.one = ar.zero)
    (s : SearchServer R) (hs : Reachable ar s) (pred : DocumentPredicate) (w : Str)
    (hmul : ∀ freqs, OrdMap.find? s.word_to_document_freqs_ w = some freqs →
      ∀ e ∈ freqs, ar.mul e.2 ar.zero = ar.zero)
    (hall : ∀ freqs, OrdMap.find? s.word_to_document_freqs_ w = some freqs →
      ∀ id, (OrdMap.find? s.documents_ id).isSome = true → id ∈ OrdMap.keys freqs)
    (x : Int) :
    contribution ar s pred w x = none ∨ contribution ar s pred w x = some ar.zero := by
  unfold contribution
  cases hw : OrdMap.find? s.word_to_document_freqs_ w with
  | none => exact Or.inl rfl
  | some freqs =>
    dsimp only
    unfold pairsContribution
    cases hf : OrdMap.find? freqs x with
    | none => exact Or.inl rfl
    | some tf =>
      dsimp only
      cases hd : OrdMap.find? s.documents_ x with
      | none => exact Or.inl rfl
      | some data =>
        dsimp only
        by_cases hp : pred x data.status data.rating = true
        · rw [if_pos hp]
          right
          have hlen := length_eq_documentCount hs w freqs hw (hall freqs hw)
          have hpos : 0 < GetDocumentCount s := by
            unfold GetDocumentCount
            exact List.length_pos_of_mem (OrdMap.mem_of_find? hd)
          rw [hlen, hone, hdiv _ hpos, hlog, hmul freqs hw (x, tf) (OrdMap.mem_of_find? hf)]
        · rw [if_neg hp]
          exact Or.inl rfl

theorem foldl_accStep_zero (ar : DoubleOps R) (hadd : ar.add ar.zero ar.zero = ar.zero)
    (c : Str → Option R) (ws : List Str)
    (hc : ∀ w ∈ ws, c w = none ∨ c w = some ar.zero) (entry : Option R)
    (he : entry = none ∨ entry = some ar.zero) :
    ws.foldl (fun e w => accStep ar e (c w)) entry = none ∨
      ws.foldl (fun e w => accStep ar e (c w)) entry = some ar.zero := by
  induction ws generalizing entry with
  | nil => exact he
  | cons w rest ih =>
    rw [List.foldl_cons]
    apply ih (fun w' hw' => hc w' (List.mem_cons_of_mem _ hw'))
    rcases hc w (List.mem_cons_self _ _) with h | h
    · rw [h]; exact he
    · rw [h]
      right
      rcases he with he | he
      · rw [he]
        show some (ar.add ar.zero ar.zero) = _
        rw [hadd]
      · rw [he]
        show some (ar.add ar.zero ar.zero) = _
        rw [hadd]

end IdfZero

section Sorting

variable {α : Type}

theorem sortInsert_congr (comp comp' : α → α → Bool) (x : α) (l : List α)
    (h : ∀ y ∈ l, comp y x = comp' y x) : sortInsert comp x l = sortInsert comp' x l := by
  induction l with
  | nil => rfl
  | cons y rest ih =>
    rw [sortInsert, sortInsert, h y (List.mem_cons_self _ _),
      ih (fun z hz => h z (List.mem_cons_of_mem _ hz))]

/-- Sorting depends on the comparison only through its values on the elements. -/
theorem sort_congr (comp comp' : α → α → Bool) (l : List α)
    (h : ∀ a ∈ l, ∀ b ∈ l, comp a b = comp' a b) : sort comp l = sort comp' l := by
  induction l with
  | nil => rfl
  | cons x rest ih =>
    have hrest := ih (fun a ha b hb => h a (List.mem_cons_of_mem _ ha) b (List.mem_cons_of_mem _ hb))
    rw [sort, sort, hrest]
    apply sortInsert_congr
    intro y hy
    exact h y (List.mem_cons_of_mem _ ((sort_perm comp' rest).mem_iff.mp hy)) x
      (List.mem_cons_self _ _)

end Sorting

unseal Rat.add Rat.mul Rat.inv Rat.sub in
/-- The example of C19: documents `0` "white cat" rated `{8, -3}` and `1` "black cat"
rated `{5, 5}`, query "cat": document `1` (rating `5`) comes before document `0`
(rating `2`), both with relevance `0`. -/
theorem findTopDocuments_cat :
    FindTopDocuments exampleOps exampleServer "cat".toList acceptAll =
      .ok [{ id := 1, relevance := 0, rating := 5 }, { id := 0, relevance := 0, rating := 2 }] := by
  decide

theorem compareDocuments_exact_iff (ln : ℚ → ℚ) (a b : Document ℚ) :
    compareDocuments (exactOps ln) a b = true ↔
      (|a.relevance - b.relevance| < 1 / 1000000 ∧ a.rating > b.rating) ∨
      (¬ |a.relevance - b.relevance| < 1 / 1000000 ∧ b.relevance < a.relevance) := by
  unfold compareDocuments
  show (if decide (|a.relevance - b.relevance| < 1 / 1000000) = true
      then decide (a.rating > b.rating) else decide (b.relevance < a.relevance)) = true ↔ _
  by_cases h : |a.relevance - b.relevance| < 1 / 1000000
  · rw [if_pos (decide_eq_true h), decide_eq_true_iff]
    exact ⟨fun hr => Or.inl ⟨h, hr⟩, fun hr => hr.elim (fun x => x.2) (fun x => absurd h x.1)⟩
  · rw [if_neg (by rw [decide_eq_true_iff]; exact h), decide_eq_true_iff]
    exact ⟨fun hr => Or.inr ⟨h, hr⟩, fun hr => hr.elim (fun x => absurd x.1 h) (fun x => x.2)⟩

theorem closeRelevance_exact_iff (ln : ℚ → ℚ) (a b : Document ℚ) :
    closeRelevance (exactOps ln) a b = true ↔ |a.relevance - b.relevance| < 1 / 1000000 := by
  unfold closeRelevance
  show decide (|a.relevance - b.relevance| < 1 / 1000000) = true ↔ _
  exact decide_eq_true_iff

theorem incomparable_exact_iff (ln : ℚ → ℚ) (a b : Document ℚ) :
    incomparable (exactOps ln) a b = true ↔
      |a.relevance - b.relevance| < 1 / 1000000 ∧ a.rating = b.rating := by
  unfold incomparable
  rw [Bool.and_eq_true, Bool.not_eq_true', Bool.not_eq_true', ← Bool.not_eq_true,
    ← Bool.not_eq_true, compareDocuments_exact_iff, compareDocuments_exact_iff,
    abs_sub_comm b.relevance a.relevance]
  by_cases h : |a.relevance - b.relevance| < 1 / 1000000
  · constructor
    · rintro ⟨h₁, h₂⟩
      refine ⟨h, ?_⟩
      have h₃ : ¬ a.rating > b.rating := fun x => h₁ (Or.inl ⟨h, x⟩)
      have h₄ : ¬ b.rating > a.rating := fun x => h₂ (Or.inl ⟨h, x⟩)
      omega
    · rintro ⟨_, hr⟩
      constructor
      · rintro (⟨_, x⟩ | ⟨x, _⟩)
        · omega
        · exact x h
      · rintro (⟨_, x⟩ | ⟨x, _⟩)
        · omega
        · exact x h
  · constructor
    · rintro ⟨h₁, h₂⟩
      exfalso
      have h₃ : ¬ b.relevance < a.relevance := fun x => h₁ (Or.inr ⟨h, x⟩)
      have h₄ : ¬ a.relevance < b.relevance := fun x => h₂ (Or.inr ⟨h, x⟩)
      have h₅ : a.relevance = b.relevance := le_antisymm (not_lt.mp h₃) (not_lt.mp h₄)
      apply h
      rw [h₅, sub_self, abs_zero]
      norm_num
    · rintro ⟨x, _⟩
      exact absurd x h

/-- Chains of near-ties: over exact arithmetic, for any logarithm, the comparison of
`FindTopDocuments` is not transitive, and neither is its incomparability. -/
theorem near_ties_not_transitive (ln : ℚ → ℚ) :
    (compareDocuments (exactOps ln) ⟨0, 0, 3⟩ ⟨1, 6 / 10000000, 2⟩ = true ∧
     compareDocuments (exactOps ln) ⟨1, 6 / 10000000, 2⟩ ⟨2, 12 / 10000000, 1⟩ = true ∧
     compareDocuments (exactOps ln) ⟨0, 0, 3⟩ ⟨2, 12 / 10000000, 1⟩ = false ∧
     compareDocuments (exactOps ln) ⟨2, 12 / 10000000, 1⟩ ⟨0, 0, 3⟩ = true) ∧
    (incomparable (exactOps ln) ⟨0, 0, 1⟩ ⟨1, 6 / 10000000, 1⟩ = true ∧
     incomparable (exactOps ln) ⟨1, 6 / 10000000, 1⟩ ⟨2, 12 / 10000000, 1⟩ = true ∧
     incomparable (exactOps ln) ⟨0, 0, 1⟩ ⟨2, 12 / 10000000, 1⟩ = false) ∧
    ¬ (∀ a b c : Document ℚ, compareDocuments (exactOps ln) a b = true →
        compareDocuments (exactOps ln) b c = true →
        compareDocuments (exactOps ln) a c = true) ∧
    ¬ (∀ a b c : Document ℚ, incomparable (exactOps ln) a b = true →
        incomparable (exactOps ln) b c = true → incomparable (exactOps ln) a c = true) := by
  have h₁ : compareDocuments (exactOps ln) ⟨0, 0, 3⟩ ⟨1, 6 / 10000000, 2⟩ = true := by
    rw [compareDocuments_exact_iff]
    left
    norm_num [abs_lt]
  have h₂ : compareDocuments (exactOps ln) ⟨1, 6 / 10000000, 2⟩ ⟨2, 12 / 10000000, 1⟩
      = true := by
    rw [compareDocuments_exact_iff]
    left
    norm_num [abs_lt]
  have h₃ : compareDocuments (exactOps ln) ⟨0, 0, 3⟩ ⟨2, 12 / 10000000, 1⟩ = false := by
    rw [← Bool.not_eq_true, compareDocuments_exact_iff]
    norm_num [abs_lt]
  have h₄ : compareDocuments (exactOps ln) ⟨2, 12 / 10000000, 1⟩ ⟨0, 0, 3⟩ = true := by
    rw [compareDocuments_exact_iff]
    right
    norm_num [abs_lt]
  have h₅ : incomparable (exactOps ln) ⟨0, 0, 1⟩ ⟨1, 6 / 10000000, 1⟩ = true := by
    rw [incomparable_exact_iff]
    norm_num [abs_lt]
  have h₆ : incomparable (exactOps ln) ⟨1, 6 / 10000000, 1⟩ ⟨2, 12 / 10000000, 1⟩
      = true := by
    rw [incomparable_exact_iff]
    norm_num [abs_lt]
  have h₇ : incomparable (exactOps ln) ⟨0, 0, 1⟩ ⟨2, 12 / 10000000, 1⟩ = false := by
    rw [← Bool.not_eq_true, incomparable_exact_iff]
    norm_num [abs_lt]
  refine ⟨⟨h₁, h₂, h₃, h₄⟩, ⟨h₅, h₆, h₇⟩, ?_, ?_⟩
  · intro h
    have := h _ _ _ h₁ h₂
    rw [h₃] at this
    cases this
  · intro h
    have := h _ _ _ h₅ h₆
    rw [h₇] at this
    cases this

/-- C20, as stated, fails over exact arithmetic: with relevances `0`, `6e-7`,
`1.2e-6` and ratings `3`, `2`, `1` the comparison of `FindTopDocuments` puts the first
document before the second and the second before the third, but the third before the
first, so it is not transitive; with equal ratings the first and second, and the
second and third, are incomparable, but the third goes before the first, so
incomparability is not transitive either. -/
theorem C20_counterexample :
    (compareDocuments exampleOps ⟨0, 0, 3⟩ ⟨1, 6 / 10000000, 2⟩ = true ∧
     compareDocuments exampleOps ⟨1, 6 / 10000000, 2⟩ ⟨2, 12 / 10000000, 1⟩ = true ∧
     compareDocuments exampleOps ⟨0, 0, 3⟩ ⟨2, 12 / 10000000, 1⟩ = false ∧
     compareDocuments exampleOps ⟨2, 12 / 10000000, 1⟩ ⟨0, 0, 3⟩ = true) ∧
    (incomparable exampleOps ⟨0, 0, 1⟩ ⟨1, 6 / 10000000, 1⟩ = true ∧
     incomparable exampleOps ⟨1, 6 / 10000000, 1⟩ ⟨2, 12 / 10000000, 1⟩ = true ∧
     incomparable exampleOps ⟨0, 0, 1⟩ ⟨2, 12 / 10000000, 1⟩ = false) ∧
    ¬ (∀ a b c : Document ℚ, compareDocuments exampleOps a b = true →
        compareDocuments exampleOps b c = true →
        compareDocuments exampleOps a c = true) ∧
    ¬ (∀ a b c : Document ℚ, incomparable exampleOps a b = true →
        incomparable exampleOps b c = true → incomparable exampleOps a c = true) :=
  near_ties_not_transitive lnTangent

/-- C20, amended.  Over exact arithmetic the comparison of `FindTopDocuments` is
irreflexive and asymmetric on all documents; and on any list of documents on which
"the relevances differ by less than `1e-6`" is transitive (for instance when the
relevances are pairwise equal or pairwise at least `1e-6` apart) it is transitive and
its incomparability relation is transitive, that is, a strict weak ordering there. -/
theorem C20_strict_weak_on_separated (ln : ℚ → ℚ) (docs : List (Document ℚ))
    (hclose : ∀ a ∈ docs, ∀ b ∈ docs, ∀ c ∈ docs,
      closeRelevance (exactOps ln) a b = true → closeRelevance (exactOps ln) b c = true →
      closeRelevance (exactOps ln) a c = true) :
    (∀ a : Document ℚ, compareDocuments (exactOps ln) a a = false) ∧
    (∀ a b : Document ℚ, compareDocuments (exactOps ln) a b = true →
      compareDocuments (exactOps ln) b a = false) ∧
    (∀ a ∈ docs, ∀ b ∈ docs, ∀ c ∈ docs,
      compareDocuments (exactOps ln) a b = true → compareDocuments (exactOps ln) b c = true →
      compareDocuments (exactOps ln) a c = true) ∧
    (∀ a ∈ docs, ∀ b ∈ docs, ∀ c ∈ docs,
      incomparable (exactOps ln) a b = true → incomparable (exactOps ln) b c = true →
      incomparable (exactOps ln) a c = true) := by
  have hc : ∀ a ∈ docs, ∀ b ∈ docs, ∀ c ∈ docs,
      |a.relevance - b.relevance| < 1 / 1000000 → |b.relevance - c.relevance| < 1 / 1000000 →
      |a.relevance - c.relevance| < 1 / 1000000 := by
    intro a ha b hb c hc h₁ h₂
    have := hclose a ha b hb c hc ((closeRelevance_exact_iff ln a b).mpr h₁)
      ((closeRelevance_exact_iff ln b c).mpr h₂)
    exact (closeRelevance_exact_iff ln a c).mp this
  refine ⟨?_, ?_, ?_, ?_⟩
  · intro a
    rw [← Bool.not_eq_true, compareDocuments_exact_iff]
    rintro (⟨_, h⟩ | ⟨_, h⟩)
    · omega
    · exact lt_irrefl _ h
  · intro a b hab
    rw [compareDocuments_exact_iff] at hab
    rw [← Bool.not_eq_true, compareDocuments_exact_iff, abs_sub_comm b.relevance a.relevance]
    rintro (⟨h₁, h₂⟩ | ⟨h₁, h₂⟩)
    · rcases hab with ⟨_, h₃⟩ | ⟨h₃, _⟩
      · omega
      · exact h₃ h₁
    · rcases hab with ⟨h₃, _⟩ | ⟨_, h₃⟩
      · exact h₁ h₃
      · exact lt_asymm h₂ h₃
  · intro a ha b hb c hcm hab hbc
    rw [compareDocuments_exact_iff] at hab hbc ⊢
    by_cases hac : |a.relevance - c.relevance| < 1 / 1000000
    · left
      refine ⟨hac, ?_⟩
      rcases hab with ⟨h₁, h₂⟩ | ⟨h₁, h₂⟩
      · rcases hbc with ⟨h₃, h₄⟩ | ⟨h₃, h₄⟩
        · omega
        · exfalso
          apply h₃
          rw [abs_sub_comm] at h₁
          exact hc b hb a ha c hcm h₁ hac
      · exfalso
        rcases hbc with ⟨h₃, h₄⟩ | ⟨h₃, h₄⟩
        · apply h₁
          rw [abs_sub_comm] at h₃
          exact hc a ha c hcm b hb hac h₃
        · rw [abs_lt] at hac h₁ h₃
          have e₁ : ¬ (a.relevance - b.relevance < 1 / 1000000) := fun x =>
            h₁ ⟨by linarith, x⟩
          have e₂ : ¬ (b.relevance - c.relevance < 1 / 1000000) := fun x =>
            h₃ ⟨by linarith, x⟩
          linarith [hac.2, not_lt.mp e₁, not_lt.mp e₂]
    · right
      refine ⟨hac, ?_⟩
      rcases hab with ⟨h₁, h₂⟩ | ⟨h₁, h₂⟩
      · rcases hbc with ⟨h₃, h₄⟩ | ⟨h₃, h₄⟩
        · exact absurd (hc a ha b hb c hcm h₁ h₃) hac
        · rw [abs_lt] at h₁ h₃
          have e₂ : ¬ (b.relevance - c.relevance < 1 / 1000000) := fun x =>
            h₃ ⟨by linarith, x⟩
          linarith [h₁.1, not_lt.mp e₂]
      · rcases hbc with ⟨h₃, h₄⟩ | ⟨h₃, h₄⟩
        · rw [abs_lt] at h₁ h₃
          have e₁ : ¬ (a.relevance - b.relevance < 1 / 1000000) := fun x =>
            h₁ ⟨by linarith, x⟩
          linarith [h₃.2, not_lt.mp e₁]
        · exact lt_trans h₄ h₂
  · intro a ha b hb c hcm hab hbc
    rw [incomparable_exact_iff] at hab hbc ⊢
    exact ⟨hc a ha b hb c hcm hab.1 hbc.1, hab.2.trans hbc.2⟩

theorem C20_witness :
    (∀ a ∈ ([⟨1, 0, 5⟩, ⟨0, 0, 2⟩] : List (Document ℚ)),
      ∀ b ∈ ([⟨1, 0, 5⟩, ⟨0, 0, 2⟩] : List (Document ℚ)),
      ∀ c ∈ ([⟨1, 0, 5⟩, ⟨0, 0, 2⟩] : List (Document ℚ)),
      closeRelevance exampleOps a b = true → closeRelevance exampleOps b c = true →
      closeRelevance exampleOps a c = true) ∧
    (∀ a ∈ ([⟨1, 0, 5⟩, ⟨0, 0, 2⟩] : List (Document ℚ)),
      ∀ b ∈ ([⟨1, 0, 5⟩, ⟨0, 0, 2⟩] : List (Document ℚ)),
      ∀ c ∈ ([⟨1, 0, 5⟩, ⟨0, 0, 2⟩] : List (Document ℚ)),
      compareDocuments exampleOps a b = true → compareDocuments exampleOps b c = true →
      compareDocuments exampleOps a c = true) := by
  have h : ∀ a ∈ ([⟨1, 0, 5⟩, ⟨0, 0, 2⟩] : List (Document ℚ)),
      ∀ b ∈ ([⟨1, 0, 5⟩, ⟨0, 0, 2⟩] : List (Document ℚ)),
      ∀ c ∈ ([⟨1, 0, 5⟩, ⟨0, 0, 2⟩] : List (Document ℚ)),
      closeRelevance exampleOps a b = true → closeRelevance exampleOps b c = true →
      closeRelevance exampleOps a c = true := by
    intro a ha b hb c hc _ _
    have hz : ∀ d ∈ ([⟨1, 0, 5⟩, ⟨0, 0, 2⟩] : List (Document ℚ)), d.relevance = 0 := by
      intro d hd
      simp only [List.mem_cons, List.mem_singleton, List.not_mem_nil, or_false] at hd
      rcases hd with rfl | rfl <;> rfl
    unfold exampleOps
    rw [closeRelevance_exact_iff, hz a ha, hz c hc, sub_self, abs_zero]
    norm_num
  exact ⟨h, (C20_strict_weak_on_separated lnTangent _ h).2.2.1⟩

theorem find?_ordinaryUpdates {R : Type} (ar : DoubleOps R) (updates : List (Int × R))
    (m : OrdMap Int R) (x : Int) :
    OrdMap.find? (ordinaryUpdates ar updates m) x =
      accumulated ar x updates (OrdMap.find? m x) := by
  induction updates generalizing m with
  | nil => rfl
  | cons e rest ih =>
    obtain ⟨k, v⟩ := e
    rw [ordinaryUpdates, ih, accumulated, OrdMap.find?_alter]
    by_cases h : x = k
    · rw [if_pos h, if_pos h, h]
    · rw [if_neg h, if_neg h]

theorem sorted_ordinaryUpdates {R : Type} (ar : DoubleOps R) (updates : List (Int × R))
    (m : OrdMap Int R) (h : OrdMap.Sorted m) : OrdMap.Sorted (ordinaryUpdates ar updates m) := by
  induction updates generalizing m with
  | nil => exact h
  | cons e rest ih =>
    obtain ⟨k, v⟩ := e
    rw [ordinaryUpdates]
    exact ih _ (OrdMap.sorted_alter h)

theorem accumulated_isSome {R : Type} (ar : DoubleOps R) (x : Int)
    (updates : List (Int × R)) (init : Option R) :
    (accumulated ar x updates init).isSome = true ↔
      init.isSome = true ∨ x ∈ updates.map Prod.fst := by
  induction updates generalizing init with
  | nil => simp [accumulated]
  | cons e rest ih =>
    obtain ⟨k, v⟩ := e
    rw [accumulated, ih, List.map_cons, List.mem_cons]
    by_cases h : x = k
    · rw [if_pos h]
      simp [h]
    · rw [if_neg h]
      simp [h]

theorem applyUpdates_spec {R : Type} (ar : DoubleOps R) (updates : List (Int × R))
    (m : ConcurrentMap R) (hn : 0 < m.split_map_in_vec_.length) (hwf : ConcurrentMap.WF m) :
    ∃ m', ConcurrentMap.applyUpdates ar updates m = .ok m' ∧
      m'.split_map_in_vec_.length = m.split_map_in_vec_.length ∧ ConcurrentMap.WF m' ∧
      ∀ x, ConcurrentMap.find? m' x = accumulated ar x updates (ConcurrentMap.find? m x) := by
  induction updates generalizing m with
  | nil => exact ⟨m, rfl, rfl, hwf, fun x => rfl⟩
  | cons e rest ih =>
    obtain ⟨k, v⟩ := e
    obtain ⟨m₁, h₁, hlen₁, hwf₁, hf₁⟩ :=
      ConcurrentMap.update_spec m hn hwf k ar.zero (fun x => ar.add x v)
    obtain ⟨m₂, h₂, hlen₂, hwf₂, hf₂⟩ := ih m₁ (by rw [hlen₁]; exact hn) hwf₁
    refine ⟨m₂, ?_, by rw [hlen₂, hlen₁], hwf₂, fun x => ?_⟩
    · rw [ConcurrentMap.applyUpdates, h₁]
      exact h₂
    · rw [hf₂ x, hf₁ x, accumulated]
      by_cases h : x = k
      · rw [if_pos h, if_pos h, h]
      · rw [if_neg h, if_neg h]

theorem applyUpdates_create {R : Type} (ar : DoubleOps R) (n : Nat) (hn : 0 < n)
    (updates : List (Int × R)) :
    ∃ m, ConcurrentMap.applyUpdates ar updates (ConcurrentMap.create n) = .ok m ∧
      m.split_map_in_vec_.length = n ∧ ConcurrentMap.WF m ∧
      OrdMap.Sorted (ConcurrentMap.BuildOrdinaryMap m) ∧
      ∀ x, OrdMap.find? (ConcurrentMap.BuildOrdinaryMap m) x =
        accumulated ar x updates none := by
  have hlen : (ConcurrentMap.create n : ConcurrentMap R).split_map_in_vec_.length = n := by
    simp [ConcurrentMap.create]
  obtain ⟨m, hm, hl, hwf, hf⟩ := applyUpdates_spec ar updates (ConcurrentMap.create n)
    (by rw [hlen]; exact hn) (ConcurrentMap.wf_create n)
  obtain ⟨hs, hb⟩ := ConcurrentMap.buildOrdinaryMap_spec m hwf
  refine ⟨m, hm, by rw [hl, hlen], hwf, hs, fun x => ?_⟩
  rw [hb x, hf x, ConcurrentMap.find?_create]

/-- C21. For every bucket count `n ≥ 1` and every finite sequence of updates
`m[k].ref_to_value += v` on a new `ConcurrentMap`: all updates return, every key is
stored only in bucket `(k as uint64) mod n`, and `BuildOrdinaryMap()` equals the
ordinary map obtained by the same updates on an empty map with default value `0`;
its keys are the keys touched, each once, with the accumulated value. -/
theorem C21_concurrentMap_refines {R : Type} (ar : DoubleOps R) (n : Nat) (hn : 0 < n)
    (updates : List (Int × R)) :
    ∃ m, ConcurrentMap.applyUpdates ar updates (ConcurrentMap.create n) = .ok m ∧
      m.split_map_in_vec_.length = n ∧
      (∀ i bucket, m.split_map_in_vec_[i]? = some bucket →
        ∀ key ∈ OrdMap.keys bucket, ConcurrentMap.bucketIndex key n = i) ∧
      ConcurrentMap.BuildOrdinaryMap m = ordinaryUpdates ar updates [] ∧
      (OrdMap.keys (ConcurrentMap.BuildOrdinaryMap m)).Nodup ∧
      (∀ key, key ∈ OrdMap.keys (ConcurrentMap.BuildOrdinaryMap m) ↔
        key ∈ updates.map Prod.fst) ∧
      ∀ key, OrdMap.find? (ConcurrentMap.BuildOrdinaryMap m) key =
        accumulated ar key updates none := by
  obtain ⟨m, hm, hl, hwf, hs, hf⟩ := applyUpdates_create ar n hn updates
  refine ⟨m, hm, hl, ?_, ?_, hs.nodup, fun key => ?_, hf⟩
  · intro i bucket hb key hk
    have := hwf i bucket hb key hk
    rw [hl] at this
    omega
  · refine OrdMap.ext_of_sorted hs (sorted_ordinaryUpdates ar updates [] OrdMap.sorted_nil)
      (fun k => ?_)
    rw [hf k, find?_ordinaryUpdates]
    rfl
  · rw [← OrdMap.find?_isSome_iff, hf key, accumulated_isSome]
    simp

unseal Rat.add Rat.mul Rat.inv Rat.sub in
theorem C21_witness :
    0 < 3 ∧
    (ConcurrentMap.applyUpdates exampleOps [(4, 1), (1, 2), (4, 3), (-1, 5)]
        (ConcurrentMap.create 3)).map (fun m => m.split_map_in_vec_) =
      .ok [[(-1, 5)], [(1, 2), (4, 4)], []] ∧
    ordinaryUpdates exampleOps [(4, 1), (1, 2), (4, 3), (-1, 5)] [] =
      [(-1, 5), (1, 2), (4, 4)] ∧
    ∃ m, ConcurrentMap.applyUpdates exampleOps [(4, 1), (1, 2), (4, 3), (-1, 5)]
        (ConcurrentMap.create 3) = .ok m ∧
      ConcurrentMap.BuildOrdinaryMap m =
        ordinaryUpdates exampleOps [(4, 1), (1, 2), (4, 3), (-1, 5)] [] := by
  refine ⟨by decide, by decide, by decide, ?_⟩
  obtain ⟨m, hm, _, _, hb, _⟩ :=
    C21_concurrentMap_refines exampleOps 3 (by decide) [(4, 1), (1, 2), (4, 3), (-1, 5)]
  exact ⟨m, hm, hb⟩

theorem accumulated_exact (ln : ℚ → ℚ) (x : Int) (updates : List (Int × ℚ))
    (init : Option ℚ) :
    accumulated (exactOps ln) x updates init =
      if x ∈ updates.map Prod.fst then
        some (init.getD 0 + ((updates.filter (fun e => decide (e.1 = x))).map Prod.snd).sum)
      else init := by
  induction updates generalizing init with
  | nil => simp [accumulated]
  | cons e rest ih =>
    obtain ⟨k, v⟩ := e
    rw [accumulated, ih]
    by_cases h : x = k
    · subst h
      rw [if_pos rfl]
      have hadd : (exactOps ln).add (init.getD (exactOps ln).zero) v = init.getD 0 + v := rfl
      rw [hadd]
      by_cases hr : x ∈ rest.map Prod.fst
      · rw [if_pos hr, if_pos (by simp)]
        simp [add_assoc]
      · rw [if_neg hr, if_pos (by simp)]
        have hnil : rest.filter (fun e => decide (e.1 = x)) = [] := by
          rw [List.filter_eq_nil_iff]
          intro e he hx
          exact hr (List.mem_map.mpr ⟨e, he, of_decide_eq_true hx⟩)
        simp [hnil]
    · rw [if_neg h]
      have hk : ¬ k = x := fun hk => h hk.symm
      by_cases hr : x ∈ rest.map Prod.fst
      · rw [if_pos hr, if_pos (by simp [hr])]
        simp [hk]
      · rw [if_neg hr, if_neg (by simp [h]; simpa using hr)]

theorem accumulated_exact_perm (ln : ℚ → ℚ) (x : Int) {u₁ u₂ : List (Int × ℚ)}
    (hp : u₁.Perm u₂) :
    accumulated (exactOps ln) x u₁ none = accumulated (exactOps ln) x u₂ none := by
  rw [accumulated_exact, accumulated_exact]
  have hmem : x ∈ u₁.map Prod.fst ↔ x ∈ u₂.map Prod.fst := (hp.map Prod.fst).mem_iff
  have hsum : ((u₁.filter (fun e => decide (e.1 = x))).map Prod.snd).sum =
      ((u₂.filter (fun e => decide (e.1 = x))).map Prod.snd).sum :=
    ((hp.filter _).map Prod.snd).sum_eq
  by_cases h : x ∈ u₁.map Prod.fst
  · rw [if_pos h, if_pos (hmem.mp h), hsum]
  · rw [if_neg h, if_neg (fun h₂ => h (hmem.mpr h₂))]

/-- C22. Over exact arithmetic, for every bucket count `n ≥ 1` and any two orders
(permutations of each other) of the same updates `(document id, increment)`: both
runs on a new `ConcurrentMap` return, and `BuildOrdinaryMap()` gives the same map,
in which each touched id carries the sum of its increments. -/
theorem C22_order_independent (ln : ℚ → ℚ) (n : Nat) (hn : 0 < n)
    (u₁ u₂ : List (Int × ℚ)) (hp : u₁.Perm u₂) :
    ∃ m₁ m₂,
      ConcurrentMap.applyUpdates (exactOps ln) u₁ (ConcurrentMap.create n) = .ok m₁ ∧
      ConcurrentMap.applyUpdates (exactOps ln) u₂ (ConcurrentMap.create n) = .ok m₂ ∧
      ConcurrentMap.BuildOrdinaryMap m₁ = ConcurrentMap.BuildOrdinaryMap m₂ ∧
      ∀ key, OrdMap.find? (ConcurrentMap.BuildOrdinaryMap m₁) key =
        if key ∈ u₁.map Prod.fst then
          some (((u₁.filter (fun e => decide (e.1 = key))).map Prod.snd).sum)
        else none := by
  obtain ⟨m₁, hm₁, _, _, hs₁, hf₁⟩ := applyUpdates_create (exactOps ln) n hn u₁
  obtain ⟨m₂, hm₂, _, _, hs₂, hf₂⟩ := applyUpdates_create (exactOps ln) n hn u₂
  refine ⟨m₁, m₂, hm₁, hm₂, OrdMap.ext_of_sorted hs₁ hs₂ (fun k => ?_), fun key => ?_⟩
  · rw [hf₁ k, hf₂ k]
    exact accumulated_exact_perm ln k hp
  · rw [hf₁ key, accumulated_exact]
    simp

unseal Rat.add Rat.mul Rat.inv Rat.sub in
theorem C22_witness :
    0 < 2 ∧ [((4 : Int), (1 : ℚ)), (1, 2), (4, 3)].Perm [(4, 3), (4, 1), (1, 2)] ∧
    (ConcurrentMap.applyUpdates exampleOps [(4, 1), (1, 2), (4, 3)]
        (ConcurrentMap.create 2)).map ConcurrentMap.BuildOrdinaryMap = .ok [(1, 2), (4, 4)] ∧
    (ConcurrentMap.applyUpdates exampleOps [(4, 3), (4, 1), (1, 2)]
        (ConcurrentMap.create 2)).map ConcurrentMap.BuildOrdinaryMap = .ok [(1, 2), (4, 4)] ∧
    ∃ m₁ m₂,
      ConcurrentMap.applyUpdates exampleOps [(4, 1), (1, 2), (4, 3)]
        (ConcurrentMap.create 2) = .ok m₁ ∧
      ConcurrentMap.applyUpdates exampleOps [(4, 3), (4, 1), (1, 2)]
        (ConcurrentMap.create 2) = .ok m₂ ∧
      ConcurrentMap.BuildOrdinaryMap m₁ = ConcurrentMap.BuildOrdinaryMap m₂ := by
  have hp : [((4 : Int), (1 : ℚ)), (1, 2), (4, 3)].Perm [(4, 3), (4, 1), (1, 2)] :=
    ((List.Perm.swap (4, 3) (1, 2) []).cons (4, 1)).trans (List.Perm.swap (4, 3) (4, 1) [(1, 2)])
  refine ⟨by decide, hp, by decide, by decide, ?_⟩
  obtain ⟨m₁, m₂, h₁, h₂, hb, _⟩ := C22_order_independent lnTangent 2 (by decide) _ _ hp
  exact ⟨m₁, m₂, h₁, h₂, hb⟩

theorem incrementBackTime_counters (l : List QueryResult) :
    counters (incrementBackTime l).2 = counters l := by
  induction l with
  | nil => rfl
  | cons a rest ih =>
    cases rest with
    | nil => rfl
    | cons b rest' =>
      show a.response_counter :: counters (incrementBackTime (b :: rest')).2 = _
      rw [ih]
      rfl

theorem counters_append (l₁ l₂ : List QueryResult) :
    counters (l₁ ++ l₂) = counters l₁ ++ counters l₂ := List.map_append _ _ _

theorem counters_drop (n : Nat) (l : List QueryResult) :
    counters (l.drop n) = (counters l).drop n := List.map_drop _ _ _

theorem counters_length (l : List QueryResult) : (counters l).length = l.length :=
  List.length_map _ _

theorem recordRequest_nil (result_size : Nat) :
    counters (recordRequest [] result_size) = [(result_size : Int), (result_size : Int)] := by
  rfl

theorem recordRequest_counters (l : List QueryResult) (hne : l ≠ []) (result_size : Nat) :
    counters (recordRequest l result_size) =
      (counters l ++ [(result_size : Int)]).drop (if l.length = kMinutesInDay then 1 else 0) := by
  unfold recordRequest
  have hemp : l.isEmpty = false := by
    cases l with
    | nil => exact absurd rfl hne
    | cons a rest => rfl
  simp only [hemp, Bool.false_eq_true, if_false]
  by_cases hlen : l.length = kMinutesInDay
  · rw [if_neg (not_not.mpr hlen), if_pos hlen]
    cases hlast : l.getLast? with
    | none =>
      rw [List.getLast?_eq_none_iff] at hlast
      exact absurd hlast hne
    | some back =>
      dsimp only
      by_cases hb : back.time = (kMinutesInDay : Int)
      · rw [if_pos hb, counters_drop, counters_append]
        rfl
      · rw [if_neg hb, counters_drop, counters_append, incrementBackTime_counters]
        rfl
  · rw [if_pos hlen, if_neg hlen, counters_append, incrementBackTime_counters]
    rfl

theorem drop_append_drop (c : List Int) (x : Int) (r : List Int) (d e : Nat)
    (hd : d ≤ c.length) :
    ((c ++ [x]).drop d ++ r).drop e = (c ++ x :: r).drop (d + e) := by
  have h1 : (c ++ [x]).drop d ++ r = (c ++ x :: r).drop d := by
    rw [List.drop_append_of_le_length hd, List.drop_append_of_le_length hd]
    simp
  rw [h1, List.drop_drop, Nat.add_comm]

theorem recordRequest_nil_eq (result_size : Nat) :
    recordRequest [] result_size =
      [{ time := 2, response_counter := (result_size : Int) },
       { time := 2, response_counter := (result_size : Int) }] := rfl

theorem foldl_recordRequest_counters (sizes : List Nat) (l : List QueryResult) (hne : l ≠ [])
    (hlen : l.length ≤ kMinutesInDay) :
    counters (sizes.foldl recordRequest l) =
      (counters l ++ sizes.map Int.ofNat).drop
        (l.length + sizes.length - kMinutesInDay) := by
  induction sizes generalizing l with
  | nil =>
    have h0 : l.length + ([] : List Nat).length - kMinutesInDay = 0 := by
      rw [List.length_nil]
      omega
    rw [h0, List.map_nil, List.append_nil, List.drop_zero, List.foldl_nil]
  | cons sz rest ih =>
    have hpos : 0 < l.length := List.length_pos.mpr hne
    have hc := recordRequest_counters l hne sz
    generalize hd : (if l.length = kMinutesInDay then 1 else 0) = d at hc
    have hd1 : d ≤ 1 := by
      rw [← hd]
      split <;> omega
    have hd2 : l.length = kMinutesInDay → d = 1 := by
      intro h
      rw [← hd, if_pos h]
    have hd3 : l.length ≠ kMinutesInDay → d = 0 := by
      intro h
      rw [← hd, if_neg h]
    have hl : (recordRequest l sz).length = l.length + 1 - d := by
      rw [← counters_length, hc, List.length_drop, List.length_append, counters_length]
      rfl
    have hne' : recordRequest l sz ≠ [] := by
      intro h
      rw [h, List.length_nil] at hl
      omega
    have hlen' : (recordRequest l sz).length ≤ kMinutesInDay := by
      rw [hl]
      by_cases h : l.length = kMinutesInDay
      · have := hd2 h
        omega
      · omega
    have hfin : d + (l.length + 1 - d + rest.length - kMinutesInDay) =
        l.length + (rest.length + 1) - kMinutesInDay := by
      by_cases h : l.length = kMinutesInDay
      · have := hd2 h
        omega
      · have := hd3 h
        omega
    rw [List.foldl_cons, ih _ hne' hlen', hc, hl, List.map_cons,
      drop_append_drop _ _ _ _ _ (by rw [counters_length]; omega), hfin, List.length_cons]
    rfl

theorem serveRequests_eq {R : Type} (ar : DoubleOps R) (s : SearchServer R)
    (calls : List (Str × DocumentPredicate)) (requests_ : List QueryResult) :
    serveRequests ar s calls requests_ =
      (resultSizes ar s calls).foldl recordRequest requests_ := by
  induction calls generalizing requests_ with
  | nil => rfl
  | cons c rest ih =>
    obtain ⟨raw, pred⟩ := c
    rw [serveRequests, resultSizes, ih, AddFindRequest]
    cases FindTopDocuments ar s raw pred with
    | error e => rfl
    | ok result => rfl

theorem getNoResultRequests_eq (l : List QueryResult) :
    GetNoResultRequests l = (counters l).count 0 := by
  unfold GetNoResultRequests counters
  rw [List.count, List.countP_map]
  congr 1

/-- The history never holds more than `1440` records. -/
theorem serveRequests_length_le {R : Type} (ar : DoubleOps R) (s : SearchServer R)
    (calls : List (Str × DocumentPredicate)) :
    (serveRequests ar s calls []).length ≤ 1440 := by
  rw [serveRequests_eq]
  cases hsz : resultSizes ar s calls with
  | nil => simp
  | cons first rest =>
    have h2 : (recordRequest [] first).length = 2 := rfl
    have hk : kMinutesInDay = 1440 := rfl
    have hne : recordRequest [] first ≠ [] := by
      rw [recordRequest_nil_eq]
      exact List.cons_ne_nil _ _
    rw [List.foldl_cons, ← counters_length,
      foldl_recordRequest_counters rest _ hne (by rw [h2, hk]; omega), List.length_drop,
      List.length_append, List.length_map, counters_length, h2, hk]
    omega

/-- C23 (what the code does).  On a fresh `RequestQueue`, when the calls of
`AddFindRequest` that return have result sizes `first :: rest` and there are fewer
than `1440` of them, the history holds one record more than there were calls: the
first request is recorded twice, and `GetNoResultRequests()` counts it twice when
its result was empty. -/
theorem C23_first_request_recorded_twice {R : Type} (ar : DoubleOps R) (s : SearchServer R)
    (calls : List (Str × DocumentPredicate)) (first : Nat) (rest : List Nat)
    (hsizes : resultSizes ar s calls = first :: rest) (hn : rest.length + 1 < 1440) :
    counters (serveRequests ar s calls []) =
      (first : Int) :: (first : Int) :: rest.map Int.ofNat ∧
    (serveRequests ar s calls []).length = (first :: rest).length + 1 ∧
    GetNoResultRequests (serveRequests ar s calls []) =
      (first :: rest).count 0 + (if first = 0 then 1 else 0) := by
  have hk : kMinutesInDay = 1440 := rfl
  have hc : counters (serveRequests ar s calls []) =
      (first : Int) :: (first : Int) :: rest.map Int.ofNat := by
    have h2 : (recordRequest [] first).length = 2 := rfl
    have hne : recordRequest [] first ≠ [] := by
      rw [recordRequest_nil_eq]
      exact List.cons_ne_nil _ _
    have h0 : (recordRequest [] first).length + rest.length - kMinutesInDay = 0 := by
      rw [h2, hk]
      omega
    rw [serveRequests_eq, hsizes, List.foldl_cons,
      foldl_recordRequest_counters rest _ hne (by rw [h2, hk]; omega), recordRequest_nil, h0]
    rfl
  refine ⟨hc, ?_, ?_⟩
  · rw [← counters_length, hc, List.length_cons, List.length_cons, List.length_map,
      List.length_cons]
  · rw [getNoResultRequests_eq, hc]
    have hcount : ∀ l : List Nat, (l.map Int.ofNat).count 0 = l.count 0 := by
      intro l
      induction l with
      | nil => rfl
      | cons a t ih =>
        rw [List.map_cons, List.count_cons, List.count_cons, ih]
        cases a with
        | zero => rfl
        | succ k =>
          have h1 : (Int.ofNat (k + 1) == (0 : Int)) = false := by
            rw [beq_eq_false_iff_ne]
            exact fun h => absurd (Int.ofNat.inj h) (Nat.succ_ne_zero k)
          have h2 : (k + 1 == 0) = false := rfl
          rw [h1, h2]
    have h1 := hcount (first :: rest)
    rw [List.map_cons] at h1
    have h3 : ((first : Int) :: (first : Int) :: rest.map Int.ofNat).count 0 =
        (Int.ofNat first :: rest.map Int.ofNat).count 0 +
          (if (first : Int) = 0 then 1 else 0) := by
      rw [List.count_cons]
      simp only [beq_iff_eq]
      rfl
    rw [h3, h1]
    by_cases hf : first = 0
    · rw [if_pos hf, if_pos (by rw [hf]; rfl)]
    · rw [if_neg hf, if_neg (by exact_mod_cast hf)]

theorem C23_witness :
    resultSizes exampleOps exampleServer [("dog".toList, acceptAll)] = [0] ∧
    ([] : List Nat).length + 1 < 1440 ∧
    serveRequests exampleOps exampleServer [("dog".toList, acceptAll)] [] =
      [{ time := 2, response_counter := 0 }, { time := 2, response_counter := 0 }] ∧
    GetNoResultRequests
      (serveRequests exampleOps exampleServer [("dog".toList, acceptAll)] []) = 2 := by
  have h1 : resultSizes exampleOps exampleServer [("dog".toList, acceptAll)] = [0] := by
    decide
  have h2 : ([] : List Nat).length + 1 < 1440 := by decide
  refine ⟨h1, h2, by decide, ?_⟩
  exact (C23_first_request_recorded_twice exampleOps exampleServer
    [("dog".toList, acceptAll)] 0 [] h1 h2).2.2

theorem exampleTwoOne_reachable : Reachable exampleOps exampleTwoOne :=
  reachable_addDocument
    (reachable_addDocument (Reachable.create [] emptyServer rfl) 2 "dog".toList .ACTUAL [1]
      (by decide))
    1 "cat".toList .ACTUAL [1] (by decide)

/-- C24 (the code at the failing input).  After `AddDocument(2, "dog", ...)` and
`AddDocument(1, "cat", ...)` the id list is `[2, 1]`.  `RemoveDocument(1)` returns
normally: `lower_bound` ends at position `0`, where the id is `2`, so nothing is
erased from the id list.  The state is reachable, the ids enumerated are still
`[2, 1]`, the document table holds `2` only, and `MatchDocument` on the enumerated
id `1` throws `out_of_range`. -/
theorem C24_removed_id_still_enumerated :
    exampleTwoOne.document_ids_ = [2, 1] ∧
    OrdMap.keys exampleTwoOne.documents_ = [1, 2] ∧
    lower_bound exampleTwoOne.document_ids_ 1 = 0 ∧
    (RemoveDocument exampleTwoOne 1).1 = .ok () ∧
    Reachable exampleOps (RemoveDocument exampleTwoOne 1).2 ∧
    (RemoveDocument exampleTwoOne 1).2.document_ids_ = [2, 1] ∧
    OrdMap.keys (RemoveDocument exampleTwoOne 1).2.documents_ = [2] ∧
    MatchDocument (RemoveDocument exampleTwoOne 1).2 "cat".toList 1 = .error .out_of_range := by
  have hok : (RemoveDocument exampleTwoOne 1).1 = .ok () := by decide
  refine ⟨by decide, by decide, by decide, hok, ?_, by decide, by decide, by decide⟩
  exact Reachable.remove exampleTwoOne _ 1 exampleTwoOne_reachable (Prod.ext hok rfl)

/-- C25. In every reachable state (calls of `AddDocument` and `RemoveDocument` that
return normally) every document id listed under any word of the inverted index is a
key of the document table; `FindAllDocuments` returns for every query, and
`FindTopDocuments` either returns or throws `invalid_argument`, the latter exactly
when a token of the query is malformed. -/
theorem C25_listed_documents_stored {R : Type} (ar : DoubleOps R) (s : SearchServer R)
    (hs : Reachable ar s) :
    (∀ word freqs, OrdMap.find? s.word_to_document_freqs_ word = some freqs →
      ∀ id ∈ OrdMap.keys freqs, id ∈ OrdMap.keys s.documents_) ∧
    (∀ query document_predicate,
      ∃ matched, FindAllDocuments ar s query document_predicate = .ok matched) ∧
    (∀ raw_query document_predicate,
      ((¬ ∃ t ∈ SplitIntoWords raw_query, BadToken t) ∧
        ∃ result, FindTopDocuments ar s raw_query document_predicate = .ok result) ∨
      ((∃ t ∈ SplitIntoWords raw_query, BadToken t) ∧
        FindTopDocuments ar s raw_query document_predicate = .error .invalid_argument)) := by
  have hinv := inv_of_reachable hs
  refine ⟨?_, ?_, ?_⟩
  · intro word freqs hf id hid
    obtain ⟨e, he, rfl⟩ := List.mem_map.mp hid
    exact (OrdMap.find?_isSome_iff _ _).mp (hinv.listed _ (OrdMap.mem_of_find? hf) e he)
  · intro query pred
    obtain ⟨m, hm, _⟩ := findAllDocuments_spec ar s hinv query pred
    exact ⟨_, hm⟩
  · intro raw pred
    rcases parseQueryLoop_cases s (SplitIntoWords raw) { plus_words := [], minus_words := [] }
      with ⟨hb, herr⟩ | ⟨hg, hok⟩
    · right
      refine ⟨hb, ?_⟩
      have hp : ParseQuery s raw = .error .invalid_argument := herr
      rw [FindTopDocuments, hp]
    · left
      refine ⟨hg, ?_⟩
      obtain ⟨cands, _, htop⟩ := findTopDocuments_eq ar s hinv raw _ hok pred
      exact ⟨_, htop⟩

unseal Rat.add Rat.mul Rat.inv Rat.sub in
theorem C25_witness :
    Reachable exampleOps exampleServer ∧
    OrdMap.keys exampleServer.documents_ = [0, 1] ∧
    exampleServer.word_to_document_freqs_.map (fun p => (p.1, OrdMap.keys p.2)) =
      [("black".toList, [1]), ("cat".toList, [0, 1]), ("white".toList, [0])] ∧
    (∀ word freqs, OrdMap.find? exampleServer.word_to_document_freqs_ word = some freqs →
      ∀ id ∈ OrdMap.keys freqs, id ∈ OrdMap.keys exampleServer.documents_) ∧
    FindTopDocuments exampleOps exampleServer "white -black".toList acceptAll =
      .ok [{ id := 0, relevance := 1 / 2, rating := 2 }] ∧
    FindTopDocuments exampleOps exampleServer "white --black".toList acceptAll =
      .error .invalid_argument := by
  exact ⟨exampleServer_reachable, by decide, by decide,
    (C25_listed_documents_stored exampleOps exampleServer exampleServer_reachable).1,
    by decide, by decide⟩

theorem update_of_pos {R : Type} (m : ConcurrentMap R) (hn : 0 < m.split_map_in_vec_.length)
    (key : Int) (d : R) (f : R → R) :
    ∃ m', ConcurrentMap.update m key d f = .ok m' ∧
      m'.split_map_in_vec_.length = m.split_map_in_vec_.length := by
  rw [ConcurrentMap.update, if_neg (Nat.pos_iff_ne_zero.mp hn)]
  exact ⟨_, rfl, ConcurrentMap.length_modifyBucket _ _ _⟩

theorem accumulateWordPar_no_modulo {R : Type} (ar : DoubleOps R) (s : SearchServer R)
    (pred : DocumentPredicate) (idf : R) (pairs : List (Int × R)) (m : ConcurrentMap R)
    (hn : 0 < m.split_map_in_vec_.length) :
    accumulateWordPar ar s pred idf pairs m = .error .out_of_range ∨
    ∃ m', accumulateWordPar ar s pred idf pairs m = .ok m' ∧
      m'.split_map_in_vec_.length = m.split_map_in_vec_.length := by
  induction pairs generalizing m with
  | nil => exact Or.inr ⟨m, rfl, rfl⟩
  | cons e rest ih =>
    obtain ⟨id, tf⟩ := e
    rw [accumulateWordPar]
    cases hd : OrdMap.find? s.documents_ id with
    | none => exact Or.inl rfl
    | some data =>
      dsimp only
      by_cases hp : pred id data.status data.rating = true
      · rw [if_pos hp]
        obtain ⟨m₁, h₁, hl₁⟩ := update_of_pos m hn id ar.zero
          (fun v => ar.add v (ar.mul tf idf))
        rw [h₁]
        dsimp only
        rcases ih m₁ (by rw [hl₁]; exact hn) with h | ⟨m', h, hl⟩
        · exact Or.inl h
        · exact Or.inr ⟨m', h, by rw [hl, hl₁]⟩
      · rw [if_neg hp]
        exact ih m hn

theorem accumulatePlusPar_no_modulo {R : Type} (ar : DoubleOps R) (s : SearchServer R)
    (schedule : List (Int × R) → List (Int × R)) (pred : DocumentPredicate) (words : List Str)
    (m : ConcurrentMap R)
    (hlen : m.split_map_in_vec_.length = s.word_to_document_freqs_.length) :
    accumulatePlusPar ar s schedule pred words m ≠ .error .modulo_by_zero := by
  induction words generalizing m with
  | nil =>
    rw [accumulatePlusPar]
    exact fun h => Except.noConfusion h
  | cons w rest ih =>
    rw [accumulatePlusPar]
    cases hw : OrdMap.find? s.word_to_document_freqs_ w with
    | none => exact ih m hlen
    | some freqs =>
      dsimp only
      have hpos : 0 < m.split_map_in_vec_.length := by
        rw [hlen]
        exact List.length_pos_of_mem (OrdMap.mem_of_find? hw)
      have hidf : ComputeWordInverseDocumentFreq ar s w =
          .ok (ar.log (ar.div (ar.mul (ar.ofNat (GetDocumentCount s)) ar.one)
            (ar.ofNat freqs.length))) := by
        rw [ComputeWordInverseDocumentFreq, hw]
      rw [hidf]
      dsimp only
      rcases accumulateWordPar_no_modulo ar s pred _ (schedule freqs) m hpos
        with h | ⟨m', h, hl⟩
      · rw [h]
        exact fun h => nomatch h
      · rw [h]
        exact ih m' (by rw [hl, hlen])

theorem accumulatePlusPar_of_empty {R : Type} (ar : DoubleOps R) (s : SearchServer R)
    (hempty : s.word_to_document_freqs_ = [])
    (schedule : List (Int × R) → List (Int × R)) (pred : DocumentPredicate) (words : List Str)
    (m : ConcurrentMap R) :
    accumulatePlusPar ar s schedule pred words m = .ok m := by
  induction words with
  | nil => rfl
  | cons w rest ih =>
    rw [accumulatePlusPar]
    have hw : OrdMap.find? s.word_to_document_freqs_ w = none := by
      rw [hempty]
      rfl
    rw [hw]
    exact ih

theorem eraseMinus_of_empty {R : Type} (s : SearchServer R)
    (hempty : s.word_to_document_freqs_ = []) (words : List Str) (m : OrdMap Int R) :
    eraseMinus s words m = m := by
  induction words with
  | nil => rfl
  | cons w rest ih =>
    rw [eraseMinus]
    have hw : OrdMap.find? s.word_to_document_freqs_ w = none := by
      rw [hempty]
      rfl
    rw [hw]
    exact ih

/-- C26. The accumulator of the parallel `FindAllDocuments` has as many buckets as
the index has keys.  In a reachable state, for every order in which the workers
update it and every query: the call returns; from an accumulator of that size no
update through `operator[]` takes a remainder by zero; where a plus-word is found
in the index (the only place `operator[]` is called) the bucket count is at least
`1` and the bucket index of every id is below it; and with an empty index the call
returns the empty result. -/
theorem C26_bucket_count_positive {R : Type} (ar : DoubleOps R) (s : SearchServer R)
    (hs : Reachable ar s) (schedule : List (Int × R) → List (Int × R))
    (hsched : ∀ l, (schedule l).Perm l) (query : Query)
    (document_predicate : DocumentPredicate) :
    (∃ matched, FindAllDocumentsPar ar s schedule query document_predicate = .ok matched) ∧
    (∀ words m, m.split_map_in_vec_.length = s.word_to_document_freqs_.length →
      accumulatePlusPar ar s schedule document_predicate words m ≠ .error .modulo_by_zero) ∧
    (∀ word ∈ query.plus_words, ∀ freqs,
      OrdMap.find? s.word_to_document_freqs_ word = some freqs →
      1 ≤ (ConcurrentMap.create s.word_to_document_freqs_.length :
            ConcurrentMap R).split_map_in_vec_.length ∧
      ∀ e ∈ freqs, ConcurrentMap.bucketIndex e.1 s.word_to_document_freqs_.length <
        s.word_to_document_freqs_.length) ∧
    (s.word_to_document_freqs_ = [] →
      FindAllDocumentsPar ar s schedule query document_predicate = .ok []) := by
  have hinv := inv_of_reachable hs
  refine ⟨?_, ?_, ?_, ?_⟩
  · rw [findAllDocumentsPar_eq ar s hinv schedule hsched query document_predicate]
    obtain ⟨m, hm, _⟩ := findAllDocuments_spec ar s hinv query document_predicate
    exact ⟨_, hm⟩
  · intro words m hlen
    exact accumulatePlusPar_no_modulo ar s schedule document_predicate words m hlen
  · intro word _ freqs hw
    have hpos : 0 < s.word_to_document_freqs_.length :=
      List.length_pos_of_mem (OrdMap.mem_of_find? hw)
    refine ⟨?_, fun e _ => ConcurrentMap.bucketIndex_lt e.1 hpos⟩
    show 1 ≤ (List.replicate s.word_to_document_freqs_.length
      ([] : OrdMap Int R)).length
    rw [List.length_replicate]
    exact hpos
  · intro hempty
    rw [FindAllDocumentsPar, accumulatePlusPar_of_empty ar s hempty]
    dsimp only
    rw [eraseMinus_of_empty s hempty, hempty]
    rfl

unseal Rat.add Rat.mul Rat.inv Rat.sub in
theorem C26_witness :
    Reachable exampleOps exampleServer ∧
    (∀ l : List (Int × ℚ), (l.reverse).Perm l) ∧
    exampleServer.word_to_document_freqs_.length = 3 ∧
    FindAllDocumentsPar exampleOps exampleServer List.reverse
        { plus_words := ["white".toList, "cat".toList], minus_words := [] } acceptAll =
      .ok [{ id := 0, relevance := 1 / 2, rating := 2 },
           { id := 1, relevance := 0, rating := 5 }] ∧
    FindAllDocumentsPar exampleOps emptyServer List.reverse
        { plus_words := ["white".toList, "cat".toList], minus_words := [] } acceptAll = .ok [] ∧
    ∃ matched, FindAllDocumentsPar exampleOps exampleServer List.reverse
        { plus_words := ["white".toList, "cat".toList], minus_words := [] } acceptAll =
      .ok matched := by
  exact ⟨exampleServer_reachable, List.reverse_perm, by decide, by decide, by decide,
    (C26_bucket_count_positive exampleOps exampleServer exampleServer_reachable List.reverse
      List.reverse_perm { plus_words := ["white".toList, "cat".toList], minus_words := [] }
      acceptAll).1⟩

/-! ## The contract of `std::sort` -/

section Contract

variable {α : Type}

theorem StrictWeakOn.of_subset {comp : α → α → Bool} {l l' : List α}
    (h : StrictWeakOn comp l) (hsub : ∀ a ∈ l', a ∈ l) : StrictWeakOn comp l' :=
  ⟨fun a ha => h.1 a (hsub a ha),
   fun a ha b hb c hc => h.2.1 a (hsub a ha) b (hsub b hb) c (hsub c hc),
   fun a ha b hb c hc => h.2.2 a (hsub a ha) b (hsub b hb) c (hsub c hc)⟩

/-- Under a strict weak ordering, nothing goes before itself in both directions. -/
theorem StrictWeakOn.asymm {comp : α → α → Bool} {l : List α} (h : StrictWeakOn comp l)
    {a b : α} (ha : a ∈ l) (hb : b ∈ l) (hab : comp a b = true) : comp b a = false := by
  by_contra hba
  have := h.2.1 a ha b hb a ha hab (by simpa using hba)
  rw [h.1 a ha] at this
  cases this

/-- Under a strict weak ordering, "does not go before" is transitive. -/
theorem StrictWeakOn.not_before_trans {comp : α → α → Bool} {l : List α}
    (h : StrictWeakOn comp l) {a b c : α} (ha : a ∈ l) (hb : b ∈ l) (hc : c ∈ l)
    (hba : comp b a = false) (hcb : comp c b = false) : comp c a = false := by
  by_contra hca
  have hca' : comp c a = true := by simpa using hca
  have hbc : comp b c = false := by
    by_contra hbc
    have := h.2.1 b hb c hc a ha (by simpa using hbc) hca'
    rw [hba] at this
    cases this
  have hab : comp a b = false := by
    by_contra hab
    have := h.2.1 c hc a ha b hb hca' (by simpa using hab)
    rw [hcb] at this
    cases this
  have := (h.2.2 a ha b hb c hc hab hba hbc hcb).2
  rw [hca'] at this
  cases this

theorem sortInsert_pairwise (comp : α → α → Bool) (x : α) (l : List α)
    (hswo : StrictWeakOn comp (x :: l))
    (h : l.Pairwise (fun a b => comp b a = false)) :
    (sortInsert comp x l).Pairwise (fun a b => comp b a = false) := by
  induction l with
  | nil => exact List.pairwise_singleton _ x
  | cons y rest ih =>
    have hx : x ∈ x :: y :: rest := List.mem_cons_self _ _
    have hy : y ∈ x :: y :: rest := List.mem_cons_of_mem _ (List.mem_cons_self _ _)
    have hmem : ∀ z ∈ rest, z ∈ x :: y :: rest := fun z hz =>
      List.mem_cons_of_mem _ (List.mem_cons_of_mem _ hz)
    obtain ⟨hyrest, hrest⟩ := List.pairwise_cons.mp h
    by_cases hyx : comp y x = true
    · rw [sortInsert, if_pos hyx]
      have hsub : StrictWeakOn comp (x :: rest) := hswo.of_subset (by
        intro a ha
        rcases List.mem_cons.mp ha with rfl | ha
        · exact hx
        · exact hmem a ha)
      refine List.pairwise_cons.mpr ⟨?_, ih hsub hrest⟩
      intro z hz
      rcases List.mem_cons.mp ((sortInsert_perm comp x rest).mem_iff.mp hz) with rfl | hz
      · exact hswo.asymm hy hx hyx
      · exact hyrest z hz
    · rw [sortInsert, if_neg hyx]
      have hyx' : comp y x = false := by simpa using hyx
      refine List.pairwise_cons.mpr ⟨?_, h⟩
      intro z hz
      rcases List.mem_cons.mp hz with rfl | hz
      · exact hyx'
      · exact hswo.not_before_trans hx hy (hmem z hz) hyx' (hyrest z hz)

theorem sort_pairwise (comp : α → α → Bool) (l : List α) (hswo : StrictWeakOn comp l) :
    (sort comp l).Pairwise (fun a b => comp b a = false) := by
  induction l with
  | nil => exact List.Pairwise.nil
  | cons x rest ih =>
    rw [sort]
    have hrest : StrictWeakOn comp rest := hswo.of_subset fun a ha => List.mem_cons_of_mem _ ha
    refine sortInsert_pairwise comp x _ (hswo.of_subset ?_) (ih hrest)
    intro a ha
    rcases List.mem_cons.mp ha with rfl | ha
    · exact List.mem_cons_self _ _
    · exact List.mem_cons_of_mem _ ((sort_perm comp rest).mem_iff.mp ha)

/-- Insertion sort meets the contract of `std::sort`. -/
theorem sort_meets_contract : SortContract (sort : (α → α → Bool) → List α → List α) :=
  fun comp l => ⟨sort_perm comp l, sort_pairwise comp l⟩

end Contract

section TopBy

variable {R : Type}

theorem sortAndCutBy_eq (ar : DoubleOps R)
    (sorter : (Document R → Document R → Bool) → List (Document R) → List (Document R))
    (hperm : ∀ comp l, (sorter comp l).Perm l) (cands : List (Document R)) :
    sortAndCutBy sorter ar cands =
      (sorter (compareDocuments ar) cands).take (min MAX_RESULT_DOCUMENT_COUNT cands.length) := by
  have hlen : (sorter (compareDocuments ar) cands).length = cands.length :=
    (hperm _ _).length_eq
  unfold sortAndCutBy
  dsimp only
  by_cases h : (sorter (compareDocuments ar) cands).length > MAX_RESULT_DOCUMENT_COUNT
  · rw [if_pos h, Nat.min_eq_left (by rw [← hlen]; exact Nat.le_of_lt h)]
  · rw [if_neg h, Nat.min_eq_right (by rw [← hlen]; exact Nat.le_of_not_lt h), ← hlen,
      List.take_length]

theorem findTopDocumentsBy_eq (ar : DoubleOps R)
    (sorter : (Document R → Document R → Bool) → List (Document R) → List (Document R))
    (s : SearchServer R) (hs : Inv s) (raw : Str)
    (query : Query) (hq : ParseQuery s raw = .ok query) (pred : DocumentPredicate) :
    ∃ cands, FindAllDocuments ar s query pred = .ok cands ∧
      FindTopDocumentsBy ar sorter s raw pred = .ok (sortAndCutBy sorter ar cands) := by
  obtain ⟨m, hm, _⟩ := findAllDocuments_spec ar s hs query pred
  refine ⟨_, hm, ?_⟩
  rw [FindTopDocumentsBy, hq]
  simp only [hm]

/-- The sequential `FindTopDocuments` is `FindTopDocumentsBy` at insertion sort. -/
theorem findTopDocumentsBy_sort (ar : DoubleOps R) (s : SearchServer R) (raw : Str)
    (pred : DocumentPredicate) :
    FindTopDocumentsBy ar sort s raw pred = FindTopDocuments ar s raw pred := rfl

end TopBy

/-! ## Claims on the order of the results -/

/-- C13. In a reachable state, after an `AddDocument(id, ...)` that returns normally,
`RemoveDocument(id)` returns normally and yields a state with the document table,
hence the document count, of before, and with the word-to-document mappings of
before: every word lists the same documents, with the same term frequencies, so
`GetWordFrequencies` and `FindAllDocuments` return what they returned before.  (In
the map itself a word that was a key has the per-document map it had, and a word of
the document that was not a key stays as a key with the empty map, which lists no
document.) -/
theorem C13_round_trip {R : Type} (ar : DoubleOps R) (s : SearchServer R)
    (hs : Reachable ar s) (document_id : Int) (document : Str) (status : DocumentStatus)
    (ratings : List Int) (s₁ : SearchServer R)
    (hadd : AddDocument ar s document_id document status ratings = (.ok (), s₁)) :
    ∃ s₂, RemoveDocument s₁ document_id = (.ok (), s₂) ∧
      s₂.documents_ = s.documents_ ∧
      GetDocumentCount s₂ = GetDocumentCount s ∧
      (∀ w x, Listed s₂ w x ↔ Listed s w x) ∧
      (∀ w x, storedFreq s₂.word_to_document_freqs_ x w =
        storedFreq s.word_to_document_freqs_ x w) ∧
      (∀ x, GetWordFrequencies s₂ x = GetWordFrequencies s x) ∧
      (∀ query document_predicate,
        FindAllDocuments ar s₂ query document_predicate =
          FindAllDocuments ar s query document_predicate) ∧
      (∀ w freqs, OrdMap.find? s.word_to_document_freqs_ w = some freqs →
        OrdMap.find? s₂.word_to_document_freqs_ w = some freqs) ∧
      ∃ words, SplitIntoWordsNoStop s document = .ok words ∧
        ∀ w, OrdMap.find? s.word_to_document_freqs_ w = none →
          OrdMap.find? s₂.word_to_document_freqs_ w = if w ∈ words then some [] else none := by
  obtain ⟨s₂, words, hrem, hsplit, hdocs, hfind⟩ :=
    add_then_remove_index ar s hs document_id document status ratings s₁ hadd
  have hs₂ : Reachable ar s₂ :=
    Reachable.remove s₁ s₂ document_id
      (Reachable.add s s₁ document_id document status ratings hs hadd) hrem
  have hcount : GetDocumentCount s₂ = GetDocumentCount s := by
    rw [GetDocumentCount, hdocs]
    rfl
  have hlisted : ∀ w x, Listed s₂ w x ↔ Listed s w x := by
    intro w x
    unfold Listed
    rw [hfind w]
    cases hw : OrdMap.find? s.word_to_document_freqs_ w with
    | some freqs => rfl
    | none =>
      by_cases hmem : w ∈ words
      · simp [hmem, OrdMap.keys]
      · simp [hmem]
  have hfreq : ∀ w x, storedFreq s₂.word_to_document_freqs_ x w =
      storedFreq s.word_to_document_freqs_ x w := by
    intro w x
    unfold storedFreq
    rw [hfind w]
    cases hw : OrdMap.find? s.word_to_document_freqs_ w with
    | some freqs => rfl
    | none =>
      by_cases hmem : w ∈ words
      · rw [if_pos hmem]
        rfl
      · rw [if_neg hmem]
  have hcontr : ∀ pred w x, contribution ar s₂ pred w x = contribution ar s pred w x := by
    intro pred w x
    unfold contribution
    rw [hfind w]
    cases hw : OrdMap.find? s.word_to_document_freqs_ w with
    | some freqs =>
      dsimp only
      rw [hcount]
      unfold pairsContribution
      rw [hdocs]
    | none =>
      by_cases hmem : w ∈ words
      · rw [if_pos hmem]
        rfl
      · rw [if_neg hmem]
  refine ⟨s₂, hrem, hdocs, hcount, hlisted, hfreq, ?_, ?_, ?_, words, hsplit, ?_⟩
  · intro x
    obtain ⟨hsort₂, hf₂⟩ := getWordFrequencies_spec s₂ x (index_keys_nodup_of_reachable hs₂)
    obtain ⟨hsort, hf⟩ := getWordFrequencies_spec s x (index_keys_nodup_of_reachable hs)
    exact OrdMap.ext_of_sorted hsort₂ hsort (fun w => by rw [hf₂ w, hf w, hfreq w x])
  · intro query pred
    obtain ⟨m₂, hm₂, hsorted₂, _, hspec₂⟩ :=
      findAllDocuments_spec ar s₂ (inv_of_reachable hs₂) query pred
    obtain ⟨m, hm, hsorted, _, hspec⟩ :=
      findAllDocuments_spec ar s (inv_of_reachable hs) query pred
    have hmm : m₂ = m := by
      refine OrdMap.ext_of_sorted hsorted₂ hsorted (fun x => ?_)
      by_cases hminus : ∃ w ∈ query.minus_words, Listed s w x
      · have hminus₂ : ∃ w ∈ query.minus_words, Listed s₂ w x := by
          obtain ⟨w, hw, hl⟩ := hminus
          exact ⟨w, hw, (hlisted w x).mpr hl⟩
        rw [(hspec₂ x).1 hminus₂, (hspec x).1 hminus]
      · have hminus₂ : ¬ ∃ w ∈ query.minus_words, Listed s₂ w x := by
          rintro ⟨w, hw, hl⟩
          exact hminus ⟨w, hw, (hlisted w x).mp hl⟩
        rw [(hspec₂ x).2 hminus₂, (hspec x).2 hminus]
        simp only [hcontr]
    have hdoc : ∀ e : Int × R, toDocument s₂ e = toDocument s e := by
      intro e
      unfold toDocument storedRating
      rw [hdocs]
    rw [hm₂, hm, hmm]
    congr 1
    exact List.map_congr_left (fun e _ => hdoc e)
  · intro w freqs hw
    rw [hfind w, hw]
  · intro w hw
    rw [hfind w, hw]

unseal Rat.add Rat.mul Rat.inv Rat.sub in
theorem C13_witness :
    Reachable exampleOps exampleOne ∧
    AddDocument exampleOps exampleOne 1 "black cat".toList .ACTUAL [5, 5] =
      (.ok (), exampleServer) ∧
    (RemoveDocument exampleServer 1).2.word_to_document_freqs_ =
      [("black".toList, []), ("cat".toList, [(0, 1 / 2)]), ("white".toList, [(0, 1 / 2)])] ∧
    exampleOne.word_to_document_freqs_ =
      [("cat".toList, [(0, 1 / 2)]), ("white".toList, [(0, 1 / 2)])] ∧
    ∃ s₂, RemoveDocument exampleServer 1 = (.ok (), s₂) ∧
      s₂.documents_ = exampleOne.documents_ ∧
      GetDocumentCount s₂ = GetDocumentCount exampleOne ∧
      (∀ w x, Listed s₂ w x ↔ Listed exampleOne w x) ∧
      ∀ x, GetWordFrequencies s₂ x = GetWordFrequencies exampleOne x := by
  have hadd : AddDocument exampleOps exampleOne 1 "black cat".toList .ACTUAL [5, 5] =
      (.ok (), exampleServer) := Prod.ext (by decide) rfl
  obtain ⟨s₂, h₁, h₂, h₃, h₄, _, h₅, _⟩ :=
    C13_round_trip exampleOps exampleOne exampleOne_reachable 1 "black cat".toList
      .ACTUAL [5, 5] exampleServer hadd
  exact ⟨exampleOne_reachable, hadd, by decide, by decide, s₂, h₁, h₂, h₃, h₄, h₅⟩

/-! ## The case of inverse document frequency zero -/

/-- On documents of relevance `0` the comparison of `FindTopDocuments` is the
comparison of the ratings, a strict weak ordering. -/
theorem strictWeakOn_of_relevance_zero {R : Type} (ar : DoubleOps R)
    (hclose : ar.lt (ar.abs (ar.sub ar.zero ar.zero)) ar.eps = true)
    (cands : List (Document R)) (hzero : ∀ d ∈ cands, d.relevance = ar.zero) :
    (∀ a ∈ cands, ∀ b ∈ cands, compareDocuments ar a b = decide (a.rating > b.rating)) ∧
    StrictWeakOn (compareDocuments ar) cands := by
  have hcomp : ∀ a ∈ cands, ∀ b ∈ cands,
      compareDocuments ar a b = decide (a.rating > b.rating) := by
    intro a ha b hb
    unfold compareDocuments
    rw [hzero a ha, hzero b hb, if_pos hclose]
  refine ⟨hcomp, ?_, ?_, ?_⟩
  · intro a ha
    rw [hcomp a ha a ha]
    exact decide_eq_false (lt_irrefl _)
  · intro a ha b hb c hc hab hbc
    rw [hcomp a ha b hb] at hab
    rw [hcomp b hb c hc] at hbc
    rw [hcomp a ha c hc]
    have h₁ := of_decide_eq_true hab
    have h₂ := of_decide_eq_true hbc
    exact decide_eq_true (by omega)
  · intro a ha b hb c hc hab hba hbc hcb
    rw [hcomp a ha b hb] at hab
    rw [hcomp b hb a ha] at hba
    rw [hcomp b hb c hc] at hbc
    rw [hcomp c hc b hb] at hcb
    rw [hcomp a ha c hc, hcomp c hc a ha]
    have h₁ := of_decide_eq_false hab
    have h₂ := of_decide_eq_false hba
    have h₃ := of_decide_eq_false hbc
    have h₄ := of_decide_eq_false hcb
    exact ⟨decide_eq_false (by omega), decide_eq_false (by omega)⟩

unseal Rat.add Rat.mul Rat.inv Rat.sub in
/-- The second example of C19: stop words "a" and "the", document `0`
"a cat sat on the mat" rated `{5}`, query "cat mat": the one result is document `0`
with rating `5` and relevance `0`. -/
theorem findTopDocuments_cat_mat :
    create ["a".toList, "the".toList] =
      .ok (internStopWords ["a".toList, "the".toList] (emptyServer : SearchServer ℚ)) ∧
    (AddDocument exampleOps (internStopWords ["a".toList, "the".toList] emptyServer) 0
      "a cat sat on the mat".toList .ACTUAL [5]).1 = .ok () ∧
    FindTopDocuments exampleOps matServer "cat mat".toList acceptAll =
      .ok [{ id := 0, relevance := 0, rating := 5 }] := by
  refine ⟨?_, by decide, by decide⟩
  unfold create
  rw [if_neg (by decide)]

/-- C19. In a reachable state, for a query that parses and in which every plus-word
that is an index key lists every stored document, and with every function that
meets the contract of `std::sort`: the candidates are the documents that pass the
predicate, are listed under a plus-word and under no minus-word (none is dropped),
each with relevance exactly `0` and its stored rating; `FindTopDocuments` returns
`min(5, n)` of the `n` candidates, all of them when `n ≤ 5`, each with relevance
`0`, every result with a rating at least that of every later one.  The arithmetic
is assumed to satisfy `x * 1 = x`, `n / n = 1` for `n > 0`, `log 1 = 0`,
`0 + 0 = 0`, `|0 - 0| < 1e-6`, and `tf * 0 = 0` for the term frequencies `tf`
stored under the plus-words.  In the two examples of the specification the results
are document `1` (rating `5`) then document `0` (rating `2`), and document `0`
(rating `5`), all with relevance `0`. -/
theorem C19_idf_zero {R : Type} (ar : DoubleOps R)
    (hone : ∀ x, ar.mul x ar.one = x)
    (hdiv : ∀ n, 0 < n → ar.div (ar.ofNat n) (ar.ofNat n) = ar.one)
    (hlog : ar.log ar.one = ar.zero)
    (hadd : ar.add ar.zero ar.zero = ar.zero)
    (hclose : ar.lt (ar.abs (ar.sub ar.zero ar.zero)) ar.eps = true)
    (sorter : (Document R → Document R → Bool) → List (Document R) → List (Document R))
    (hsorter : SortContract sorter)
    (s : SearchServer R) (hs : Reachable ar s) (raw_query : Str) (query : Query)
    (hq : ParseQuery s raw_query = .ok query) (document_predicate : DocumentPredicate)
    (hmul : ∀ w ∈ query.plus_words, ∀ freqs,
      OrdMap.find? s.word_to_document_freqs_ w = some freqs →
      ∀ e ∈ freqs, ar.mul e.2 ar.zero = ar.zero)
    (hall : ∀ w ∈ query.plus_words, ∀ freqs,
      OrdMap.find? s.word_to_document_freqs_ w = some freqs →
      ∀ id, (OrdMap.find? s.documents_ id).isSome = true → id ∈ OrdMap.keys freqs) :
    (∃ cands result,
      FindAllDocuments ar s query document_predicate = .ok cands ∧
      FindTopDocumentsBy ar sorter s raw_query document_predicate = .ok result ∧
      (cands.map (fun doc => doc.id)).Nodup ∧
      (∀ x, x ∈ cands.map (fun doc => doc.id) ↔
        ((∃ w ∈ query.plus_words, Listed s w x ∧ Passes s document_predicate x) ∧
          ¬ ∃ w ∈ query.minus_words, Listed s w x)) ∧
      (∀ d ∈ cands, d.relevance = ar.zero ∧ d.rating = storedRating s d.id) ∧
      result = (sorter (compareDocuments ar) cands).take (min 5 cands.length) ∧
      result.length = min 5 cands.length ∧
      (∀ d ∈ result, d ∈ cands ∧ d.relevance = ar.zero) ∧
      (cands.length ≤ 5 → result.Perm cands) ∧
      result.Pairwise (fun a b => a.rating ≥ b.rating)) ∧
    FindTopDocuments exampleOps exampleServer "cat".toList acceptAll =
      .ok [{ id := 1, relevance := 0, rating := 5 }, { id := 0, relevance := 0, rating := 2 }] ∧
    FindTopDocuments exampleOps matServer "cat mat".toList acceptAll =
      .ok [{ id := 0, relevance := 0, rating := 5 }] := by
  refine ⟨?_, findTopDocuments_cat, findTopDocuments_cat_mat.2.2⟩
  have hinv := inv_of_reachable hs
  obtain ⟨cands, hc, htop⟩ :=
    findTopDocumentsBy_eq ar sorter s hinv raw_query query hq document_predicate
  obtain ⟨cands₁, hc₁, hnodup, hmem⟩ := findAllDocuments_mem ar s hinv query document_predicate
  obtain ⟨m, hm, hsorted, _, hf⟩ := findAllDocuments_spec ar s hinv query document_predicate
  have hcands₁ : cands₁ = cands := by
    rw [hc] at hc₁
    exact (Except.ok.inj hc₁).symm
  have hcands : cands = m.map (toDocument s) := by
    rw [hc] at hm
    exact Except.ok.inj hm
  rw [hcands₁] at hnodup hmem
  have hzero : ∀ d ∈ cands, d.relevance = ar.zero ∧ d.rating = storedRating s d.id := by
    intro d hd
    rw [hcands] at hd
    obtain ⟨e, he, rfl⟩ := List.mem_map.mp hd
    refine ⟨?_, rfl⟩
    have hfind : OrdMap.find? m e.1 = some e.2 := OrdMap.find?_of_mem hsorted.nodup he
    have hminus : ¬ ∃ w ∈ query.minus_words, Listed s w e.1 := by
      intro h
      rw [(hf e.1).1 h] at hfind
      cases hfind
    rw [(hf e.1).2 hminus] at hfind
    rcases foldl_accStep_zero ar hadd (fun w => contribution ar s document_predicate w e.1)
      query.plus_words
      (fun w hw => contribution_zero ar hone hdiv hlog s hs document_predicate w
        (hmul w hw) (hall w hw) e.1) none (Or.inl rfl) with h | h
    · rw [h] at hfind
      cases hfind
    · rw [h] at hfind
      exact (Option.some.inj hfind).symm
  obtain ⟨hcomp, hswo⟩ := strictWeakOn_of_relevance_zero ar hclose cands
    (fun d hd => (hzero d hd).1)
  have hperm := (hsorter (compareDocuments ar) cands).1
  have hpair : (sorter (compareDocuments ar) cands).Pairwise
      (fun a b => a.rating ≥ b.rating) := by
    have hboth : (sorter (compareDocuments ar) cands).Pairwise
        (fun a b => (a ∈ cands ∧ b ∈ cands) ∧ compareDocuments ar b a = false) :=
      List.Pairwise.and (List.pairwise_of_forall_mem_list
        (fun a ha b hb => ⟨hperm.mem_iff.mp ha, hperm.mem_iff.mp hb⟩))
        ((hsorter (compareDocuments ar) cands).2 hswo)
    refine hboth.imp fun {a b} h => ?_
    have hba := h.2
    rw [hcomp b h.1.2 a h.1.1] at hba
    have := of_decide_eq_false hba
    omega
  have hres := sortAndCutBy_eq ar sorter (fun comp l => (hsorter comp l).1) cands
  have hk : MAX_RESULT_DOCUMENT_COUNT = 5 := rfl
  rw [hk] at hres
  refine ⟨cands, _, hc, htop, hnodup, hmem, hzero, hres, ?_, ?_, ?_, ?_⟩
  · rw [hres, List.length_take, hperm.length_eq]
    omega
  · intro d hd
    rw [hres] at hd
    have hdc := hperm.mem_iff.mp (List.mem_of_mem_take hd)
    exact ⟨hdc, (hzero d hdc).1⟩
  · intro hle
    have h5 : min 5 cands.length = cands.length := by omega
    rw [hres, h5, List.take_of_length_le (le_of_eq hperm.length_eq)]
    exact hperm
  · rw [hres]
    exact hpair.sublist (List.take_sublist _ _)

theorem C19_witness :
    (∀ x, exampleOps.mul x exampleOps.one = x) ∧
    (∀ n, 0 < n → exampleOps.div (exampleOps.ofNat n) (exampleOps.ofNat n) = exampleOps.one) ∧
    exampleOps.log exampleOps.one = exampleOps.zero ∧
    exampleOps.add exampleOps.zero exampleOps.zero = exampleOps.zero ∧
    exampleOps.lt (exampleOps.abs (exampleOps.sub exampleOps.zero exampleOps.zero))
      exampleOps.eps = true ∧
    SortContract (sort : (Document ℚ → Document ℚ → Bool) → _ → _) ∧
    Reachable exampleOps exampleServer ∧
    ParseQuery exampleServer "cat".toList =
      .ok { plus_words := ["cat".toList], minus_words := [] } ∧
    (∀ w ∈ ["cat".toList], ∀ freqs,
      OrdMap.find? exampleServer.word_to_document_freqs_ w = some freqs →
      ∀ e ∈ freqs, exampleOps.mul e.2 exampleOps.zero = exampleOps.zero) ∧
    (∀ w ∈ ["cat".toList], ∀ freqs,
      OrdMap.find? exampleServer.word_to_document_freqs_ w = some freqs →
      ∀ id, (OrdMap.find? exampleServer.documents_ id).isSome = true →
        id ∈ OrdMap.keys freqs) ∧
    FindTopDocumentsBy exampleOps sort exampleServer "cat".toList acceptAll =
      .ok [{ id := 1, relevance := 0, rating := 5 }, { id := 0, relevance := 0, rating := 2 }] ∧
    ∃ cands result,
      FindAllDocuments exampleOps exampleServer
        { plus_words := ["cat".toList], minus_words := [] } acceptAll = .ok cands ∧
      FindTopDocumentsBy exampleOps sort exampleServer "cat".toList acceptAll = .ok result ∧
      result.length = min 5 cands.length ∧
      (∀ d ∈ result, d ∈ cands ∧ d.relevance = exampleOps.zero) ∧
      result.Pairwise (fun a b => a.rating ≥ b.rating) := by
  have h1 : ∀ x, exampleOps.mul x exampleOps.one = x := exampleOps_mul_one
  have h2 : ∀ n, 0 < n →
      exampleOps.div (exampleOps.ofNat n) (exampleOps.ofNat n) = exampleOps.one := by
    intro n hn
    show (n : ℚ) / (n : ℚ) = 1
    exact div_self (by exact_mod_cast hn.ne')
  have h3 : exampleOps.log exampleOps.one = exampleOps.zero := by
    show lnTangent 1 = 0
    unfold lnTangent
    norm_num
  have h5 : exampleOps.add exampleOps.zero exampleOps.zero = exampleOps.zero := add_zero 0
  have h6 : exampleOps.lt (exampleOps.abs (exampleOps.sub exampleOps.zero exampleOps.zero))
      exampleOps.eps = true := by
    show decide (|(0 : ℚ) - 0| < 1 / 1000000) = true
    rw [sub_self, abs_zero]
    exact decide_eq_true (by norm_num)
  have h4 : ∀ w ∈ ["cat".toList], ∀ freqs,
      OrdMap.find? exampleServer.word_to_document_freqs_ w = some freqs →
      ∀ e ∈ freqs, exampleOps.mul e.2 exampleOps.zero = exampleOps.zero :=
    fun _ _ _ _ e _ => mul_zero e.2
  have h7 : ∀ w ∈ ["cat".toList], ∀ freqs,
      OrdMap.find? exampleServer.word_to_document_freqs_ w = some freqs →
      ∀ id, (OrdMap.find? exampleServer.documents_ id).isSome = true →
        id ∈ OrdMap.keys freqs := by
    intro w hw freqs hf id hid
    rw [List.mem_singleton.mp hw] at hf
    have hkeys : (OrdMap.find? exampleServer.word_to_document_freqs_ "cat".toList).map
        OrdMap.keys = some [0, 1] := by decide
    rw [hf] at hkeys
    rw [Option.some.inj hkeys]
    have hdocs : OrdMap.keys exampleServer.documents_ = [0, 1] := by decide
    rw [← hdocs]
    exact (OrdMap.find?_isSome_iff _ _).mp hid
  have hq : ParseQuery exampleServer "cat".toList =
      .ok { plus_words := ["cat".toList], minus_words := [] } := by decide
  refine ⟨h1, h2, h3, h5, h6, sort_meets_contract, exampleServer_reachable, hq, h4, h7,
    findTopDocuments_cat, ?_⟩
  obtain ⟨⟨cands, result, hc, htop, _, _, _, _, hlen, hz, _, hp⟩, _⟩ :=
    C19_idf_zero exampleOps h1 h2 h3 h5 h6 sort sort_meets_contract exampleServer
      exampleServer_reachable "cat".toList { plus_words := ["cat".toList], minus_words := [] }
      hq acceptAll h4 h7
  exact ⟨cands, result, hc, htop, hlen, hz, hp⟩

end SearchEngine
